import Mathlib

/-!
# prompt-injection-firewall: a shallow embedding of the inspection pipeline

The Go packages `config`, `policy`, `extract` and `proxy` are rendered as Lean
definitions, one per source function and under the source's name.  Functions of
the Go standard library that the code calls (`strings.ToLower`,
`regexp.MustCompile`, `json.Unmarshal`, ...) are not part of the repository and
enter as explicit arguments, so every statement below holds for whatever these
functions compute.

Conventions:
* a Go `(T, bool)` or `(T, error)` result is an `Option` or an `Except`;
* a `for ... range` loop with `append` is a `List.foldl`; a loop with an early
  `return` / `continue` is a structural recursion over the ranged slice (or
  `List.any` when it only answers whether some element passes a test);
* a Go `map[string]T` is an association list read with `List.lookup`.
-/

set_option autoImplicit false

/-! ## Package `config` -/

namespace config

/-- The record `config.Match`. -/
structure Match where
  Pattern : String
  ToolNames : List String
  Field : String
deriving DecidableEq

/-- The record `config.Rule`. -/
structure Rule where
  Name : String
  Stage : String
  Action : String
  Match : Match
deriving DecidableEq

end config

/-! ## Package `regexp` (standard library, abstract) -/

namespace regexp

/-- A compiled regular expression, known only through `MatchString`. -/
structure Regexp where
  MatchString : String → Bool

end regexp

/-! ## Package `policy` -/

namespace policy

/-- The Go type `Decision` is a string type. -/
abbrev Decision := String

/-- The constant `DecisionAllow`. -/
def DecisionAllow : Decision := "allow"

/-- The constant `DecisionDeny`. -/
def DecisionDeny : Decision := "deny"

/-- The constant `DecisionApprove`. -/
def DecisionApprove : Decision := "approve"

/-- The record `policy.Result`. -/
structure Result where
  Decision : Decision
  RuleName : String
  Reason : String
deriving DecidableEq

/-- The record `compiledRule`: a rule with its compiled pattern (`nil` is `none`). -/
structure compiledRule where
  Rule : config.Rule
  pattern : Option regexp.Regexp

/-- The record `Evaluator`. -/
structure Evaluator where
  rules : List compiledRule
  order : List Decision

/-- The function `parseOrder`: one pass over `order` appending the known
decisions, then the default when nothing was appended. -/
def parseOrder (ToLower : String → String) (order : List String) : List Decision :=
  let out := order.foldl
    (fun (out : List Decision) (item : String) =>
      if ToLower item = DecisionDeny then out ++ [DecisionDeny]
      else if ToLower item = DecisionApprove then out ++ [DecisionApprove]
      else if ToLower item = DecisionAllow then out ++ [DecisionAllow]
      else out)
    []
  if out.length = 0 then [DecisionDeny, DecisionApprove, DecisionAllow] else out

/-- The function `NewEvaluator`.  `MustCompile` returns `none` where Go panics,
and the panic propagates. -/
def NewEvaluator (ToLower : String → String) (MustCompile : String → Option regexp.Regexp)
    (rules : List config.Rule) (order : List String) : Option Evaluator :=
  let step (acc : Option (List compiledRule)) (rule : config.Rule) :
      Option (List compiledRule) :=
    match acc with
    | none => none
    | some compiled =>
      if rule.Match.Pattern ≠ "" then
        match MustCompile rule.Match.Pattern with
        | none => none
        | some re => some (compiled ++ [{ Rule := rule, pattern := some re }])
      else some (compiled ++ [{ Rule := rule, pattern := none }])
  match rules.foldl step (some []) with
  | none => none
  | some compiled => some { rules := compiled, order := parseOrder ToLower order }

/-- The function `hasAnyTool`: the key set of `lookup` is the list of lower-cased
tools; the second loop returns `true` at the first wanted name found in it. -/
def hasAnyTool (ToLower : String → String) (tools wanted : List String) : Bool :=
  let lookup := tools.foldl (fun (m : List String) (tool : String) => ToLower tool :: m) []
  wanted.any (fun name => decide (ToLower name ∈ lookup))

/-- The function `matches`. -/
def «matches» (ToLower : String → String) (rule : compiledRule) (text : String)
    (toolNames : List String) : Bool :=
  let patternFails : Bool :=
    match rule.pattern with
    | some re => decide (rule.Rule.Match.Pattern ≠ "") && !re.MatchString text
    | none => false
  if patternFails then false
  else if rule.Rule.Match.ToolNames.length > 0
      ∧ hasAnyTool ToLower toolNames rule.Rule.Match.ToolNames = false then false
  else true

/-- The method `Evaluator.matchStage`, on the already lower-cased `stage`. -/
def matchStage (ToLower : String → String) (rules : List compiledRule) (stage text : String)
    (toolNames : List String) (decision : Decision) : Option Result :=
  match rules with
  | [] => none
  | rule :: rest =>
    if ToLower rule.Rule.Stage ≠ stage then matchStage ToLower rest stage text toolNames decision
    else if ToLower rule.Rule.Action ≠ decision then
      matchStage ToLower rest stage text toolNames decision
    else if !«matches» ToLower rule text toolNames then
      matchStage ToLower rest stage text toolNames decision
    else some { Decision := decision, RuleName := rule.Rule.Name, Reason := "matched_rule" }

/-- The loop of `Evaluator.Evaluate` over the remaining decision order. -/
def evaluateOrder (ToLower : String → String) (rules : List compiledRule) (stage text : String)
    (toolNames : List String) : List Decision → Result
  | [] => { Decision := DecisionAllow, RuleName := "", Reason := "no_matching_rule" }
  | decision :: rest =>
    match matchStage ToLower rules stage text toolNames decision with
    | some res => res
    | none => evaluateOrder ToLower rules stage text toolNames rest

/-- The method `Evaluator.Evaluate`. -/
def Evaluate (ToLower : String → String) (e : Evaluator) (stage text : String)
    (toolNames : List String) : Result :=
  evaluateOrder ToLower e.rules (ToLower stage) text toolNames e.order

end policy

/-! ## Package `encoding/json` (standard library): decoded values -/

namespace json

/-- What `json.Unmarshal` stores into an `interface{}`: `nil`, `bool`, `float64`,
`string`, `[]interface{}` or `map[string]interface{}`. -/
inductive Value where
  | null
  | bool (b : Bool)
  | number (f : Float)
  | string (s : String)
  | array (items : List Value)
  | object (fields : List (String × Value))

end json

/-! ## Package `extract` -/

namespace extract

/-- The record `extract.Result`. -/
structure Result where
  Text : String
  ToolNames : List String
deriving DecidableEq

/-- The function `join`. -/
def join : List String → String
  | [] => ""
  | first :: rest => rest.foldl (fun (out : String) (part : String) => out ++ ("\n" ++ part)) first

/-- The function `dedupe`: the state of the loop is the key set `seen` and `out`. -/
def dedupe (items : List String) : List String :=
  (items.foldl
    (fun (st : List String × List String) (item : String) =>
      if item ∈ st.1 then st else (item :: st.1, st.2 ++ [item]))
    ([], [])).2

/-- The function `readTools`; an absent key reads as the `nil` interface. -/
def readTools (field : Option json.Value) : List String :=
  match field with
  | some (json.Value.array arr) =>
    arr.foldl
      (fun (out : List String) (item : json.Value) =>
        match item with
        | json.Value.object obj =>
          match obj.lookup "name" with
          | some (json.Value.string str) => out ++ [str]
          | _ => out
        | _ => out)
      []
  | _ => []

/-- The function `readContentArray`. -/
def readContentArray (arr : List json.Value) : List String :=
  arr.foldl
    (fun (out : List String) (item : json.Value) =>
      match item with
      | json.Value.object obj =>
        match obj.lookup "text" with
        | some (json.Value.string str) => out ++ [str]
        | _ => out
      | _ => out)
    []

/-- The function `readContent`. -/
def readContent (obj : List (String × json.Value)) : List String :=
  let out : List String := []
  let out :=
    match obj.lookup "content" with
    | some (json.Value.string val) => out ++ [val]
    | some (json.Value.array val) => out ++ readContentArray val
    | _ => out
  let out :=
    match obj.lookup "text" with
    | some (json.Value.string str) => out ++ [str]
    | _ => out
  out

/-- The function `readArrayStrings`. -/
def readArrayStrings (arr : List json.Value) : List String :=
  arr.foldl
    (fun (out : List String) (item : json.Value) =>
      match item with
      | json.Value.string str => out ++ [str]
      | _ => out)
    []

/-- The function `readArrayText`. -/
def readArrayText (arr : List json.Value) : List String :=
  arr.foldl
    (fun (out : List String) (item : json.Value) =>
      match item with
      | json.Value.string val => out ++ [val]
      | json.Value.object val => out ++ readContent val
      | _ => out)
    []

/-- The function `readPrompt`. -/
def readPrompt (prompt : json.Value) : List String :=
  match prompt with
  | json.Value.string val => [val]
  | json.Value.array val => readArrayStrings val
  | _ => []

/-- The function `readMessages`. -/
def readMessages (messages : json.Value) : List String :=
  match messages with
  | json.Value.array arr => readArrayText arr
  | _ => []

/-- The function `readInputField`. -/
def readInputField (input : json.Value) : List String :=
  match input with
  | json.Value.string val => [val]
  | json.Value.array val => readArrayText val
  | json.Value.object val => readContent val
  | _ => []

/-- The function `collectTools`. -/
def collectTools (root : List (String × json.Value)) : List String :=
  let out : List String := []
  let out := out ++ readTools (root.lookup "tools")
  let out := out ++ readTools (root.lookup "functions")
  dedupe out

/-- The function `collectText`. -/
def collectText (root : List (String × json.Value)) : String :=
  let parts : List String := []
  let parts :=
    match root.lookup "input" with
    | some input => parts ++ readInputField input
    | none => parts
  let parts :=
    match root.lookup "messages" with
    | some messages => parts ++ readMessages messages
    | none => parts
  let parts :=
    match root.lookup "prompt" with
    | some prompt => parts ++ readPrompt prompt
    | none => parts
  join parts

/-- The function `FromJSON`; `Unmarshal` is `json.Unmarshal` into an `interface{}`. -/
def FromJSON (Unmarshal : List UInt8 → Except String json.Value) (body : List UInt8) :
    Except String Result :=
  match Unmarshal body with
  | Except.error err => Except.error err
  | Except.ok raw =>
    match raw with
    | json.Value.object root =>
      Except.ok { Text := collectText root, ToolNames := collectTools root }
    | _ => Except.error "json root not object"

end extract

/-! ## Go maps, `strings`, `time`, `net/http` (standard library, concrete parts) -/

namespace gomap

/-- Assignment `m[k] = v`. -/
def set {α : Type} (m : List (String × α)) (k : String) (v : α) : List (String × α) :=
  (k, v) :: m.filter (fun e => decide (e.1 ≠ k))

/-- The builtin `delete(m, k)`. -/
def delete {α : Type} (m : List (String × α)) (k : String) : List (String × α) :=
  m.filter (fun e => decide (e.1 ≠ k))

end gomap

namespace strings

/-- The function `strings.TrimRight`. -/
def TrimRight (s cutset : String) : String :=
  String.mk (s.data.rdropWhile (fun c => decide (c ∈ cutset.data)))

/-- The function `strings.TrimLeft`. -/
def TrimLeft (s cutset : String) : String :=
  String.mk (s.data.dropWhile (fun c => decide (c ∈ cutset.data)))

end strings

namespace time

/-- Largest `time.Duration` (an `int64` count of nanoseconds). -/
def maxDuration : Int := 2 ^ 63 - 1

/-- Smallest `time.Duration`. -/
def minDuration : Int := -(2 ^ 63)

/-- The function `time.Since(t)` read at the instant `now`, instants being counts of
nanoseconds on one clock: the difference, saturated to the range of `Duration`. -/
def Since (now t : Int) : Int :=
  if now - t > maxDuration then maxDuration
  else if now - t < minDuration then minDuration
  else now - t

end time

namespace http

/-- The Go type `http.Header`, a `map[string][]string`. -/
abbrev Header := List (String × List String)

/-- The method `Header.Get`; `canon` is `textproto.CanonicalMIMEHeaderKey`. -/
def Header.Get (canon : String → String) (h : Header) (key : String) : String :=
  match h.lookup (canon key) with
  | some (v :: _) => v
  | _ => ""

/-- The method `Header.Set`. -/
def Header.Set (canon : String → String) (h : Header) (key value : String) : Header :=
  gomap.set h (canon key) [value]

/-- The method `Header.Add`. -/
def Header.Add (canon : String → String) (h : Header) (key value : String) : Header :=
  gomap.set h (canon key) ((h.lookup (canon key)).getD [] ++ [value])

/-- The method `Header.Del`. -/
def Header.Del (canon : String → String) (h : Header) (key : String) : Header :=
  gomap.delete h (canon key)

/-- The request body as a reader: the bytes it yields, and the error that ends it
when it does not end with `io.EOF`. -/
structure Body where
  data : List UInt8
  err : Option String

/-- The fields of `*http.Request` that the handlers read.  `RequestURI` is the
value of `r.URL.RequestURI()`. -/
structure Request where
  Method : String
  Path : String
  RawQuery : String
  RequestURI : String
  Header : Header
  Body : Option Body
  RemoteAddr : String

/-- The arguments of `http.NewRequest` with the header set built on the result:
the request handed to `client.Do`. -/
structure Outbound where
  method : String
  url : String
  header : Header
  body : List UInt8

/-- The upstream `*http.Response`. -/
structure Response where
  StatusCode : Nat
  Header : Header
  Body : List UInt8

end http

/-! ## Package `audit` -/

namespace audit

/-- The record `audit.Event`, without `Time` and `ElapsedMS` (wall-clock readings).
`TextSample` is kept as the bytes of the Go string. -/
structure Event where
  RequestID : String
  RemoteAddr : String
  Method : String
  Path : String
  Decision : String
  RuleName : String
  Reason : String
  TextSample : List UInt8
  ToolNames : List String
  Upstream : String
  ApprovalID : String
  StatusCode : Nat
  BytesIn : Nat
  BytesOut : Nat
  ErrorString : String

end audit

/-! ## Package `proxy` -/

namespace proxy

/-- The record `config.Approval`; `TTL` is a `time.Duration` in nanoseconds. -/
structure Approval where
  Enabled : Bool
  Token : String
  TTL : Int

/-- The fields of `config.Config` read by the proxy. -/
structure Config where
  Upstream : String
  MaxBodyBytes : Int
  Approval : Approval
  AddRequestIDHeader : Bool

/-- The record `pendingRequest`; `created` is an instant in nanoseconds. -/
structure pendingRequest where
  method : String
  path : String
  header : http.Header
  body : List UInt8
  created : Int

/-- The record `approvalStore` (the mutex is not modelled: every operation below
is one atomic step). -/
structure approvalStore where
  items : List (String × pendingRequest)
  ttl : Int

/-- The standard-library functions the proxy calls, and the upstream transport. -/
structure Stdlib where
  ToLower : String → String
  Unmarshal : List UInt8 → Except String json.Value
  UnmarshalApprovalID : List UInt8 → Except String String
  CanonicalHeaderKey : String → String
  SplitHostPort : String → Except String (String × String)
  urlParse : String → Except String (String × String)
  urlString : String → String → String → String
  NewRequest : String → String → Except String Unit
  Do : http.Outbound → Except String http.Response

/-- What one call of `ServeHTTP` draws from outside: the bytes `crypto/rand` gives
for the request id and for the approval id, and the clock readings taken when the
request is captured, when the store sweeps, and when a ticket is fetched. -/
structure Draws where
  requestID : List UInt8
  approvalID : List UInt8
  created : Int
  storeAt : Int
  fetchAt : Int

/-- The record `Server`; `logger` tells whether the logger is non-nil. -/
structure Server where
  cfg : Config
  evaluator : policy.Evaluator
  logger : Bool
  pending : approvalStore

/-- The body written by `writeJSON`: the payload given to `json.Marshal`, or the
bytes relayed from upstream. -/
inductive Payload where
  | marshal (fields : List (String × String))
  | bytes (data : List UInt8)

/-- What the client receives. -/
structure Reply where
  code : Nat
  header : http.Header
  body : Payload

/-- The observable effect of one call of `ServeHTTP`: the store afterwards, the
reply (`none` when the handler panics), the requests handed to `client.Do`, and
the audit events handed to `logger.Write`, both in order. -/
structure Outcome where
  pending : approvalStore
  reply : Option Reply
  upstream : List http.Outbound
  audit : List audit.Event

/-- The function `hex.EncodeToString`. -/
def hexEncode (buf : List UInt8) : String :=
  String.mk (buf.flatMap (fun b => [Nat.digitChar (b.toNat / 16), Nat.digitChar (b.toNat % 16)]))

/-- The function `newID`, on the 8 bytes read from `crypto/rand`. -/
def newID (buf : List UInt8) : String := hexEncode buf

/-- The method `approvalStore.cleanupLocked`, run at the instant `now`. -/
def cleanupLocked (s : approvalStore) (now : Int) : approvalStore :=
  if s.items.length = 0 then s
  else
    let items := s.items.foldl
      (fun (items : List (String × pendingRequest)) (e : String × pendingRequest) =>
        if time.Since now e.2.created > s.ttl then gomap.delete items e.1 else items)
      s.items
    { s with items := items }

/-- The method `approvalStore.store`, run at the instant `now` with the random
bytes `buf`. -/
def store (s : approvalStore) (req : pendingRequest) (now : Int) (buf : List UInt8) :
    String × approvalStore :=
  let s := cleanupLocked s now
  let id := newID buf
  (id, { s with items := gomap.set s.items id req })

/-- The method `approvalStore.fetch`, run at the instant `now`. -/
def fetch (s : approvalStore) (id : String) (now : Int) :
    Option pendingRequest × approvalStore :=
  match s.items.lookup id with
  | none => (none, s)
  | some req =>
    if time.Since now req.created > s.ttl then
      (none, { s with items := gomap.delete s.items id })
    else (some req, { s with items := gomap.delete s.items id })

/-- Wrap-around of `int64` arithmetic. -/
def wrap64 (n : Int) : Int := (n + 2 ^ 63) % 2 ^ 64 - 2 ^ 63

/-- The function `readBody`: `none` is a run-time panic (slice bound out of
range), otherwise the returned slice and error. -/
def readBody (body : Option http.Body) (limit : Int) :
    Option (List UInt8 × Option String) :=
  match body with
  | none => some ([], none)
  | some b =>
    let n := wrap64 (limit + 1)
    let data := if n ≤ 0 then [] else b.data.take n.toNat
    let err := if n ≤ 0 then none else if b.data.length < n.toNat then b.err else none
    match err with
    | some e => some ([], some e)
    | none =>
      if (data.length : Int) > limit then
        if limit < 0 then none else some (data.take limit.toNat, some "body too large")
      else some (data, none)

/-- The function `cloneHeader`. -/
def cloneHeader (header : http.Header) : http.Header :=
  header.foldl
    (fun (copy : http.Header) (e : String × List String) => gomap.set copy e.1 e.2)
    []

/-- The function `copyHeaders`. -/
def copyHeaders (canon : String → String) (dst src : http.Header) : http.Header :=
  src.foldl
    (fun (dst : http.Header) (e : String × List String) =>
      e.2.foldl (fun (dst : http.Header) (value : String) => http.Header.Add canon dst e.1 value)
        dst)
    dst

/-- The function `removeHopHeaders`. -/
def removeHopHeaders (canon : String → String) (header : http.Header) : http.Header :=
  ["Connection", "Proxy-Connection", "Keep-Alive", "Proxy-Authenticate",
    "Proxy-Authorization", "Te", "Trailers", "Transfer-Encoding", "Upgrade"].foldl
    (fun (h : http.Header) (key : String) => http.Header.Del canon h key)
    header

/-- The function `sample`: the first 200 bytes of the text. -/
def sample (text : String) : List UInt8 :=
  if text.utf8ByteSize ≤ 200 then text.toUTF8.toList else text.toUTF8.toList.take 200

/-- The function `joinPaths`. -/
def joinPaths (basePath path : String) : String :=
  if basePath = "" ∨ basePath = "/" then path
  else strings.TrimRight basePath "/" ++ "/" ++ strings.TrimLeft path "/"

/-- The function `addForwardedFor`, on the header set of the outbound request. -/
def addForwardedFor (L : Stdlib) (header : http.Header) (remoteAddr : String) : http.Header :=
  let ip :=
    match L.SplitHostPort remoteAddr with
    | Except.ok hp => hp.1
    | Except.error _ => remoteAddr
  let existing := http.Header.Get L.CanonicalHeaderKey header "X-Forwarded-For"
  if existing = "" then http.Header.Set L.CanonicalHeaderKey header "X-Forwarded-For" ip
  else http.Header.Set L.CanonicalHeaderKey header "X-Forwarded-For" (existing ++ ", " ++ ip)

/-- The function `writeJSON`. -/
def writeJSON (L : Stdlib) (code : Nat) (payload : List (String × String)) : Reply :=
  { code := code
    header := http.Header.Set L.CanonicalHeaderKey [] "Content-Type" "application/json"
    body := Payload.marshal payload }

/-- The function `writeError`. -/
def writeError (L : Stdlib) (code : Nat) (message : String) : Reply :=
  writeJSON L code [("error", message)]

/-- The method `Server.logEvent`: the events handed to `logger.Write`. -/
def logEvent (s : Server) (event : audit.Event) : List audit.Event :=
  if s.logger = false then [] else [event]

/-- The method `Server.inspect`. -/
def inspect (L : Stdlib) (s : Server) (body : List UInt8) :
    String × List String × policy.Decision × String × String :=
  match extract.FromJSON L.Unmarshal body with
  | Except.error _ => ("", [], policy.DecisionDeny, "", "invalid_json")
  | Except.ok result =>
    let res := policy.Evaluate L.ToLower s.evaluator "request" result.Text result.ToolNames
    (result.Text, result.ToolNames, res.Decision, res.RuleName, res.Reason)

/-- The method `Server.forward`: the result of `client.Do`, or the error met
before it, together with the requests handed to `client.Do`.  `urlParse` gives
the parsed upstream URL as its path and the rest of it, `urlString` puts the rest,
a path and a raw query back into a string. -/
def forward (L : Stdlib) (s : Server) (r : http.Request) (body : List UInt8)
    (requestID : String) : Except String http.Response × List http.Outbound :=
  match L.urlParse s.cfg.Upstream with
  | Except.error err => (Except.error err, [])
  | Except.ok upstreamURL =>
    let target := L.urlString upstreamURL.2 (joinPaths upstreamURL.1 r.Path) r.RawQuery
    match L.NewRequest r.Method target with
    | Except.error err => (Except.error err, [])
    | Except.ok _ =>
      let header := copyHeaders L.CanonicalHeaderKey [] r.Header
      let header := removeHopHeaders L.CanonicalHeaderKey header
      let header :=
        if s.cfg.AddRequestIDHeader then
          http.Header.Set L.CanonicalHeaderKey header "X-Request-ID" requestID
        else header
      let header := addForwardedFor L header r.RemoteAddr
      let req : http.Outbound := { method := r.Method, url := target, header := header, body := body }
      (L.Do req, [req])

/-- The method `Server.handleApprove`. -/
def handleApprove (L : Stdlib) (s : Server) (r : http.Request) (d : Draws) : Outcome :=
  if s.cfg.Approval.Enabled = false then
    { pending := s.pending, reply := some (writeError L 404 "approval_disabled"),
      upstream := [], audit := [] }
  else if r.Method ≠ "POST" then
    { pending := s.pending, reply := some (writeError L 405 "method_not_allowed"),
      upstream := [], audit := [] }
  else if s.cfg.Approval.Token ≠ ""
      ∧ http.Header.Get L.CanonicalHeaderKey r.Header "X-Approval-Token" ≠ s.cfg.Approval.Token then
    { pending := s.pending, reply := some (writeError L 401 "invalid_token"),
      upstream := [], audit := [] }
  else
    match readBody r.Body (1024 * 16) with
    | none => { pending := s.pending, reply := none, upstream := [], audit := [] }
    | some (_, some _) =>
      { pending := s.pending, reply := some (writeError L 400 "invalid_body"),
        upstream := [], audit := [] }
    | some (body, none) =>
      match L.UnmarshalApprovalID body with
      | Except.error _ =>
        { pending := s.pending, reply := some (writeError L 400 "invalid_approval_id"),
          upstream := [], audit := [] }
      | Except.ok approvalID =>
        if approvalID = "" then
          { pending := s.pending, reply := some (writeError L 400 "invalid_approval_id"),
            upstream := [], audit := [] }
        else
          match fetch s.pending approvalID d.fetchAt with
          | (none, pending) =>
            { pending := pending, reply := some (writeError L 404 "approval_not_found"),
              upstream := [], audit := [] }
          | (some req, pending) =>
            match L.NewRequest req.method (s.cfg.Upstream ++ req.path) with
            | Except.error _ =>
              { pending := pending, reply := some (writeError L 502 "upstream_error"),
                upstream := [], audit := [] }
            | Except.ok _ =>
              let header := copyHeaders L.CanonicalHeaderKey [] req.header
              let header := removeHopHeaders L.CanonicalHeaderKey header
              let out : http.Outbound :=
                { method := req.method, url := s.cfg.Upstream ++ req.path, header := header,
                  body := req.body }
              match L.Do out with
              | Except.error err =>
                { pending := pending, reply := some (writeError L 502 "upstream_error"),
                  upstream := [out],
                  audit := logEvent s
                    { RequestID := "", RemoteAddr := "", Method := "", Path := "",
                      Decision := policy.DecisionApprove, RuleName := "approval_handler",
                      Reason := err, TextSample := [], ToolNames := [],
                      Upstream := s.cfg.Upstream, ApprovalID := approvalID, StatusCode := 502,
                      BytesIn := 0, BytesOut := 0, ErrorString := err } }
              | Except.ok resp =>
                { pending := pending,
                  reply := some
                    { code := resp.StatusCode,
                      header := copyHeaders L.CanonicalHeaderKey [] resp.Header,
                      body := Payload.bytes resp.Body },
                  upstream := [out],
                  audit := logEvent s
                    { RequestID := "", RemoteAddr := "", Method := "", Path := "",
                      Decision := policy.DecisionApprove, RuleName := "approval_handler",
                      Reason := "approved_request", TextSample := [], ToolNames := [],
                      Upstream := s.cfg.Upstream, ApprovalID := approvalID,
                      StatusCode := resp.StatusCode, BytesIn := 0, BytesOut := 0,
                      ErrorString := "" } }

/-- The method `Server.ServeHTTP`. -/
def ServeHTTP (L : Stdlib) (s : Server) (r : http.Request) (d : Draws) : Outcome :=
  if r.Path = "/approve" then handleApprove L s r d
  else
    let requestID := newID d.requestID
    match readBody r.Body s.cfg.MaxBodyBytes with
    | none => { pending := s.pending, reply := none, upstream := [], audit := [] }
    | some (body, some _) =>
      { pending := s.pending, reply := some (writeError L 413 "body_too_large"), upstream := [],
        audit := logEvent s
          { RequestID := requestID, RemoteAddr := r.RemoteAddr, Method := r.Method,
            Path := r.Path, Decision := policy.DecisionDeny, RuleName := "",
            Reason := "body_too_large", TextSample := [], ToolNames := [],
            Upstream := s.cfg.Upstream, ApprovalID := "", StatusCode := 413,
            BytesIn := body.length, BytesOut := 0, ErrorString := "" } }
    | some (body, none) =>
      match inspect L s body with
      | (text, toolNames, decision, ruleName, reason) =>
        if decision = policy.DecisionDeny then
          { pending := s.pending, reply := some (writeError L 403 "blocked"), upstream := [],
            audit := logEvent s
              { RequestID := requestID, RemoteAddr := r.RemoteAddr, Method := r.Method,
                Path := r.Path, Decision := decision, RuleName := ruleName, Reason := reason,
                TextSample := sample text, ToolNames := toolNames, Upstream := s.cfg.Upstream,
                ApprovalID := "", StatusCode := 403, BytesIn := body.length, BytesOut := 0,
                ErrorString := "" } }
        else if decision = policy.DecisionApprove then
          if s.cfg.Approval.Enabled = false then
            { pending := s.pending, reply := some (writeError L 403 "approval_disabled"),
              upstream := [],
              audit := logEvent s
                { RequestID := requestID, RemoteAddr := r.RemoteAddr, Method := r.Method,
                  Path := r.Path, Decision := policy.DecisionDeny, RuleName := ruleName,
                  Reason := "approval_disabled", TextSample := sample text,
                  ToolNames := toolNames, Upstream := s.cfg.Upstream, ApprovalID := "",
                  StatusCode := 403, BytesIn := body.length, BytesOut := 0,
                  ErrorString := "" } }
          else
            match store s.pending
                { method := r.Method, path := r.RequestURI, header := cloneHeader r.Header,
                  body := body, created := d.created }
                d.storeAt d.approvalID with
            | (approvalID, pending) =>
              { pending := pending,
                reply := some (writeJSON L 202
                  [("approval_id", approvalID), ("status", "approval_required")]),
                upstream := [],
                audit := logEvent s
                  { RequestID := requestID, RemoteAddr := r.RemoteAddr, Method := r.Method,
                    Path := r.Path, Decision := decision, RuleName := ruleName,
                    Reason := reason, TextSample := sample text, ToolNames := toolNames,
                    Upstream := s.cfg.Upstream, ApprovalID := approvalID, StatusCode := 202,
                    BytesIn := body.length, BytesOut := 0, ErrorString := "" } }
        else
          match forward L s r body requestID with
          | (Except.error err, calls) =>
            { pending := s.pending, reply := some (writeError L 502 "upstream_error"),
              upstream := calls,
              audit := logEvent s
                { RequestID := requestID, RemoteAddr := r.RemoteAddr, Method := r.Method,
                  Path := r.Path, Decision := decision, RuleName := ruleName, Reason := err,
                  TextSample := sample text, ToolNames := toolNames,
                  Upstream := s.cfg.Upstream, ApprovalID := "", StatusCode := 502,
                  BytesIn := body.length, BytesOut := 0, ErrorString := err } }
          | (Except.ok resp, calls) =>
            { pending := s.pending,
              reply := some
                { code := resp.StatusCode,
                  header := copyHeaders L.CanonicalHeaderKey [] resp.Header,
                  body := Payload.bytes resp.Body },
              upstream := calls,
              audit := logEvent s
                { RequestID := requestID, RemoteAddr := r.RemoteAddr, Method := r.Method,
                  Path := r.Path, Decision := decision, RuleName := ruleName, Reason := reason,
                  TextSample := sample text, ToolNames := toolNames,
                  Upstream := s.cfg.Upstream, ApprovalID := "", StatusCode := resp.StatusCode,
                  BytesIn := body.length, BytesOut := resp.Body.length, ErrorString := "" } }

end proxy

/-! ## Concrete stand-ins for running the definitions -/

/-- ASCII lower-casing, used to run the definitions on concrete inputs. -/
def asciiLower (s : String) : String := String.mk (s.data.map Char.toLower)

/-- A matcher for concrete runs: the text contains the given characters in a row. -/
def containsRe (needle : String) : regexp.Regexp :=
  { MatchString := fun text => decide (needle.data <:+: text.data) }


namespace policy

/-- The rule `allow_all` of `TestEvaluatorOrder`; its pattern `.*` matches every text. -/
def ruleAllowAll : compiledRule :=
  { Rule := { Name := "allow_all", Stage := "request", Action := "allow",
              Match := { Pattern := ".*", ToolNames := [], Field := "" } },
    pattern := some { MatchString := fun _ => true } }

/-- The rule `deny_secret` of `TestEvaluatorOrder`. -/
def ruleDenySecret : compiledRule :=
  { Rule := { Name := "deny_secret", Stage := "request", Action := "deny",
              Match := { Pattern := "secret", ToolNames := [], Field := "" } },
    pattern := some (containsRe "secret") }

/-- The evaluator of `TestEvaluatorOrder`. -/
def testEvaluator : Evaluator :=
  { rules := [ruleAllowAll, ruleDenySecret], order := parseOrder asciiLower ["deny", "allow"] }

end policy

namespace proxy

/-- The payload of `TestProxyAllowForwardsToUpstream`, decoded. -/
def testPayload : json.Value :=
  json.Value.object
    [("messages", json.Value.array
      [json.Value.object [("role", json.Value.string "user"),
        ("content", json.Value.string "hello")]])]

/-- The bytes of that payload. -/
def testPayloadBytes : List UInt8 :=
  [123, 34, 109, 101, 115, 115, 97, 103, 101, 115, 34, 58, 91, 123, 34, 114, 111, 108, 101,
    34, 58, 34, 117, 115, 101, 114, 34, 44, 34, 99, 111, 110, 116, 101, 110, 116, 34, 58, 34,
    104, 101, 108, 108, 111, 34, 125, 93, 125]

/-- Stand-ins for the standard library: a decoder that knows the test payload only,
identity header keys, an upstream that answers 200. -/
def testLib : Stdlib :=
  { ToLower := asciiLower
    Unmarshal := fun body =>
      if body = testPayloadBytes then Except.ok testPayload else Except.error "invalid character"
    UnmarshalApprovalID := fun _ => Except.error "invalid character"
    CanonicalHeaderKey := fun key => key
    SplitHostPort := fun addr => Except.error ("missing port in address " ++ addr)
    urlParse := fun raw => Except.ok ("", raw)
    urlString := fun rest path query => rest ++ path ++ (if query = "" then "" else "?" ++ query)
    NewRequest := fun _ _ => Except.ok ()
    Do := fun _ => Except.ok { StatusCode := 200, Header := [], Body := [] } }

/-- The server of `TestProxyAllowForwardsToUpstream`: one rule `allow_all`, decision
order `[allow]`, a body limit of 1 MiB, approval disabled, an empty store. -/
def testServer : Server :=
  { cfg := { Upstream := "http://upstream", MaxBodyBytes := 1024 * 1024,
             Approval := { Enabled := false, Token := "", TTL := 0 },
             AddRequestIDHeader := false }
    evaluator := { rules := [policy.ruleAllowAll], order := policy.parseOrder asciiLower ["allow"] }
    logger := true
    pending := { items := [], ttl := 0 } }

/-- The request of `TestProxyAllowForwardsToUpstream`. -/
def testRequest : http.Request :=
  { Method := "POST", Path := "/v1/chat", RawQuery := "", RequestURI := "/v1/chat",
    Header := [("Content-Type", ["application/json"])],
    Body := some { data := testPayloadBytes, err := none },
    RemoteAddr := "127.0.0.1:50000" }

/-- Some random bytes and clock readings. -/
def testDraws : Draws :=
  { requestID := [0, 1, 2, 3, 4, 5, 6, 7], approvalID := [8, 9, 10, 11, 12, 13, 14, 15],
    created := 1000, storeAt := 1001, fetchAt := 2000 }

/-- A pending request created at instant 100. -/
def demoPending : pendingRequest :=
  { method := "POST", path := "/v1/chat", header := [], body := [], created := 100 }

/-- A store holding `demoPending` under the ticket `00ff`, with a TTL of 50. -/
def demoStore : approvalStore := { items := [("00ff", demoPending)], ttl := 50 }

end proxy

/-! ## Reference definitions, worded after the specification -/

namespace policy

/-- Specification, evaluator: a rule applies to decision `d` when its lower-cased
stage equals the (lower-cased) input stage, its lower-cased action equals `d`,
and its match predicate holds. -/
def ruleApplies (ToLower : String → String) (stage text : String) (toolNames : List String)
    (d : Decision) (r : compiledRule) : Bool :=
  decide (ToLower r.Rule.Stage = ToLower stage) && decide (ToLower r.Rule.Action = d)
    && «matches» ToLower r text toolNames

/-- Specification, evaluator: the earliest entry `d` of the decision order to which
some rule applies gives the decision, the first rule in declaration order that
applies to `d` gives the rule name; with no such entry the result is `Allow`,
no rule name, `no_matching_rule`. -/
def EvaluateRef (ToLower : String → String) (e : Evaluator) (stage text : String)
    (toolNames : List String) : Result :=
  match e.order.find? (fun d => e.rules.any (ruleApplies ToLower stage text toolNames d)) with
  | some d =>
    { Decision := d
      RuleName :=
        match e.rules.find? (ruleApplies ToLower stage text toolNames d) with
        | some r => r.Rule.Name
        | none => ""
      Reason := "matched_rule" }
  | none => { Decision := DecisionAllow, RuleName := "", Reason := "no_matching_rule" }

end policy

namespace extract

/-- Specification, content rule: for an object, the string under `content`, or, when
`content` is an array, the `text` of every element that is an object with a string
`text`; then the object's own `text` if it is a string. -/
def contentRule (o : List (String × json.Value)) : List String :=
  (match o.lookup "content" with
    | some (json.Value.string s) => [s]
    | some (json.Value.array items) =>
      items.filterMap (fun item =>
        match item with
        | json.Value.object fields =>
          match fields.lookup "text" with
          | some (json.Value.string t) => some t
          | _ => none
        | _ => none)
    | _ => [])
  ++ (match o.lookup "text" with
    | some (json.Value.string t) => [t]
    | _ => [])

/-- Specification, array rule: strings contribute themselves, objects contribute by
the content rule, other shapes are skipped. -/
def arrayRule (items : List json.Value) : List String :=
  items.flatMap (fun item =>
    match item with
    | json.Value.string s => [s]
    | json.Value.object o => contentRule o
    | _ => [])

/-- Specification: the contributions of the key `input`. -/
def inputContributions (root : List (String × json.Value)) : List String :=
  match root.lookup "input" with
  | some (json.Value.string s) => [s]
  | some (json.Value.array items) => arrayRule items
  | some (json.Value.object o) => contentRule o
  | _ => []

/-- Specification: the contributions of the key `messages`. -/
def messagesContributions (root : List (String × json.Value)) : List String :=
  match root.lookup "messages" with
  | some (json.Value.array items) => arrayRule items
  | _ => []

/-- Specification: the contributions of the key `prompt`. -/
def promptContributions (root : List (String × json.Value)) : List String :=
  match root.lookup "prompt" with
  | some (json.Value.string s) => [s]
  | some (json.Value.array items) =>
    items.filterMap (fun item =>
      match item with
      | json.Value.string s => some s
      | _ => none)
  | _ => []

/-- Specification: the names a tools field contributes, the string-valued `name` of
every object element of an array. -/
def declaredNames (field : Option json.Value) : List String :=
  match field with
  | some (json.Value.array items) =>
    items.filterMap (fun item =>
      match item with
      | json.Value.object o =>
        match o.lookup "name" with
        | some (json.Value.string s) => some s
        | _ => none
      | _ => none)
  | _ => []

/-- Specification: the names collected from `tools`, then from `functions`. -/
def collectedNames (root : List (String × json.Value)) : List String :=
  declaredNames (root.lookup "tools") ++ declaredNames (root.lookup "functions")

/-- The loop of `dedupe` from a given key set: what it appends to `out`. -/
def dedupeFrom (seen : List String) : List String → List String
  | [] => []
  | item :: rest =>
    if item ∈ seen then dedupeFrom seen rest else item :: dedupeFrom (item :: seen) rest

end extract

namespace proxy

/-- A run of `fetch` calls, each with its ticket id and instant, with nothing else
touching the store in between: the id and result of every call, in order. -/
def fetchAll (s : approvalStore) : List (String × Int) → List (String × Option pendingRequest)
  | [] => []
  | call :: rest =>
    (call.1, (fetch s call.1 call.2).1) :: fetchAll (fetch s call.1 call.2).2 rest

end proxy

namespace policy

/-- The rule `approve_tools` of `TestEvaluatorToolMatch`: no pattern, one tool name. -/
def ruleApproveTools : compiledRule :=
  { Rule := { Name := "approve_tools", Stage := "request", Action := "approve",
              Match := { Pattern := "", ToolNames := ["file_write"], Field := "" } },
    pattern := none }

end policy

namespace proxy

/-- The entries of the store that are live at the instant `now`: those the sweep of
`cleanupLocked` keeps. -/
def live (s : approvalStore) (now : Int) : List (String × pendingRequest) :=
  s.items.filter (fun e => !decide (time.Since now e.2.created > s.ttl))

/-- A store holding `demoPending` under the ticket that `newID` spells for the
bytes 0 to 7, with a TTL of 50. -/
def collideStore : approvalStore :=
  { items := [("0001020304050607", demoPending)], ttl := 50 }

/-- Another pending request, created at instant 120. -/
def otherPending : pendingRequest :=
  { method := "POST", path := "/v2/other", header := [], body := [1], created := 120 }

end proxy

namespace proxy

/-- The precondition checks of `/approve` that come before the ticket lookup all
pass, and the payload carries the non-empty approval id `id`. -/
def passesChecks (L : Stdlib) (s : Server) (r : http.Request) (id : String) : Prop :=
  s.cfg.Approval.Enabled = true
    ∧ r.Method = "POST"
    ∧ (s.cfg.Approval.Token = ""
      ∨ http.Header.Get L.CanonicalHeaderKey r.Header "X-Approval-Token" = s.cfg.Approval.Token)
    ∧ ∃ body, readBody r.Body (1024 * 16) = some (body, none)
        ∧ L.UnmarshalApprovalID body = Except.ok id ∧ id ≠ ""

/-- The request that `handleApprove` hands to the upstream client for a fetched
pending request. -/
def replayRequest (L : Stdlib) (s : Server) (req : pendingRequest) : http.Outbound :=
  { method := req.method, url := s.cfg.Upstream ++ req.path,
    header := removeHopHeaders L.CanonicalHeaderKey
      (copyHeaders L.CanonicalHeaderKey [] req.header),
    body := req.body }

/-- The bytes of the approver's payload for the ticket `00ff`. -/
def approveBytes : List UInt8 :=
  [123, 34, 97, 112, 112, 114, 111, 118, 97, 108, 95, 105, 100, 34, 58, 34, 48, 48, 102,
    102, 34, 125]

/-- Stand-ins as in `testLib`, with a payload decoder that knows `approveBytes` only. -/
def approveLib : Stdlib :=
  { testLib with
    UnmarshalApprovalID := fun body =>
      if body = approveBytes then Except.ok "00ff" else Except.error "invalid character" }

/-- A server as in `TestProxyApproveFlow`: approval enabled with the token `secret`,
one rule `approve_tools`, decision order `[approve]`; its store is `demoStore`. -/
def approveServer : Server :=
  { cfg := { Upstream := "http://upstream", MaxBodyBytes := 1024 * 1024,
             Approval := { Enabled := true, Token := "secret", TTL := 50 },
             AddRequestIDHeader := false }
    evaluator := { rules := [policy.ruleApproveTools],
                   order := policy.parseOrder asciiLower ["approve"] }
    logger := true
    pending := demoStore }

/-- The approver's request for the ticket `00ff`. -/
def approveRequest : http.Request :=
  { Method := "POST", Path := "/approve", RawQuery := "", RequestURI := "/approve",
    Header := [("Content-Type", ["application/json"]), ("X-Approval-Token", ["secret"])],
    Body := some { data := approveBytes, err := none },
    RemoteAddr := "127.0.0.1:50001" }

/-- The same request with a body whose read ends in an error after the last byte. -/
def brokenApproveRequest : http.Request :=
  { approveRequest with Body := some { data := approveBytes, err := some "unexpected EOF" } }

/-- Random bytes and clock readings for the approver's call, at instant 120. -/
def approveDraws : Draws :=
  { requestID := [0, 1, 2, 3, 4, 5, 6, 7], approvalID := [8, 9, 10, 11, 12, 13, 14, 15],
    created := 120, storeAt := 120, fetchAt := 120 }

end proxy

namespace proxy

/-- A request within the body limit whose read ends in an error; its bytes spell
`not`, which the decoder of `testLib` rejects. -/
def brokenRequest : http.Request :=
  { testRequest with Body := some { data := [110, 111, 116], err := some "unexpected EOF" } }

/-- The same bytes read without error. -/
def plainRequest : http.Request :=
  { testRequest with Body := some { data := [110, 111, 116], err := none } }

/-- The server `testServer` with `max_body_bytes: -1`. -/
def negativeLimitServer : Server :=
  { testServer with cfg := { testServer.cfg with MaxBodyBytes := -1 } }

end proxy

namespace proxy

/-- The values a header set holds under the map key `k`, none for an absent key. -/
def valuesAt (h : http.Header) (k : String) : List String := (h.lookup k).getD []

/-- The hop-by-hop header names of the specification. -/
def hopByHop : List String :=
  ["Connection", "Proxy-Connection", "Keep-Alive", "Proxy-Authenticate",
    "Proxy-Authorization", "Te", "Trailers", "Transfer-Encoding", "Upgrade"]

end proxy

namespace proxy

/-- The header set `forward` builds for the outbound request. -/
def forwardHeader (L : Stdlib) (s : Server) (r : http.Request) (requestID : String) :
    http.Header :=
  addForwardedFor L
    (if s.cfg.AddRequestIDHeader then
      http.Header.Set L.CanonicalHeaderKey
        (removeHopHeaders L.CanonicalHeaderKey (copyHeaders L.CanonicalHeaderKey [] r.Header))
        "X-Request-ID" requestID
    else removeHopHeaders L.CanonicalHeaderKey (copyHeaders L.CanonicalHeaderKey [] r.Header))
    r.RemoteAddr

/-- Header keys as `textproto.CanonicalMIMEHeaderKey` writes them, on the names the
proxy uses: the hop-by-hop names and `X-Forwarded-For` are already canonical,
`X-Request-ID` becomes `X-Request-Id`. -/
def canonFacts (canon : String → String) : Prop :=
  (∀ x ∈ hopByHop, canon x = x)
    ∧ canon "X-Forwarded-For" = "X-Forwarded-For"
    ∧ canon "X-Request-ID" = "X-Request-Id"

/-- A header set as the HTTP server hands it over: a map (distinct keys) whose keys
are canonical. -/
def canonicalHeader (canon : String → String) (h : http.Header) : Prop :=
  (∀ e ∈ h, canon e.1 = e.1) ∧ (h.map Prod.fst).Nodup

/-- Stand-in for `textproto.CanonicalMIMEHeaderKey` on the keys of the examples. -/
def demoCanon (key : String) : String :=
  if key = "X-Request-ID" then "X-Request-Id" else key

/-- An inbound header set with a hop-by-hop header and a repeated header. -/
def demoHeader : http.Header :=
  [("Connection", ["keep-alive"]), ("Accept", ["text/plain", "application/json"]),
    ("Upgrade", ["h2c"])]

end proxy
namespace proxy

/-- The stand-ins of `testLib` with `demoCanon` for the header keys. -/
def headerLib : Stdlib := { testLib with CanonicalHeaderKey := demoCanon }

/-- The request of `testRequest` carrying `demoHeader`. -/
def headerRequest : http.Request := { testRequest with Header := demoHeader }

/-- Stand-ins as in `approveLib`, with a URL parser that knows the upstream
`http://upstream/` (base path `/`) only. -/
def slashLib : Stdlib :=
  { approveLib with
    urlParse := fun raw =>
      if raw = "http://upstream/" then Except.ok ("/", "http://upstream")
      else Except.error "parse error" }

/-- The server `approveServer` with the upstream written with a trailing slash. -/
def slashServer : Server :=
  { approveServer with cfg := { approveServer.cfg with Upstream := "http://upstream/" } }

end proxy

namespace proxy

/-- The payload of `TestProxyApproveFlow`, decoded. -/
def flowPayload : json.Value :=
  json.Value.object
    [("messages", json.Value.array
      [json.Value.object [("role", json.Value.string "user"),
        ("content", json.Value.string "hello")]]),
      ("tools", json.Value.array
        [json.Value.object [("name", json.Value.string "file_write")]])]

/-- The bytes of that payload. -/
def flowBytes : List UInt8 :=
  [123, 34, 109, 101, 115, 115, 97, 103, 101, 115, 34, 58, 91, 123, 34, 114, 111, 108, 101,
    34, 58, 34, 117, 115, 101, 114, 34, 44, 34, 99, 111, 110, 116, 101, 110, 116, 34, 58, 34,
    104, 101, 108, 108, 111, 34, 125, 93, 44, 34, 116, 111, 111, 108, 115, 34, 58, 91, 123,
    34, 110, 97, 109, 101, 34, 58, 34, 102, 105, 108, 101, 95, 119, 114, 105, 116, 101, 34,
    125, 93, 125]

/-- Stand-ins as in `approveLib`, with a decoder that knows `flowBytes` only. -/
def flowLib : Stdlib :=
  { approveLib with
    Unmarshal := fun body =>
      if body = flowBytes then Except.ok flowPayload else Except.error "invalid character" }

/-- The first request of `TestProxyApproveFlow`. -/
def flowRequest : http.Request :=
  { testRequest with Body := some { data := flowBytes, err := none } }

end proxy

namespace policy

/-- Specification, decision order: the entries lower-cased, those other than deny,
approve, allow dropped, relative order kept; the default when nothing is left. -/
def normalizeOrder (ToLower : String → String) (order : List String) : List Decision :=
  let kept := (order.map ToLower).filter
    (fun d => decide (d = DecisionDeny ∨ d = DecisionApprove ∨ d = DecisionAllow))
  if kept = [] then [DecisionDeny, DecisionApprove, DecisionAllow] else kept

/-- The rules whose lower-cased action occurs in the decision order. -/
def rulesInOrder (ToLower : String → String) (e : Evaluator) : List compiledRule :=
  e.rules.filter (fun r => decide (ToLower r.Rule.Action ∈ e.order))

end policy

namespace proxy

/-- The approver's request without the `X-Approval-Token` header. -/
def tokenlessRequest : http.Request :=
  { approveRequest with Header := [("Content-Type", ["application/json"])] }

/-- A pending request created at instant 10. -/
def oldPending : pendingRequest :=
  { method := "POST", path := "/v0/old", header := [], body := [], created := 10 }

/-- A store with a TTL of 50 holding `demoPending` (created at 100) and `oldPending`
(created at 10). -/
def twoStore : approvalStore :=
  { items := [("00ff", demoPending), ("0a0a", oldPending)], ttl := 50 }

end proxy

namespace proxy

/-- The stand-ins of `headerLib` with a `net.SplitHostPort` that knows the address
`3.3.3.3:5000` only. -/
def xffLib : Stdlib :=
  { headerLib with
    SplitHostPort := fun addr =>
      if addr = "3.3.3.3:5000" then Except.ok ("3.3.3.3", "5000")
      else Except.error "missing port in address" }

/-- An inbound request from `3.3.3.3:5000` carrying two `X-Forwarded-For` lines. -/
def xffRequest : http.Request :=
  { testRequest with
    Header := [("X-Forwarded-For", ["1.1.1.1", "2.2.2.2"])]
    RemoteAddr := "3.3.3.3:5000" }

end proxy

namespace extract

/-- Specification, document order inside one object: the contributions of `content`
and `text` in the order in which the two keys are written. -/
def contentDocumentOrder (o : List (String × json.Value)) : List String :=
  o.flatMap (fun kv =>
    if kv.1 = "content" then
      match kv.2 with
      | json.Value.string s => [s]
      | json.Value.array items =>
        items.filterMap (fun item =>
          match item with
          | json.Value.object fields =>
            match fields.lookup "text" with
            | some (json.Value.string t) => some t
            | _ => none
          | _ => none)
      | _ => []
    else if kv.1 = "text" then
      match kv.2 with
      | json.Value.string t => [t]
      | _ => []
    else [])

/-- Specification, document order of an array: its elements in array order. -/
def arrayDocumentOrder (items : List json.Value) : List String :=
  items.flatMap (fun item =>
    match item with
    | json.Value.string s => [s]
    | json.Value.object o => contentDocumentOrder o
    | _ => [])

/-- Specification, document order: the contributing strings of the body in the order
in which they are written, the fields of the root listed as written. -/
def documentOrder (root : List (String × json.Value)) : List String :=
  root.flatMap (fun kv =>
    if kv.1 = "input" then
      match kv.2 with
      | json.Value.string s => [s]
      | json.Value.array items => arrayDocumentOrder items
      | json.Value.object o => contentDocumentOrder o
      | _ => []
    else if kv.1 = "messages" then
      match kv.2 with
      | json.Value.array items => arrayDocumentOrder items
      | _ => []
    else if kv.1 = "prompt" then
      match kv.2 with
      | json.Value.string s => [s]
      | json.Value.array items =>
        items.filterMap (fun item =>
          match item with
          | json.Value.string s => some s
          | _ => none)
      | _ => []
    else [])

/-- The body `{"prompt":"a","messages":["b"]}`, fields as written. -/
def promptFirstBody : List (String × json.Value) :=
  [("prompt", json.Value.string "a"), ("messages", json.Value.array [json.Value.string "b"])]

/-- The body `{"messages":["b"],"prompt":"a"}`, fields as written. -/
def messagesFirstBody : List (String × json.Value) :=
  [("messages", json.Value.array [json.Value.string "b"]), ("prompt", json.Value.string "a")]

/-- The body `{"input":{"text":"t","content":"c"}}`, fields as written. -/
def textFirstBody : List (String × json.Value) :=
  [("input", json.Value.object
    [("text", json.Value.string "t"), ("content", json.Value.string "c")])]

end extract

/-! ## JSON texts as written

`json.Value` is what the decoder hands to `FromJSON`; the definitions here describe
a body before decoding, where a number is still the literal that was written. -/

namespace json

/-- A scalar of a JSON text as written: a number keeps its literal. -/
inductive Scalar where
  | null
  | bool (b : Bool)
  | number (literal : String)
  | string (s : String)
deriving DecidableEq

/-- A member value of a written object, one level deep: a scalar or an array of
scalars. -/
inductive Member where
  | scalar (v : Scalar)
  | array (items : List Scalar)
deriving DecidableEq

/-- The JSON grammar of an exponent: nothing, or `e` / `E`, an optional sign and at
least one digit. -/
def exponentOK (cs : List Char) : Bool :=
  match cs with
  | [] => true
  | e :: rest =>
    if e = 'e' ∨ e = 'E' then
      match rest with
      | '+' :: ds => !ds.isEmpty && ds.all Char.isDigit
      | '-' :: ds => !ds.isEmpty && ds.all Char.isDigit
      | ds => !ds.isEmpty && ds.all Char.isDigit
    else false

/-- The JSON grammar of what follows the integer part of a number: an optional
fraction, a dot and at least one digit, then an optional exponent. -/
def fractionOK (cs : List Char) : Bool :=
  match cs with
  | '.' :: rest =>
    !(rest.takeWhile Char.isDigit).isEmpty && exponentOK (rest.dropWhile Char.isDigit)
  | _ => exponentOK cs

/-- The JSON grammar of an unsigned number: `0` or a digit other than `0` followed by
digits, then the optional fraction and exponent. -/
def unsignedOK (cs : List Char) : Bool :=
  match cs with
  | [] => false
  | '0' :: rest => fractionOK rest
  | c :: rest => c.isDigit && fractionOK (rest.dropWhile Char.isDigit)

/-- The JSON grammar of a number literal (RFC 8259, section 6): an optional minus
sign and an unsigned number. The grammar bounds neither the digits nor the exponent. -/
def validNumber (literal : String) : Bool :=
  match literal.data with
  | '-' :: rest => unsignedOK rest
  | cs => unsignedOK cs

/-- A string that is written between quotes as it stands: no quote, no backslash and
no control character. -/
def plainString (s : String) : Bool :=
  s.data.all (fun c => c != '"' && c != '\\' && 32 ≤ c.toNat)

/-- A scalar that the JSON grammar admits. -/
def Scalar.wellFormed : Scalar → Bool
  | Scalar.null => true
  | Scalar.bool _ => true
  | Scalar.number literal => validNumber literal
  | Scalar.string s => plainString s

/-- A member value that the JSON grammar admits. -/
def Member.wellFormed : Member → Bool
  | Member.scalar v => v.wellFormed
  | Member.array items => items.all Scalar.wellFormed

/-- A written object that the JSON grammar admits: plain keys and admitted values. -/
def wellFormed (fields : List (String × Member)) : Bool :=
  fields.all (fun kv => plainString kv.1 && kv.2.wellFormed)

/-- The text of a scalar. -/
def Scalar.text : Scalar → String
  | Scalar.null => "null"
  | Scalar.bool true => "true"
  | Scalar.bool false => "false"
  | Scalar.number literal => literal
  | Scalar.string s => "\"" ++ s ++ "\""

/-- The text of a member value. -/
def Member.text : Member → String
  | Member.scalar v => v.text
  | Member.array items => "[" ++ String.intercalate "," (items.map Scalar.text) ++ "]"

/-- The text of an object with the given fields, without white space. -/
def objectText (fields : List (String × Member)) : String :=
  "\x7b" ++ String.intercalate "," (fields.map (fun kv => "\"" ++ kv.1 ++ "\":" ++ kv.2.text))
    ++ "\x7d"

/-- The bytes of a text of ASCII characters. -/
def asciiBytes (s : String) : List UInt8 :=
  s.data.map (fun c => UInt8.ofNat c.toNat)

end json

namespace extract

/-- The object `{"messages":["hi"],"n":1e400}` as written. -/
def rangeFields : List (String × json.Member) :=
  [("messages", json.Member.array [json.Scalar.string "hi"]),
    ("n", json.Member.scalar (json.Scalar.number "1e400"))]

/-- The bytes of the body `{"messages":["hi"],"n":1e400}`. -/
def rangeBody : List UInt8 :=
  [123, 34, 109, 101, 115, 115, 97, 103, 101, 115, 34, 58, 91, 34, 104, 105, 34, 93, 44, 34,
    110, 34, 58, 49, 101, 52, 48, 48, 125]

/-- The object `{"messages":["hi"],"n":1}` as written. -/
def smallFields : List (String × json.Member) :=
  [("messages", json.Member.array [json.Scalar.string "hi"]),
    ("n", json.Member.scalar (json.Scalar.number "1"))]

/-- The bytes of the body `{"messages":["hi"],"n":1}`. -/
def smallBody : List UInt8 :=
  [123, 34, 109, 101, 115, 115, 97, 103, 101, 115, 34, 58, 91, 34, 104, 105, 34, 93, 44, 34,
    110, 34, 58, 49, 125]

/-- Stand-in for `json.Unmarshal` on these two bodies. Decoding into an `interface{}`
turns every number literal into a `float64` with `strconv.ParseFloat`; `1e400` is out of
the range of a `float64`, and `json.Unmarshal` returns the `UnmarshalTypeError` of that
literal. With `1` in its place the body decodes to an object. -/
def rangeUnmarshal (body : List UInt8) : Except String json.Value :=
  if body = rangeBody then
    Except.error "json: cannot unmarshal number 1e400 into Go value of type float64"
  else if body = smallBody then
    Except.ok (json.Value.object
      [("messages", json.Value.array [json.Value.string "hi"]), ("n", json.Value.number 1)])
  else Except.error "invalid character"

end extract

/-! # Theorems -/

/-! ## Evaluator -/

namespace policy

theorem matchStage_eq_find (ToLower : String → String) (rules : List compiledRule)
    (stage text : String) (toolNames : List String) (d : Decision) :
    matchStage ToLower rules (ToLower stage) text toolNames d
      = (rules.find? (ruleApplies ToLower stage text toolNames d)).map
          (fun r => { Decision := d, RuleName := r.Rule.Name, Reason := "matched_rule" }) := by
  induction rules with
  | nil => simp [matchStage]
  | cons r rest ih =>
    unfold matchStage
    by_cases h1 : ToLower r.Rule.Stage = ToLower stage
    · by_cases h2 : ToLower r.Rule.Action = d
      · cases h3 : «matches» ToLower r text toolNames
        · simp [List.find?, ruleApplies, h1, h2, h3, ih]
        · simp [List.find?, ruleApplies, h1, h2, h3]
      · simp [List.find?, ruleApplies, h1, h2, ih]
    · simp [List.find?, ruleApplies, h1, ih]

theorem matchStage_isSome (ToLower : String → String) (rules : List compiledRule)
    (stage text : String) (toolNames : List String) (d : Decision) :
    (matchStage ToLower rules (ToLower stage) text toolNames d).isSome
      = rules.any (ruleApplies ToLower stage text toolNames d) := by
  rw [matchStage_eq_find]
  induction rules with
  | nil => simp
  | cons r rest ih =>
    cases h : ruleApplies ToLower stage text toolNames d r
    · simpa [List.find?, h] using ih
    · simp [List.find?, h]

theorem evaluateOrder_eq (ToLower : String → String) (rules : List compiledRule)
    (stage text : String) (toolNames : List String) (order : List Decision) :
    evaluateOrder ToLower rules (ToLower stage) text toolNames order
      = EvaluateRef ToLower { rules := rules, order := order } stage text toolNames := by
  induction order with
  | nil => simp [evaluateOrder, EvaluateRef]
  | cons d ds ih =>
    unfold evaluateOrder
    rw [matchStage_eq_find]
    cases hf : rules.find? (ruleApplies ToLower stage text toolNames d) with
    | none =>
      have hany : rules.any (ruleApplies ToLower stage text toolNames d) = false := by
        rw [← matchStage_isSome, matchStage_eq_find, hf]; rfl
      simp only [Option.map_none']
      rw [ih]
      simp [EvaluateRef, List.find?, hany]
    | some r =>
      have hany : rules.any (ruleApplies ToLower stage text toolNames d) = true := by
        rw [← matchStage_isSome, matchStage_eq_find, hf]; rfl
      simp [EvaluateRef, List.find?, hany, hf]

theorem any_perm {α : Type} (p : α → Bool) {l₁ l₂ : List α} (h : l₁.Perm l₂) :
    l₁.any p = l₂.any p := by
  rw [Bool.eq_iff_iff]
  simp only [List.any_eq_true]
  constructor
  · rintro ⟨x, hx, hp⟩; exact ⟨x, h.mem_iff.mp hx, hp⟩
  · rintro ⟨x, hx, hp⟩; exact ⟨x, h.mem_iff.mpr hx, hp⟩

theorem evaluate_ref_eq (ToLower : String → String) (e : Evaluator) (stage text : String)
    (toolNames : List String) :
    Evaluate ToLower e stage text toolNames = EvaluateRef ToLower e stage text toolNames := by
  unfold Evaluate
  exact evaluateOrder_eq ToLower e.rules stage text toolNames e.order

/-- C1: with an evaluator whose decision order starts with deny, as soon as one rule
of the rule list has (lower-cased) action deny, the (lower-cased) stage of the input
and a match predicate that holds, `Evaluate` returns decision `Deny` with reason
`matched_rule`; nothing is assumed about the other rules or about where the deny
rule stands. -/
theorem deny_first_wins (ToLower : String → String) (e : Evaluator) (rest : List Decision)
    (stage text : String) (toolNames : List String) (r : compiledRule)
    (horder : e.order = DecisionDeny :: rest)
    (hr : r ∈ e.rules)
    (hstage : ToLower r.Rule.Stage = ToLower stage)
    (haction : ToLower r.Rule.Action = DecisionDeny)
    (hmatch : «matches» ToLower r text toolNames = true) :
    (Evaluate ToLower e stage text toolNames).Decision = DecisionDeny
      ∧ (Evaluate ToLower e stage text toolNames).Reason = "matched_rule" := by
  have happ : ruleApplies ToLower stage text toolNames DecisionDeny r = true := by
    simp [ruleApplies, hstage, haction, hmatch, DecisionDeny]
  have hany : e.rules.any (ruleApplies ToLower stage text toolNames DecisionDeny) = true :=
    List.any_eq_true.mpr ⟨r, hr, happ⟩
  rw [evaluate_ref_eq]
  simp [EvaluateRef, horder, List.find?, hany]

/-- The run of `TestEvaluatorOrder`: `allow_all` is declared before `deny_secret`,
both match, the order is `[deny, allow]`, and the decision is `Deny`. -/
theorem deny_first_wins_witness :
    testEvaluator.order = DecisionDeny :: [DecisionAllow]
      ∧ ruleDenySecret ∈ testEvaluator.rules
      ∧ «matches» asciiLower ruleAllowAll "contains secret" [] = true
      ∧ «matches» asciiLower ruleDenySecret "contains secret" [] = true
      ∧ (Evaluate asciiLower testEvaluator "request" "contains secret" []).Decision = DecisionDeny
      ∧ (Evaluate asciiLower testEvaluator "request" "contains secret" []).Reason
          = "matched_rule" :=
  ⟨by decide, by simp [testEvaluator], by decide, by decide,
    deny_first_wins asciiLower testEvaluator [DecisionAllow] "request" "contains secret" []
      ruleDenySecret (by decide) (by simp [testEvaluator]) (by decide) (by decide) (by decide)⟩

/-- C3: `Evaluate` equals the reference evaluation of the specification: the earliest
entry of the decision order to which some rule applies (stage and action compared
lower-cased, match predicate holding) is the decision, the first such rule in
declaration order gives the rule name, the reason is `matched_rule`; when no entry
qualifies the result is `Allow`, empty rule name, `no_matching_rule`. -/
theorem Evaluate_eq_EvaluateRef (ToLower : String → String) (e : Evaluator)
    (stage text : String) (toolNames : List String) :
    Evaluate ToLower e stage text toolNames = EvaluateRef ToLower e stage text toolNames :=
  evaluate_ref_eq ToLower e stage text toolNames

/-- C4: two rule lists that are permutations of each other give the same decision,
for every decision order, stage, text and tool list; and under the default order a
deny rule that applies gives `Deny` for both declaration orders. -/
theorem decision_perm_invariant (ToLower : String → String) (rules₁ rules₂ : List compiledRule)
    (order : List Decision) (stage text : String) (toolNames : List String)
    (hperm : rules₁.Perm rules₂) :
    (Evaluate ToLower { rules := rules₁, order := order } stage text toolNames).Decision
        = (Evaluate ToLower { rules := rules₂, order := order } stage text toolNames).Decision
      ∧ ((∃ r ∈ rules₁, ruleApplies ToLower stage text toolNames DecisionDeny r = true) →
          (Evaluate ToLower { rules := rules₁, order := parseOrder ToLower [] }
              stage text toolNames).Decision = DecisionDeny
          ∧ (Evaluate ToLower { rules := rules₂, order := parseOrder ToLower [] }
              stage text toolNames).Decision = DecisionDeny) := by
  have hfind : ∀ ord : List Decision,
      ord.find? (fun d => rules₁.any (ruleApplies ToLower stage text toolNames d))
        = ord.find? (fun d => rules₂.any (ruleApplies ToLower stage text toolNames d)) := by
    intro ord
    congr 1
    funext d
    exact any_perm _ hperm
  have hdec : ∀ ord : List Decision,
      (Evaluate ToLower { rules := rules₁, order := ord } stage text toolNames).Decision
        = (Evaluate ToLower { rules := rules₂, order := ord } stage text toolNames).Decision := by
    intro ord
    rw [evaluate_ref_eq, evaluate_ref_eq]
    simp only [EvaluateRef]
    rw [hfind ord]
    cases ord.find? (fun d => rules₂.any (ruleApplies ToLower stage text toolNames d)) <;> rfl
  refine ⟨hdec order, ?_⟩
  rintro ⟨r, hr, happ⟩
  have h1 : (Evaluate ToLower { rules := rules₁, order := parseOrder ToLower [] }
              stage text toolNames).Decision = DecisionDeny := by
    have hany : rules₁.any (ruleApplies ToLower stage text toolNames DecisionDeny) = true :=
      List.any_eq_true.mpr ⟨r, hr, happ⟩
    rw [evaluate_ref_eq]
    simp [EvaluateRef, parseOrder, List.find?, hany]
  exact ⟨h1, (hdec _).symm.trans h1⟩

/-- The rules of `TestEvaluatorOrder` in both declaration orders, default decision
order: the decision is `Deny` either way. -/
theorem decision_perm_invariant_witness :
    [ruleAllowAll, ruleDenySecret].Perm [ruleDenySecret, ruleAllowAll]
      ∧ (Evaluate asciiLower { rules := [ruleAllowAll, ruleDenySecret], order := parseOrder asciiLower [] }
            "request" "contains secret" []).Decision = DecisionDeny
      ∧ (Evaluate asciiLower { rules := [ruleDenySecret, ruleAllowAll], order := parseOrder asciiLower [] }
            "request" "contains secret" []).Decision = DecisionDeny :=
  ⟨List.Perm.swap _ _ _,
    (decision_perm_invariant asciiLower [ruleAllowAll, ruleDenySecret]
      [ruleDenySecret, ruleAllowAll] [] "request" "contains secret" []
      (List.Perm.swap _ _ _)).2 ⟨ruleDenySecret, by simp, by decide⟩⟩

end policy

namespace policy

theorem parseOrder_known (ToLower : String → String) (order : List String) :
    ∀ dec ∈ parseOrder ToLower order,
      dec = DecisionDeny ∨ dec = DecisionApprove ∨ dec = DecisionAllow := by
  have hfold : ∀ (items : List String) (init : List Decision),
      (∀ dec ∈ init, dec = DecisionDeny ∨ dec = DecisionApprove ∨ dec = DecisionAllow) →
      ∀ dec ∈ items.foldl
          (fun (out : List Decision) (item : String) =>
            if ToLower item = DecisionDeny then out ++ [DecisionDeny]
            else if ToLower item = DecisionApprove then out ++ [DecisionApprove]
            else if ToLower item = DecisionAllow then out ++ [DecisionAllow]
            else out)
          init,
        dec = DecisionDeny ∨ dec = DecisionApprove ∨ dec = DecisionAllow := by
    intro items
    induction items with
    | nil => intro init h; simpa using h
    | cons x xs ih =>
      intro init h
      rw [List.foldl_cons]
      apply ih
      intro dec hdec
      split at hdec
      · rcases List.mem_append.mp hdec with h1 | h1
        · exact h dec h1
        · left; simpa using h1
      · split at hdec
        · rcases List.mem_append.mp hdec with h1 | h1
          · exact h dec h1
          · right; left; simpa using h1
        · split at hdec
          · rcases List.mem_append.mp hdec with h1 | h1
            · exact h dec h1
            · right; right; simpa using h1
          · exact h dec hdec
  intro dec hdec
  unfold parseOrder at hdec
  simp only at hdec
  split at hdec
  · simp only [List.mem_cons, List.mem_singleton, List.not_mem_nil, or_false] at hdec
    exact hdec
  · exact hfold order [] (by simp) dec hdec

theorem NewEvaluator_order (ToLower : String → String)
    (MustCompile : String → Option regexp.Regexp) (rules : List config.Rule)
    (order : List String) (e : Evaluator)
    (h : NewEvaluator ToLower MustCompile rules order = some e) :
    e.order = parseOrder ToLower order := by
  unfold NewEvaluator at h
  simp only at h
  split at h
  · cases h
  · cases h; rfl

/-- The run of `TestEvaluatorToolMatch`: the decision is `Approve`. -/
theorem tool_match_test_run :
    (Evaluate asciiLower
        { rules := [{ Rule := { Name := "approve_tools", Stage := "request", Action := "approve",
                                Match := { Pattern := "", ToolNames := ["file_write"], Field := "" } },
                      pattern := none }],
          order := parseOrder asciiLower ["approve"] }
        "request" "" ["file_write"]).Decision = DecisionApprove := by
  decide

end policy

/-! ## Extractor -/

namespace extract

theorem join_eq_intercalate (parts : List String) : join parts = String.intercalate "\n" parts := by
  cases parts with
  | nil => rfl
  | cons first rest =>
    simp only [join, String.intercalate]
    induction rest generalizing first with
    | nil => rfl
    | cons p ps ih =>
      simp only [List.foldl_cons, String.intercalate.go]
      rw [ih, String.append_assoc]

theorem foldl_append_eq {α : Type} (f : α → List String) (items : List α) (init : List String) :
    items.foldl (fun (out : List String) (item : α) => out ++ f item) init
      = init ++ items.flatMap f := by
  induction items generalizing init with
  | nil => simp
  | cons x xs ih => simp [List.foldl_cons, ih, List.flatMap_cons, List.append_assoc]

theorem filterMap_eq_flatMap {α β : Type} (f : α → Option β) (items : List α) :
    items.filterMap f = items.flatMap (fun x => (f x).toList) := by
  induction items with
  | nil => rfl
  | cons x xs ih =>
    cases h : f x <;> simp [List.filterMap_cons, List.flatMap_cons, h, ih]

theorem readContentArray_eq (arr : List json.Value) :
    readContentArray arr
      = arr.filterMap (fun item =>
          match item with
          | json.Value.object fields =>
            match fields.lookup "text" with
            | some (json.Value.string t) => some t
            | _ => none
          | _ => none) := by
  rw [filterMap_eq_flatMap]
  unfold readContentArray
  have h := foldl_append_eq (fun item : json.Value =>
      (match item with
        | json.Value.object fields =>
          match fields.lookup "text" with
          | some (json.Value.string t) => some t
          | _ => none
        | _ => none : Option String).toList) arr []
  rw [List.nil_append] at h
  rw [← h]
  congr 1
  funext out item
  cases item with
  | object fields =>
    simp only
    cases hl : List.lookup "text" fields with
    | none => simp
    | some v => cases v <;> simp
  | _ => simp

theorem readContent_eq (obj : List (String × json.Value)) : readContent obj = contentRule obj := by
  unfold readContent contentRule
  simp only [List.nil_append]
  cases hc : List.lookup "content" obj with
  | none =>
    cases ht : List.lookup "text" obj with
    | none => simp
    | some t => cases t <;> simp
  | some c =>
    cases ht : List.lookup "text" obj with
    | none => cases c <;> simp [readContentArray_eq]
    | some t => cases c <;> cases t <;> simp [readContentArray_eq]

theorem readArrayText_eq (arr : List json.Value) : readArrayText arr = arrayRule arr := by
  unfold readArrayText arrayRule
  have h := foldl_append_eq (fun item : json.Value =>
      match item with
      | json.Value.string s => [s]
      | json.Value.object o => contentRule o
      | _ => []) arr []
  rw [List.nil_append] at h
  rw [← h]
  congr 1
  funext out item
  cases item <;> simp [readContent_eq]

theorem readArrayStrings_eq (arr : List json.Value) :
    readArrayStrings arr
      = arr.filterMap (fun item =>
          match item with
          | json.Value.string s => some s
          | _ => none) := by
  rw [filterMap_eq_flatMap]
  unfold readArrayStrings
  have h := foldl_append_eq (fun item : json.Value =>
      (match item with
        | json.Value.string s => some s
        | _ => none : Option String).toList) arr []
  rw [List.nil_append] at h
  rw [← h]
  congr 1
  funext out item
  cases item <;> simp

theorem readTools_eq (field : Option json.Value) : readTools field = declaredNames field := by
  unfold readTools declaredNames
  cases field with
  | none => rfl
  | some v =>
    cases v with
    | array arr =>
      simp only
      rw [filterMap_eq_flatMap]
      have h := foldl_append_eq (fun item : json.Value =>
          (match item with
            | json.Value.object o =>
              match o.lookup "name" with
              | some (json.Value.string s) => some s
              | _ => none
            | _ => none : Option String).toList) arr []
      rw [List.nil_append] at h
      rw [← h]
      congr 1
      funext out item
      cases item with
      | object fields =>
        simp only
        cases hl : List.lookup "name" fields with
        | none => simp
        | some v => cases v <;> simp
      | _ => simp
    | _ => rfl

theorem collectText_eq (root : List (String × json.Value)) :
    collectText root
      = String.intercalate "\n"
          (inputContributions root ++ messagesContributions root ++ promptContributions root) := by
  unfold collectText
  rw [join_eq_intercalate]
  congr 1
  simp only [List.nil_append]
  have hi : (match root.lookup "input" with
      | some input => readInputField input
      | none => []) = inputContributions root := by
    unfold inputContributions
    cases List.lookup "input" root with
    | none => rfl
    | some v => cases v <;> simp [readInputField, readArrayText_eq, readContent_eq]
  have hm : ∀ parts : List String, (match root.lookup "messages" with
      | some messages => parts ++ readMessages messages
      | none => parts) = parts ++ messagesContributions root := by
    intro parts
    unfold messagesContributions
    cases List.lookup "messages" root with
    | none => simp
    | some v => cases v <;> simp [readMessages, readArrayText_eq]
  have hp : ∀ parts : List String, (match root.lookup "prompt" with
      | some prompt => parts ++ readPrompt prompt
      | none => parts) = parts ++ promptContributions root := by
    intro parts
    unfold promptContributions
    cases List.lookup "prompt" root with
    | none => simp
    | some v => cases v <;> simp [readPrompt, readArrayStrings_eq]
  rw [hp, hm, hi]

theorem dedupe_foldl (items : List String) (seen out : List String) :
    (items.foldl
      (fun (st : List String × List String) (item : String) =>
        if item ∈ st.1 then st else (item :: st.1, st.2 ++ [item]))
      (seen, out)).2 = out ++ dedupeFrom seen items := by
  induction items generalizing seen out with
  | nil => simp [dedupeFrom]
  | cons x xs ih =>
    simp only [List.foldl_cons, dedupeFrom]
    by_cases h : x ∈ seen
    · simp only [h, if_true]; exact ih seen out
    · simp only [h, if_false]; rw [ih]; simp

theorem dedupe_eq (items : List String) : dedupe items = dedupeFrom [] items := by
  unfold dedupe
  rw [dedupe_foldl]; simp

theorem mem_dedupeFrom (seen items : List String) (x : String) :
    x ∈ dedupeFrom seen items ↔ x ∈ items ∧ x ∉ seen := by
  induction items generalizing seen with
  | nil => simp [dedupeFrom]
  | cons y ys ih =>
    unfold dedupeFrom
    by_cases h : y ∈ seen
    · simp only [h, if_true, ih, List.mem_cons]
      constructor
      · rintro ⟨h1, h2⟩; exact ⟨Or.inr h1, h2⟩
      · rintro ⟨h1 | h1, h2⟩
        · subst h1; exact absurd h h2
        · exact ⟨h1, h2⟩
    · simp only [h, if_false, List.mem_cons, ih]
      constructor
      · rintro (h1 | ⟨h1, h2⟩)
        · subst h1; exact ⟨Or.inl rfl, h⟩
        · exact ⟨Or.inr h1, fun hx => h2 (Or.inr hx)⟩
      · rintro ⟨h1 | h1, h2⟩
        · exact Or.inl h1
        · by_cases hxy : x = y
          · exact Or.inl hxy
          · exact Or.inr ⟨h1, fun hx => hx.elim hxy h2⟩

theorem nodup_dedupeFrom (seen items : List String) : (dedupeFrom seen items).Nodup := by
  induction items generalizing seen with
  | nil => simp [dedupeFrom]
  | cons y ys ih =>
    unfold dedupeFrom
    by_cases h : y ∈ seen
    · simp only [h, if_true]; exact ih seen
    · simp only [h, if_false, List.nodup_cons]
      refine ⟨?_, ih _⟩
      rw [mem_dedupeFrom]
      simp

theorem sublist_dedupeFrom (seen items : List String) : (dedupeFrom seen items).Sublist items := by
  induction items generalizing seen with
  | nil => simp [dedupeFrom]
  | cons y ys ih =>
    unfold dedupeFrom
    by_cases h : y ∈ seen
    · simp only [h, if_true]; exact (ih seen).cons y
    · simp only [h, if_false]; exact (ih _).cons₂ y

theorem order_dedupeFrom (seen items : List String) :
    (dedupeFrom seen items).Pairwise (fun a b => items.indexOf a < items.indexOf b) := by
  induction items generalizing seen with
  | nil => simp [dedupeFrom]
  | cons y ys ih =>
    unfold dedupeFrom
    by_cases h : y ∈ seen
    · simp only [h, if_true]
      refine (ih seen).imp_of_mem ?_
      intro a b ha hb hab
      have hay : a ≠ y := fun e => ((mem_dedupeFrom _ _ _).mp ha).2 (e ▸ h)
      have hby : b ≠ y := fun e => ((mem_dedupeFrom _ _ _).mp hb).2 (e ▸ h)
      rw [List.indexOf_cons_ne _ (Ne.symm hay), List.indexOf_cons_ne _ (Ne.symm hby)]
      omega
    · simp only [h, if_false, List.pairwise_cons]
      constructor
      · intro b hb
        have hby : b ≠ y := fun e => ((mem_dedupeFrom _ _ _).mp hb).2 (by simp [e])
        rw [List.indexOf_cons_self, List.indexOf_cons_ne _ (Ne.symm hby)]
        omega
      · refine (ih _).imp_of_mem ?_
        intro a b ha hb hab
        have hay : a ≠ y := fun e => ((mem_dedupeFrom _ _ _).mp ha).2 (by simp [e])
        have hby : b ≠ y := fun e => ((mem_dedupeFrom _ _ _).mp hb).2 (by simp [e])
        rw [List.indexOf_cons_ne _ (Ne.symm hay), List.indexOf_cons_ne _ (Ne.symm hby)]
        omega

theorem lookup_cons_of_ne {α : Type} (k key : String) (v : α) (m : List (String × α))
    (h : key ≠ k) : List.lookup k ((key, v) :: m) = List.lookup k m := by
  have hb : (k == key) = false := by
    rw [beq_eq_false_iff_ne]; exact Ne.symm h
  simp [List.lookup, hb]

/-- C5, as amended: `FromJSON` returns an error exactly when `json.Unmarshal` returns
one for the body or the decoded root is not an object; for every body that decodes to
an object it returns the collected text and tool names, whatever lies under the keys,
and a key other than `input`, `messages`, `prompt`, `tools`, `functions` changes
neither. -/
theorem FromJSON_error_iff (Unmarshal : List UInt8 → Except String json.Value)
    (body : List UInt8) :
    ((∃ err, FromJSON Unmarshal body = Except.error err)
        ↔ ((∃ err, Unmarshal body = Except.error err)
            ∨ ∃ raw, Unmarshal body = Except.ok raw ∧ ∀ root, raw ≠ json.Value.object root))
      ∧ (∀ root, Unmarshal body = Except.ok (json.Value.object root) →
          FromJSON Unmarshal body
            = Except.ok { Text := collectText root, ToolNames := collectTools root })
      ∧ (∀ (root : List (String × json.Value)) (key : String) (v : json.Value),
          key ∉ ["input", "messages", "prompt", "tools", "functions"] →
          collectText ((key, v) :: root) = collectText root
            ∧ collectTools ((key, v) :: root) = collectTools root) := by
  refine ⟨?_, ?_, ?_⟩
  · unfold FromJSON
    cases h : Unmarshal body with
    | error e => simp
    | ok raw => cases raw <;> simp
  · intro root h
    simp [FromJSON, h]
  · intro root key v hkey
    simp only [List.mem_cons, List.mem_singleton, List.not_mem_nil, or_false, not_or] at hkey
    obtain ⟨h1, h2, h3, h4, h5⟩ := hkey
    have l1 : List.lookup "input" ((key, v) :: root) = List.lookup "input" root :=
      lookup_cons_of_ne _ _ _ _ h1
    have l2 : List.lookup "messages" ((key, v) :: root) = List.lookup "messages" root :=
      lookup_cons_of_ne _ _ _ _ h2
    have l3 : List.lookup "prompt" ((key, v) :: root) = List.lookup "prompt" root :=
      lookup_cons_of_ne _ _ _ _ h3
    have l4 : List.lookup "tools" ((key, v) :: root) = List.lookup "tools" root :=
      lookup_cons_of_ne _ _ _ _ h4
    have l5 : List.lookup "functions" ((key, v) :: root) = List.lookup "functions" root :=
      lookup_cons_of_ne _ _ _ _ h5
    constructor
    · unfold collectText; rw [l1, l2, l3]
    · unfold collectTools; rw [l4, l5]

/-- C6: the extracted text is the contributions of `input`, then of `messages`, then
of `prompt`, each as the specification gives them, joined with one newline between
consecutive contributions and nothing before the first or after the last. -/
theorem collectText_eq_join_contributions (root : List (String × json.Value)) :
    collectText root
      = String.intercalate "\n"
          (inputContributions root ++ messagesContributions root ++ promptContributions root) :=
  collectText_eq root

/-- C7: on every object `readContent` yields the contributions of the content rule,
and on every array `readArrayText` yields those of the array rule, in order. -/
theorem readers_follow_rules :
    (∀ obj : List (String × json.Value), readContent obj = contentRule obj)
      ∧ (∀ arr : List json.Value, readArrayText arr = arrayRule arr) :=
  ⟨readContent_eq, readArrayText_eq⟩

/-- C8: the tool names are the names collected from `tools` then `functions` with
later repeats removed: no duplicates, the same members as the collected names, a
sublist of them, and ordered by the position of their first occurrence. -/
theorem collectTools_first_occurrences (root : List (String × json.Value)) :
    (collectTools root).Nodup
      ∧ (∀ x, x ∈ collectTools root ↔ x ∈ collectedNames root)
      ∧ (collectTools root).Sublist (collectedNames root)
      ∧ (collectTools root).Pairwise
          (fun a b => (collectedNames root).indexOf a < (collectedNames root).indexOf b) := by
  have h : collectTools root = dedupeFrom [] (collectedNames root) := by
    unfold collectTools collectedNames
    simp only [List.nil_append]
    rw [dedupe_eq, readTools_eq, readTools_eq]
  rw [h]
  refine ⟨nodup_dedupeFrom _ _, ?_, sublist_dedupeFrom _ _, order_dedupeFrom _ _⟩
  intro x
  rw [mem_dedupeFrom]
  simp

end extract

namespace extract

/-- The run of `TestExtractFromMessagesAndTools` on the decoded body. -/
theorem extract_test_run :
    FromJSON
        (fun _ => Except.ok (json.Value.object
          [("messages", json.Value.array
              [json.Value.object [("role", json.Value.string "user"),
                  ("content", json.Value.string "hello")],
                json.Value.object [("role", json.Value.string "user"),
                  ("content", json.Value.array
                    [json.Value.object [("type", json.Value.string "text"),
                      ("text", json.Value.string "world")]])]]),
            ("tools", json.Value.array
              [json.Value.object [("name", json.Value.string "file_write")],
                json.Value.object [("name", json.Value.string "exec_command")]])]))
        []
      = Except.ok { Text := "hello\nworld", ToolNames := ["file_write", "exec_command"] } := by
  rfl

end extract

/-! ## Approval store -/

namespace proxy

theorem lookup_delete_self {α : Type} (m : List (String × α)) (k : String) :
    (gomap.delete m k).lookup k = none := by
  unfold gomap.delete
  induction m with
  | nil => rfl
  | cons e rest ih =>
    by_cases h : e.1 = k
    · rw [List.filter_cons_of_neg (by simp [h])]
      exact ih
    · have hb : (k == e.1) = false := by
        rw [beq_eq_false_iff_ne]; exact Ne.symm h
      rw [List.filter_cons_of_pos (by simp [h])]
      obtain ⟨k1, v1⟩ := e
      simp only [List.lookup]
      simp only at hb
      rw [hb]
      exact ih

theorem lookup_delete_of_none {α : Type} (m : List (String × α)) (k id : String)
    (h : m.lookup id = none) : (gomap.delete m k).lookup id = none := by
  unfold gomap.delete
  induction m with
  | nil => rfl
  | cons e rest ih =>
    obtain ⟨k1, v1⟩ := e
    by_cases hid : (id == k1) = true
    · simp [List.lookup, hid] at h
    · have hid2 : (id == k1) = false := by simpa using hid
      have hrest : List.lookup id rest = none := by
        simpa [List.lookup, hid2] using h
      by_cases hk : k1 = k
      · rw [List.filter_cons_of_neg (by simp [hk])]
        exact ih hrest
      · rw [List.filter_cons_of_pos (by simp [hk])]
        simp only [List.lookup, hid2]
        exact ih hrest

theorem fetch_removes (s : approvalStore) (id : String) (now : Int) :
    (fetch s id now).2.items.lookup id = none := by
  unfold fetch
  cases h : s.items.lookup id with
  | none => simpa using h
  | some req =>
    simp only
    split <;> exact lookup_delete_self _ _

theorem fetch_keeps_absent (s : approvalStore) (id id2 : String) (now : Int)
    (h : s.items.lookup id = none) : (fetch s id2 now).2.items.lookup id = none := by
  unfold fetch
  cases h2 : s.items.lookup id2 with
  | none => simpa using h
  | some req =>
    simp only
    split <;> exact lookup_delete_of_none _ _ _ h

theorem fetch_absent (s : approvalStore) (id : String) (now : Int)
    (h : s.items.lookup id = none) : (fetch s id now).1 = none := by
  unfold fetch
  rw [h]

theorem fetchAll_absent (s : approvalStore) (id : String) (calls : List (String × Int))
    (h : s.items.lookup id = none) :
    ∀ res ∈ fetchAll s calls, res.1 = id → res.2 = none := by
  induction calls generalizing s with
  | nil => simp [fetchAll]
  | cons call rest ih =>
    intro res hres hid
    simp only [fetchAll, List.mem_cons] at hres
    rcases hres with hres | hres
    · subst hres
      simp only at hid
      simp only
      rw [hid]
      exact fetch_absent s id call.2 h
    · exact ih _ (fetch_keeps_absent s id call.1 call.2 h) res hres hid

theorem Since_exact (now t : Int)
    (h : time.minDuration ≤ now - t ∧ now - t ≤ time.maxDuration) :
    time.Since now t = now - t := by
  unfold time.Since
  obtain ⟨h1, h2⟩ := h
  rw [if_neg (by omega), if_neg (by omega)]

/-- C9: after `fetch(id)` the id is not a key of the store, whatever was returned;
every later `fetch` of that id in a run of fetch calls (on any ids, at any instants)
returns absent; and in any run of fetch calls at most one call on a given id
returns a request. -/
theorem fetch_take_once (s : approvalStore) (id : String) (now : Int)
    (calls : List (String × Int)) :
    (fetch s id now).2.items.lookup id = none
      ∧ (∀ res ∈ fetchAll (fetch s id now).2 calls, res.1 = id → res.2 = none)
      ∧ ((fetchAll s calls).filter (fun res => decide (res.1 = id) && res.2.isSome)).length
          ≤ 1 := by
  refine ⟨fetch_removes s id now, fetchAll_absent _ id calls (fetch_removes s id now), ?_⟩
  induction calls generalizing s with
  | nil => simp [fetchAll]
  | cons call rest ih =>
    simp only [fetchAll]
    by_cases hid : call.1 = id
    · have hnone : ∀ res ∈ fetchAll (fetch s call.1 call.2).2 rest, res.1 = id → res.2 = none := by
        rw [hid]
        exact fetchAll_absent _ id rest (fetch_removes s id call.2)
      have hempty : (fetchAll (fetch s call.1 call.2).2 rest).filter
          (fun res => decide (res.1 = id) && res.2.isSome) = [] := by
        rw [List.filter_eq_nil_iff]
        intro res hres
        by_cases h1 : res.1 = id
        · simp [hnone res hres h1]
        · simp [h1]
      rw [List.filter_cons]
      split
      · rw [hempty]; simp
      · rw [hempty]; simp
    · rw [List.filter_cons_of_neg (by simp [hid])]
      exact ih _

/-- C10: when the age `now − created` of the entry under `id`, if there is one, is
representable as a `Duration` (it always is for two readings of the process's
monotonic clock, which `time.Now` and `time.Since` use), `fetch` returns a request exactly when it is the entry
stored under `id` and `now − created ≤ ttl`; an entry with `now − created > ttl` gives
absent, is removed, and the whole outcome equals that of `fetch` on the store from
which the entry has been deleted beforehand. -/
theorem fetch_ttl (s : approvalStore) (id : String) (now : Int) (req : pendingRequest)
    (hrep : ∀ p, s.items.lookup id = some p →
      time.minDuration ≤ now - p.created ∧ now - p.created ≤ time.maxDuration) :
    ((fetch s id now).1 = some req
        ↔ (s.items.lookup id = some req ∧ now - req.created ≤ s.ttl))
      ∧ (s.items.lookup id = none → (fetch s id now).1 = none)
      ∧ (s.items.lookup id = some req → now - req.created > s.ttl →
          (fetch s id now).1 = none
            ∧ (fetch s id now).2.items.lookup id = none
            ∧ fetch s id now = fetch { s with items := gomap.delete s.items id } id now) := by
  refine ⟨?_, fetch_absent s id now, ?_⟩
  · unfold fetch
    cases h : s.items.lookup id with
    | none => simp
    | some p =>
      simp only [Since_exact now p.created (hrep p h)]
      by_cases hexp : now - p.created > s.ttl
      · rw [if_pos hexp]
        constructor
        · intro hc; cases hc
        · rintro ⟨hp, hle⟩
          cases hp
          omega
      · rw [if_neg hexp]
        constructor
        · intro hc
          cases hc
          exact ⟨rfl, by omega⟩
        · rintro ⟨hp, _⟩
          cases hp
          rfl
  · intro h hexp
    have hf : fetch s id now = (none, { s with items := gomap.delete s.items id }) := by
      unfold fetch
      rw [h]
      simp only [Since_exact now req.created (hrep req h)]
      rw [if_pos hexp]
    refine ⟨by rw [hf], fetch_removes s id now, ?_⟩
    rw [hf]
    unfold fetch
    simp only
    rw [lookup_delete_self]

/-- The stored request is still returned at `now = created + ttl` (150 = 100 + 50)
and no longer one nanosecond later. -/
theorem fetch_ttl_witness :
    (∀ p, demoStore.items.lookup "00ff" = some p →
        time.minDuration ≤ 150 - p.created ∧ 150 - p.created ≤ time.maxDuration)
      ∧ (fetch demoStore "00ff" 150).1 = some demoPending
      ∧ (fetch demoStore "00ff" 151).1 = none := by
  have hrep : ∀ now : Int, 100 ≤ now → now ≤ 200 → ∀ p, demoStore.items.lookup "00ff" = some p →
      time.minDuration ≤ now - p.created ∧ now - p.created ≤ time.maxDuration := by
    intro now h1 h2 p hp
    have hsome : some demoPending = some p := hp
    cases hsome
    simp only [demoPending, time.minDuration, time.maxDuration]
    omega
  exact ⟨hrep 150 (by decide) (by decide),
    (fetch_ttl demoStore "00ff" 150 demoPending (hrep 150 (by decide) (by decide))).1.mpr
      ⟨rfl, by decide⟩,
    ((fetch_ttl demoStore "00ff" 151 demoPending (hrep 151 (by decide) (by decide))).2.2
      rfl (by decide)).1⟩

end proxy

/-! ## Proxy handler -/

namespace proxy

theorem evaluate_decision_cases (ToLower : String → String) (e : policy.Evaluator)
    (stage text : String) (toolNames : List String) :
    (policy.Evaluate ToLower e stage text toolNames).Decision = policy.DecisionAllow
      ∨ (policy.Evaluate ToLower e stage text toolNames).Decision ∈ e.order := by
  rw [policy.evaluate_ref_eq]
  unfold policy.EvaluateRef
  cases h : e.order.find? (fun d => e.rules.any (policy.ruleApplies ToLower stage text toolNames d)) with
  | none => left; rfl
  | some d => right; exact List.mem_of_find?_eq_some h

theorem inspect_decision (L : Stdlib) (s : Server) (body : List UInt8) :
    (inspect L s body).2.2.1
      = match extract.FromJSON L.Unmarshal body with
        | Except.error _ => policy.DecisionDeny
        | Except.ok res =>
          (policy.Evaluate L.ToLower s.evaluator "request" res.Text res.ToolNames).Decision := by
  unfold inspect
  cases extract.FromJSON L.Unmarshal body <;> rfl

theorem serve_panic (L : Stdlib) (s : Server) (r : http.Request) (d : Draws)
    (hpath : r.Path ≠ "/approve") (h : readBody r.Body s.cfg.MaxBodyBytes = none) :
    (ServeHTTP L s r d).upstream = [] ∧ (ServeHTTP L s r d).pending = s.pending := by
  unfold ServeHTTP
  rw [if_neg hpath]
  simp only [h]
  exact ⟨trivial, trivial⟩

theorem serve_read_error (L : Stdlib) (s : Server) (r : http.Request) (d : Draws)
    (hpath : r.Path ≠ "/approve") (body : List UInt8) (err : String)
    (h : readBody r.Body s.cfg.MaxBodyBytes = some (body, some err)) :
    (ServeHTTP L s r d).upstream = [] ∧ (ServeHTTP L s r d).pending = s.pending := by
  unfold ServeHTTP
  rw [if_neg hpath]
  simp only [h]
  exact ⟨trivial, trivial⟩

theorem serve_deny (L : Stdlib) (s : Server) (r : http.Request) (d : Draws)
    (hpath : r.Path ≠ "/approve") (body : List UInt8)
    (h : readBody r.Body s.cfg.MaxBodyBytes = some (body, none))
    (hdec : (inspect L s body).2.2.1 = policy.DecisionDeny) :
    (ServeHTTP L s r d).upstream = [] ∧ (ServeHTTP L s r d).pending = s.pending := by
  unfold ServeHTTP
  rw [if_neg hpath]
  simp only [h]
  generalize inspect L s body = I at hdec ⊢
  obtain ⟨text, tools, dec, rn, reason⟩ := I
  simp only at hdec
  simp only [hdec, if_true]
  exact ⟨trivial, trivial⟩

theorem serve_approve_disabled (L : Stdlib) (s : Server) (r : http.Request) (d : Draws)
    (hpath : r.Path ≠ "/approve") (body : List UInt8)
    (h : readBody r.Body s.cfg.MaxBodyBytes = some (body, none))
    (hdec : (inspect L s body).2.2.1 = policy.DecisionApprove)
    (hoff : s.cfg.Approval.Enabled = false) :
    (ServeHTTP L s r d).upstream = [] ∧ (ServeHTTP L s r d).pending = s.pending := by
  unfold ServeHTTP
  rw [if_neg hpath]
  simp only [h]
  generalize inspect L s body = I at hdec ⊢
  obtain ⟨text, tools, dec, rn, reason⟩ := I
  simp only at hdec
  have hne : policy.DecisionApprove ≠ policy.DecisionDeny := by decide
  simp only [hdec, hne, hoff, if_true, if_false]
  exact ⟨trivial, trivial⟩

theorem serve_approve_enabled (L : Stdlib) (s : Server) (r : http.Request) (d : Draws)
    (hpath : r.Path ≠ "/approve") (body : List UInt8)
    (h : readBody r.Body s.cfg.MaxBodyBytes = some (body, none))
    (hdec : (inspect L s body).2.2.1 = policy.DecisionApprove) :
    (ServeHTTP L s r d).upstream = [] := by
  unfold ServeHTTP
  rw [if_neg hpath]
  simp only [h]
  generalize inspect L s body = I at hdec ⊢
  obtain ⟨text, tools, dec, rn, reason⟩ := I
  simp only at hdec
  have hne : policy.DecisionApprove ≠ policy.DecisionDeny := by decide
  simp only [hdec, hne, if_true, if_false]
  split <;> rfl

theorem serve_forward (L : Stdlib) (s : Server) (r : http.Request) (d : Draws)
    (hpath : r.Path ≠ "/approve") (body : List UInt8)
    (h : readBody r.Body s.cfg.MaxBodyBytes = some (body, none))
    (hdeny : (inspect L s body).2.2.1 ≠ policy.DecisionDeny)
    (happr : (inspect L s body).2.2.1 ≠ policy.DecisionApprove) :
    (ServeHTTP L s r d).pending = s.pending := by
  unfold ServeHTTP
  rw [if_neg hpath]
  simp only [h]
  generalize inspect L s body = I at hdeny happr ⊢
  obtain ⟨text, tools, dec, rn, reason⟩ := I
  simp only at hdeny happr
  simp only [hdeny, happr, if_false]
  split <;> rfl

theorem readBody_ok_within (b : http.Body) (limit : Int) (body : List UInt8)
    (hlen : (b.data.length : Int) < 2 ^ 63)
    (h : readBody (some b) limit = some (body, none)) :
    (b.data.length : Int) ≤ limit := by
  unfold readBody at h
  simp only at h
  by_cases hn : wrap64 (limit + 1) ≤ 0
  · simp only [hn, if_true] at h
    by_cases hl : ((([] : List UInt8).length : Int)) > limit
    · rw [if_pos hl] at h
      simp only [List.length_nil, Nat.cast_zero] at hl
      rw [if_pos hl] at h
      cases h
    · simp only [List.length_nil, Nat.cast_zero] at hl
      unfold wrap64 at hn
      omega
  · simp only [hn, if_false] at h
    by_cases hshort : b.data.length < (wrap64 (limit + 1)).toNat
    · rw [if_pos hshort] at h
      cases herr : b.err with
      | some e => rw [herr] at h; simp at h
      | none =>
        rw [herr] at h
        simp only at h
        rw [List.take_of_length_le (by omega)] at h
        by_cases hl : (b.data.length : Int) > limit
        · rw [if_pos hl] at h
          split at h <;> simp at h
        · omega
    · rw [if_neg hshort] at h
      simp only at h
      have htake : (b.data.take (wrap64 (limit + 1)).toNat).length = (wrap64 (limit + 1)).toNat := by
        rw [List.length_take]; omega
      rw [htake] at h
      by_cases hl : (((wrap64 (limit + 1)).toNat : Nat) : Int) > limit
      · rw [if_pos hl] at h
        split at h <;> simp at h
      · unfold wrap64 at hn hl hshort
        omega

/-- C2: for a request whose path is not `/approve`, served with an evaluator whose
decision order holds only the three known decisions (every order built by
`parseOrder` does, see `parseOrder_known`) and with a body shorter than `2 ^ 63`
bytes: a request is handed to the
upstream client only if the body is within `max_body_bytes`, extraction succeeds and
the evaluator decides `Allow`; the approval store changes only if the evaluator
decides `Approve` and approval is enabled; and a body over the limit, a failed
extraction, a `Deny`, and an `Approve` with approval disabled each leave the upstream
untouched and the store as it was. -/
theorem ServeHTTP_forwards_and_stores_only_when (L : Stdlib) (s : Server) (r : http.Request)
    (d : Draws)
    (hpath : r.Path ≠ "/approve")
    (horder : ∀ dec ∈ s.evaluator.order,
      dec = policy.DecisionDeny ∨ dec = policy.DecisionApprove ∨ dec = policy.DecisionAllow)
    (hlen : ∀ b, r.Body = some b → (b.data.length : Int) < 2 ^ 63) :
    ((ServeHTTP L s r d).upstream ≠ [] →
        (∀ b, r.Body = some b → (b.data.length : Int) ≤ s.cfg.MaxBodyBytes)
          ∧ ∃ body res, readBody r.Body s.cfg.MaxBodyBytes = some (body, none)
              ∧ extract.FromJSON L.Unmarshal body = Except.ok res
              ∧ (policy.Evaluate L.ToLower s.evaluator "request" res.Text res.ToolNames).Decision
                  = policy.DecisionAllow)
      ∧ ((ServeHTTP L s r d).pending ≠ s.pending →
          s.cfg.Approval.Enabled = true
            ∧ ∃ body res, readBody r.Body s.cfg.MaxBodyBytes = some (body, none)
                ∧ extract.FromJSON L.Unmarshal body = Except.ok res
                ∧ (policy.Evaluate L.ToLower s.evaluator "request" res.Text
                    res.ToolNames).Decision = policy.DecisionApprove)
      ∧ (∀ b, r.Body = some b → (b.data.length : Int) > s.cfg.MaxBodyBytes →
          (ServeHTTP L s r d).upstream = [] ∧ (ServeHTTP L s r d).pending = s.pending)
      ∧ (∀ body err, readBody r.Body s.cfg.MaxBodyBytes = some (body, none) →
          extract.FromJSON L.Unmarshal body = Except.error err →
          (ServeHTTP L s r d).upstream = [] ∧ (ServeHTTP L s r d).pending = s.pending)
      ∧ (∀ body res, readBody r.Body s.cfg.MaxBodyBytes = some (body, none) →
          extract.FromJSON L.Unmarshal body = Except.ok res →
          (policy.Evaluate L.ToLower s.evaluator "request" res.Text res.ToolNames).Decision
            = policy.DecisionDeny →
          (ServeHTTP L s r d).upstream = [] ∧ (ServeHTTP L s r d).pending = s.pending)
      ∧ (∀ body res, readBody r.Body s.cfg.MaxBodyBytes = some (body, none) →
          extract.FromJSON L.Unmarshal body = Except.ok res →
          (policy.Evaluate L.ToLower s.evaluator "request" res.Text res.ToolNames).Decision
            = policy.DecisionApprove →
          s.cfg.Approval.Enabled = false →
          (ServeHTTP L s r d).upstream = [] ∧ (ServeHTTP L s r d).pending = s.pending) := by
  have hwithin : ∀ body, readBody r.Body s.cfg.MaxBodyBytes = some (body, none) →
      ∀ b, r.Body = some b → (b.data.length : Int) ≤ s.cfg.MaxBodyBytes := by
    intro body hrb b hb
    rw [hb] at hrb
    exact readBody_ok_within b _ body (hlen b hb) hrb
  refine ⟨?_, ?_, ?_, ?_, ?_, ?_⟩
  · intro hup
    cases hrb : readBody r.Body s.cfg.MaxBodyBytes with
    | none => exact absurd (serve_panic L s r d hpath hrb).1 hup
    | some res =>
      obtain ⟨body, err⟩ := res
      cases err with
      | some e => exact absurd (serve_read_error L s r d hpath body e hrb).1 hup
      | none =>
        refine ⟨hwithin body hrb, body, ?_⟩
        by_cases hdeny : (inspect L s body).2.2.1 = policy.DecisionDeny
        · exact absurd (serve_deny L s r d hpath body hrb hdeny).1 hup
        · by_cases happr : (inspect L s body).2.2.1 = policy.DecisionApprove
          · exact absurd (serve_approve_enabled L s r d hpath body hrb happr) hup
          · rw [inspect_decision] at hdeny happr
            cases hx : extract.FromJSON L.Unmarshal body with
            | error e => rw [hx] at hdeny; exact absurd rfl hdeny
            | ok res =>
              rw [hx] at hdeny happr
              simp only at hdeny happr
              refine ⟨res, rfl, rfl, ?_⟩
              rcases evaluate_decision_cases L.ToLower s.evaluator "request" res.Text
                res.ToolNames with h | h
              · exact h
              · rcases horder _ h with h1 | h1 | h1
                · exact absurd h1 hdeny
                · exact absurd h1 happr
                · exact h1
  · intro hchg
    cases hrb : readBody r.Body s.cfg.MaxBodyBytes with
    | none => exact absurd (serve_panic L s r d hpath hrb).2 hchg
    | some res =>
      obtain ⟨body, err⟩ := res
      cases err with
      | some e => exact absurd (serve_read_error L s r d hpath body e hrb).2 hchg
      | none =>
        by_cases hdeny : (inspect L s body).2.2.1 = policy.DecisionDeny
        · exact absurd (serve_deny L s r d hpath body hrb hdeny).2 hchg
        · by_cases happr : (inspect L s body).2.2.1 = policy.DecisionApprove
          · cases hen : s.cfg.Approval.Enabled with
            | false => exact absurd (serve_approve_disabled L s r d hpath body hrb happr hen).2 hchg
            | true =>
              refine ⟨rfl, body, ?_⟩
              rw [inspect_decision] at happr
              cases hx : extract.FromJSON L.Unmarshal body with
              | error e =>
                rw [hx] at happr
                have hne : policy.DecisionDeny ≠ policy.DecisionApprove := by decide
                exact absurd happr hne
              | ok res =>
                rw [hx] at happr
                exact ⟨res, rfl, rfl, happr⟩
          · exact absurd (serve_forward L s r d hpath body hrb hdeny happr) hchg
  · intro b hb hbig
    cases hrb : readBody r.Body s.cfg.MaxBodyBytes with
    | none => exact serve_panic L s r d hpath hrb
    | some res =>
      obtain ⟨body, err⟩ := res
      cases err with
      | some e => exact serve_read_error L s r d hpath body e hrb
      | none =>
        have := hwithin body hrb b hb
        omega
  · intro body err hrb hx
    refine serve_deny L s r d hpath body hrb ?_
    rw [inspect_decision, hx]
  · intro body res hrb hx hdec
    refine serve_deny L s r d hpath body hrb ?_
    rw [inspect_decision, hx]
    exact hdec
  · intro body res hrb hx hdec hoff
    refine serve_approve_disabled L s r d hpath body hrb ?_ hoff
    rw [inspect_decision, hx]
    exact hdec

/-- The run of `TestProxyAllowForwardsToUpstream`: one request reaches the upstream,
so the body was within the limit, extraction succeeded and the decision was `Allow`. -/
theorem ServeHTTP_forwards_and_stores_only_when_witness :
    testRequest.Path ≠ "/approve"
      ∧ (ServeHTTP testLib testServer testRequest testDraws).upstream.length = 1
      ∧ (∀ b, testRequest.Body = some b → (b.data.length : Int) ≤ testServer.cfg.MaxBodyBytes)
      ∧ ∃ body res, readBody testRequest.Body testServer.cfg.MaxBodyBytes = some (body, none)
          ∧ extract.FromJSON testLib.Unmarshal body = Except.ok res
          ∧ (policy.Evaluate testLib.ToLower testServer.evaluator "request" res.Text
              res.ToolNames).Decision = policy.DecisionAllow := by
  have hup : (ServeHTTP testLib testServer testRequest testDraws).upstream.length = 1 := by decide
  have hne : (ServeHTTP testLib testServer testRequest testDraws).upstream ≠ [] := by
    intro h
    rw [h] at hup
    exact absurd hup (by decide)
  have hlen : ∀ b, testRequest.Body = some b → (b.data.length : Int) < 2 ^ 63 := by
    intro b hb
    have hsome : some ({ data := testPayloadBytes, err := none } : http.Body) = some b := hb
    cases hsome
    decide
  exact ⟨by decide, hup,
    (ServeHTTP_forwards_and_stores_only_when testLib testServer testRequest testDraws
      (by decide) (by decide) hlen).1 hne⟩

end proxy

namespace proxy

theorem all_slash_replicate (l : List Char)
    (h : ∀ c ∈ l, (fun c => decide (c ∈ "/".data)) c = true) :
    l = List.replicate l.length '/' := by
  apply List.eq_replicate_iff.mpr
  refine ⟨rfl, ?_⟩
  intro c hc
  have := h c hc
  simpa using this

theorem trimRight_split (s : String) :
    ∃ i : Nat, s.data = (strings.TrimRight s "/").data ++ List.replicate i '/'
      ∧ (strings.TrimRight s "/").data.getLast? ≠ some '/' := by
  unfold strings.TrimRight
  simp only
  refine ⟨(s.data.rtakeWhile (fun c => decide (c ∈ "/".data))).length, ?_, ?_⟩
  · have hsplit : s.data = s.data.rdropWhile (fun c => decide (c ∈ "/".data))
        ++ s.data.rtakeWhile (fun c => decide (c ∈ "/".data)) := by
      unfold List.rdropWhile List.rtakeWhile
      rw [← List.reverse_append, List.takeWhile_append_dropWhile, List.reverse_reverse]
    have hall : ∀ c ∈ s.data.rtakeWhile (fun c => decide (c ∈ "/".data)),
        (fun c => decide (c ∈ "/".data)) c = true :=
      fun c hc => List.mem_rtakeWhile_imp (p := fun c => decide (c ∈ "/".data)) hc
    rw [← all_slash_replicate _ hall]
    exact hsplit
  · intro hlast
    have hne : s.data.rdropWhile (fun c => decide (c ∈ "/".data)) ≠ [] := by
      intro h; rw [h] at hlast; simp at hlast
    have hnot := List.rdropWhile_last_not (fun c => decide (c ∈ "/".data)) s.data hne
    rw [List.getLast?_eq_getLast _ hne] at hlast
    have heq : (s.data.rdropWhile (fun c => decide (c ∈ "/".data))).getLast hne = '/' := by
      simpa using hlast
    rw [heq] at hnot
    exact hnot (by decide)

theorem trimLeft_split (s : String) :
    ∃ j : Nat, s.data = List.replicate j '/' ++ (strings.TrimLeft s "/").data
      ∧ (strings.TrimLeft s "/").data.head? ≠ some '/' := by
  unfold strings.TrimLeft
  simp only
  refine ⟨(s.data.takeWhile (fun c => decide (c ∈ "/".data))).length, ?_, ?_⟩
  · have hall : ∀ c ∈ s.data.takeWhile (fun c => decide (c ∈ "/".data)),
        (fun c => decide (c ∈ "/".data)) c = true :=
      fun c hc => List.mem_takeWhile_imp (p := fun c => decide (c ∈ "/".data)) hc
    rw [← all_slash_replicate _ hall]
    exact (List.takeWhile_append_dropWhile _ _).symm
  · intro hhead
    have hnot := List.head?_dropWhile_not (fun c => decide (c ∈ "/".data)) s.data
    rw [hhead] at hnot
    simp at hnot

/-- C19: `joinPaths` returns the request path unchanged when the base path is empty
or `/`; otherwise base path and request path split as `b ++ "/"…"/"` and
`"/"…"/" ++ p`, with `b` not ending and `p` not beginning with a slash, and the
result is `b`, one slash, `p`. -/
theorem joinPaths_single_slash (basePath path : String) :
    ((basePath = "" ∨ basePath = "/") → joinPaths basePath path = path)
      ∧ (¬(basePath = "" ∨ basePath = "/") →
          ∃ (b p : List Char) (i j : Nat),
            basePath.data = b ++ List.replicate i '/'
              ∧ path.data = List.replicate j '/' ++ p
              ∧ b.getLast? ≠ some '/'
              ∧ p.head? ≠ some '/'
              ∧ (joinPaths basePath path).data = b ++ '/' :: p) := by
  constructor
  · intro h
    unfold joinPaths
    rw [if_pos h]
  · intro h
    obtain ⟨i, hb, hbl⟩ := trimRight_split basePath
    obtain ⟨j, hp, hph⟩ := trimLeft_split path
    refine ⟨_, _, i, j, hb, hp, hbl, hph, ?_⟩
    unfold joinPaths
    rw [if_neg h]
    simp [String.data_append]

end proxy

namespace policy

theorem mem_lookup_fold (ToLower : String → String) (tools : List String) (init : List String)
    (x : String) :
    x ∈ tools.foldl (fun (m : List String) (tool : String) => ToLower tool :: m) init
      ↔ x ∈ init ∨ ∃ t ∈ tools, ToLower t = x := by
  induction tools generalizing init with
  | nil => simp
  | cons t ts ih =>
    rw [List.foldl_cons, ih]
    simp only [List.mem_cons]
    constructor
    · rintro ((h | h) | ⟨t2, ht2, h⟩)
      · exact Or.inr ⟨t, Or.inl rfl, h.symm⟩
      · exact Or.inl h
      · exact Or.inr ⟨t2, Or.inr ht2, h⟩
    · rintro (h | ⟨t2, ht2 | ht2, h⟩)
      · exact Or.inl (Or.inr h)
      · subst ht2; exact Or.inl (Or.inl h.symm)
      · exact Or.inr ⟨t2, ht2, h⟩

theorem hasAnyTool_iff (ToLower : String → String) (tools wanted : List String) :
    hasAnyTool ToLower tools wanted = true
      ↔ ∃ t ∈ tools, ∃ w ∈ wanted, ToLower t = ToLower w := by
  unfold hasAnyTool
  simp only [List.any_eq_true, decide_eq_true_eq, mem_lookup_fold, List.not_mem_nil, false_or]
  constructor
  · rintro ⟨w, hw, t, ht, h⟩; exact ⟨t, ht, w, hw, h⟩
  · rintro ⟨t, ht, w, hw, h⟩; exact ⟨w, hw, t, ht, h⟩

theorem matches_iff (ToLower : String → String) (rule : compiledRule) (text : String)
    (toolNames : List String)
    (hcompiled : rule.Rule.Match.Pattern ≠ "" → rule.pattern ≠ none) :
    «matches» ToLower rule text toolNames = true
      ↔ ((rule.Rule.Match.Pattern = ""
            ∨ ∃ re, rule.pattern = some re ∧ re.MatchString text = true)
          ∧ (rule.Rule.Match.ToolNames = []
            ∨ ∃ t ∈ toolNames, ∃ w ∈ rule.Rule.Match.ToolNames, ToLower t = ToLower w)) := by
  unfold «matches»
  rw [← hasAnyTool_iff]
  cases hp : rule.pattern with
  | none =>
    have hpat : rule.Rule.Match.Pattern = "" := by
      by_contra hne
      exact hcompiled hne hp
    cases htn : rule.Rule.Match.ToolNames with
    | nil => simp [hpat]
    | cons w ws =>
      cases hh : hasAnyTool ToLower toolNames (w :: ws) <;> simp [hpat, hh]
  | some re =>
    by_cases hpat : rule.Rule.Match.Pattern = ""
    · cases htn : rule.Rule.Match.ToolNames with
      | nil => simp [hpat]
      | cons w ws =>
        cases hh : hasAnyTool ToLower toolNames (w :: ws) <;> simp [hpat, hh]
    · cases hm : re.MatchString text
      · simp [hpat, hm]
      · cases htn : rule.Rule.Match.ToolNames with
        | nil => simp [hpat, hm]
        | cons w ws =>
          cases hh : hasAnyTool ToLower toolNames (w :: ws) <;> simp [hpat, hm, hh]

theorem NewEvaluator_compiled (ToLower : String → String)
    (MustCompile : String → Option regexp.Regexp) (rules : List config.Rule)
    (order : List String) (e : Evaluator)
    (h : NewEvaluator ToLower MustCompile rules order = some e) :
    ∀ r ∈ e.rules, r.Rule.Match.Pattern ≠ "" → r.pattern ≠ none := by
  have hfold : ∀ (rs : List config.Rule) (init out : List compiledRule),
      (∀ r ∈ init, r.Rule.Match.Pattern ≠ "" → r.pattern ≠ none) →
      rs.foldl
        (fun (acc : Option (List compiledRule)) (rule : config.Rule) =>
          match acc with
          | none => none
          | some compiled =>
            if rule.Match.Pattern ≠ "" then
              match MustCompile rule.Match.Pattern with
              | none => none
              | some re => some (compiled ++ [{ Rule := rule, pattern := some re }])
            else some (compiled ++ [{ Rule := rule, pattern := none }]))
        (some init) = some out →
      ∀ r ∈ out, r.Rule.Match.Pattern ≠ "" → r.pattern ≠ none := by
    intro rs
    induction rs with
    | nil =>
      intro init out hinit hout
      simp only [List.foldl_nil, Option.some.injEq] at hout
      subst hout
      exact hinit
    | cons rule rest ih =>
      intro init out hinit hout
      rw [List.foldl_cons] at hout
      simp only at hout
      by_cases hpat : rule.Match.Pattern ≠ ""
      · rw [if_pos hpat] at hout
        cases hc : MustCompile rule.Match.Pattern with
        | none =>
          rw [hc] at hout
          simp only at hout
          have hnone : ∀ rs : List config.Rule, rs.foldl
              (fun (acc : Option (List compiledRule)) (rule : config.Rule) =>
                match acc with
                | none => none
                | some compiled =>
                  if rule.Match.Pattern ≠ "" then
                    match MustCompile rule.Match.Pattern with
                    | none => none
                    | some re => some (compiled ++ [{ Rule := rule, pattern := some re }])
                  else some (compiled ++ [{ Rule := rule, pattern := none }]))
              none = none := by
            intro rs
            induction rs with
            | nil => rfl
            | cons _ _ ih2 => rw [List.foldl_cons]; exact ih2
          rw [hnone] at hout
          cases hout
        | some re =>
          rw [hc] at hout
          simp only at hout
          refine ih _ out ?_ hout
          intro r hr
          rcases List.mem_append.mp hr with h1 | h1
          · exact hinit r h1
          · simp only [List.mem_singleton] at h1
            subst h1
            intro _ hn
            cases hn
      · rw [if_neg hpat] at hout
        refine ih _ out ?_ hout
        intro r hr
        rcases List.mem_append.mp hr with h1 | h1
        · exact hinit r h1
        · simp only [List.mem_singleton] at h1
          subst h1
          intro hne
          exact absurd hne hpat
  unfold NewEvaluator at h
  simp only at h
  split at h
  · cases h
  · rename_i compiled hcomp
    cases h
    exact hfold rules [] compiled (by simp) hcomp

end policy
namespace policy

/-- C20: a compiled rule (a non-empty pattern has its regex) matches exactly when
its pattern is empty or its regex finds a match in the text, and its tool names are
empty or some request tool equals some listed name after lower-casing both; so a rule
with an empty match object matches every input, and a rule with tool names only
matches every text as soon as the two tool lists share a name case-insensitively. -/
theorem matches_iff_predicates (ToLower : String → String) (rule : compiledRule)
    (text : String) (toolNames : List String)
    (hcompiled : rule.Rule.Match.Pattern ≠ "" → rule.pattern ≠ none) :
    («matches» ToLower rule text toolNames = true
        ↔ ((rule.Rule.Match.Pattern = ""
              ∨ ∃ re, rule.pattern = some re ∧ re.MatchString text = true)
            ∧ (rule.Rule.Match.ToolNames = []
              ∨ ∃ t ∈ toolNames, ∃ w ∈ rule.Rule.Match.ToolNames, ToLower t = ToLower w)))
      ∧ (rule.Rule.Match.Pattern = "" → rule.Rule.Match.ToolNames = [] →
          «matches» ToLower rule text toolNames = true)
      ∧ (rule.Rule.Match.Pattern = "" →
          (∃ t ∈ toolNames, ∃ w ∈ rule.Rule.Match.ToolNames, ToLower t = ToLower w) →
          «matches» ToLower rule text toolNames = true) := by
  have h := matches_iff ToLower rule text toolNames hcompiled
  refine ⟨h, ?_, ?_⟩
  · intro hp ht
    exact h.mpr ⟨Or.inl hp, Or.inl ht⟩
  · intro hp hs
    exact h.mpr ⟨Or.inl hp, Or.inr hs⟩

/-- The rule of `TestEvaluatorToolMatch` against a request tool written in another
case: the rule matches, whatever the text. -/
theorem matches_iff_predicates_witness :
    (ruleApproveTools.Rule.Match.Pattern ≠ "" → ruleApproveTools.pattern ≠ none)
      ∧ «matches» asciiLower ruleApproveTools "any text" ["File_Write"] = true :=
  ⟨fun h => absurd rfl h,
    (matches_iff_predicates asciiLower ruleApproveTools "any text" ["File_Write"]
      (fun h => absurd rfl h)).2.2 rfl
      ⟨"File_Write", by simp, "file_write", by simp [ruleApproveTools], by decide⟩⟩

end policy

namespace proxy

theorem readBody_eq (b : http.Body) (limit : Int)
    (h0 : 0 ≤ limit) (hmax : limit < 2 ^ 63 - 1) :
    readBody (some b) limit
      = if (b.data.length : Int) > limit then
          some (b.data.take limit.toNat, some "body too large")
        else
          match b.err with
          | some e => some ([], some e)
          | none => some (b.data, none) := by
  unfold readBody
  have hn : wrap64 (limit + 1) = limit + 1 := by
    unfold wrap64; omega
  simp only [hn]
  have hpos : ¬ (limit + 1 ≤ 0) := by omega
  simp only [hpos, if_false]
  by_cases hbig : (b.data.length : Int) > limit
  · have hshort : ¬ (b.data.length < (limit + 1).toNat) := by omega
    simp only [hshort, if_false, hbig, if_true]
    have hlen : ((b.data.take (limit + 1).toNat).length : Int) > limit := by
      rw [List.length_take]; omega
    rw [if_pos hlen, if_neg (by omega)]
    congr 2
    rw [List.take_take]
    congr 1
    omega
  · have hshort : b.data.length < (limit + 1).toNat := by omega
    simp only [hshort, if_true, hbig, if_false]
    cases herr : b.err with
    | some e => rfl
    | none =>
      simp only
      rw [List.take_of_length_le (by omega)]
      rw [if_neg hbig]

theorem readBody_no_panic (body : Option http.Body) (limit : Int) (h0 : 0 ≤ limit) :
    readBody body limit ≠ none := by
  have hneg : ¬ limit < 0 := by omega
  unfold readBody
  cases body with
  | none => simp
  | some b =>
    simp only [hneg, if_false]
    split
    · simp
    · split <;> (split <;> simp)

/-- C16, as amended: for a limit with `0 ≤ limit < 2 ^ 63 - 1`, `readBody` fails with
the first `limit` bytes when the body is longer than `limit`; otherwise it returns
exactly the body when the read ends without error, and fails with no bytes when the
read ends in an error; hence for a body read without error it fails exactly when the
body is longer than `limit`.  For every `limit ≥ 0` it does not index out of range. -/
theorem readBody_bounded (b : http.Body) (limit : Int)
    (h0 : 0 ≤ limit) (hmax : limit < 2 ^ 63 - 1) :
    ((b.data.length : Int) > limit →
        readBody (some b) limit = some (b.data.take limit.toNat, some "body too large"))
      ∧ ((b.data.length : Int) ≤ limit → b.err = none →
          readBody (some b) limit = some (b.data, none))
      ∧ (∀ e, (b.data.length : Int) ≤ limit → b.err = some e →
          readBody (some b) limit = some ([], some e))
      ∧ (b.err = none →
          ((∃ data e, readBody (some b) limit = some (data, some e))
            ↔ (b.data.length : Int) > limit))
      ∧ (∀ (body : Option http.Body) (l : Int), 0 ≤ l → readBody body l ≠ none) := by
  have h := readBody_eq b limit h0 hmax
  refine ⟨?_, ?_, ?_, ?_, fun body l hl => readBody_no_panic body l hl⟩
  · intro hbig
    rw [h, if_pos hbig]
  · intro hle herr
    rw [h, if_neg (by omega), herr]
  · intro e hle herr
    rw [h, if_neg (by omega), herr]
  · intro herr
    rw [h, herr]
    by_cases hbig : (b.data.length : Int) > limit
    · rw [if_pos hbig]
      exact ⟨fun _ => hbig, fun _ => ⟨_, _, rfl⟩⟩
    · rw [if_neg hbig]
      constructor
      · rintro ⟨data, e, he⟩
        simp at he
      · intro hc
        exact absurd hc hbig

/-- A 3-byte body under a limit of 2: the first 2 bytes come back with the error. -/
theorem readBody_bounded_witness :
    (0 : Int) ≤ 2 ∧ (2 : Int) < 2 ^ 63 - 1
      ∧ readBody (some { data := [1, 2, 3], err := none }) 2
          = some ([1, 2], some "body too large") :=
  ⟨by decide, by decide,
    (readBody_bounded { data := [1, 2, 3], err := none } 2 (by decide) (by decide)).1
      (by decide)⟩

/-- C16 fails as stated: a 1-byte body whose read ends in an error fails under a limit
of 10 and gives back no byte; and under the limit `2 ^ 63 - 1` a 1-byte body is read
as the empty body, without error. -/
theorem readBody_claim_fails :
    (readBody (some { data := [1], err := some "unexpected EOF" }) 10
        = some ([], some "unexpected EOF")
      ∧ ¬ (([1] : List UInt8).length : Int) > 10)
    ∧ (readBody (some { data := [1], err := none }) (2 ^ 63 - 1) = some ([], none)
      ∧ ([] : List UInt8) ≠ [1]) := by
  refine ⟨⟨by rfl, by decide⟩, ⟨by rfl, by decide⟩⟩

end proxy

namespace proxy

theorem cleanup_fold (ttl now : Int) (l acc : List (String × pendingRequest)) :
    l.foldl
        (fun (items : List (String × pendingRequest)) (e : String × pendingRequest) =>
          if time.Since now e.2.created > ttl then gomap.delete items e.1 else items)
        acc
      = acc.filter (fun x =>
          !decide (x.1 ∈ (l.filter (fun e => decide (time.Since now e.2.created > ttl))).map
            Prod.fst)) := by
  induction l generalizing acc with
  | nil => simp
  | cons e rest ih =>
    rw [List.foldl_cons, ih]
    by_cases hexp : time.Since now e.2.created > ttl
    · rw [if_pos hexp]
      unfold gomap.delete
      rw [List.filter_filter]
      congr 1
      funext x
      rw [List.filter_cons_of_pos (by simpa using hexp)]
      by_cases hx : x.1 = e.1
      · simp [hx]
      · simp [hx]
    · rw [if_neg hexp]
      rw [List.filter_cons_of_neg (by simpa using hexp)]

theorem cleanup_eq_live (s : approvalStore) (now : Int)
    (hnodup : (s.items.map Prod.fst).Nodup) :
    (cleanupLocked s now).items = live s now := by
  unfold cleanupLocked live
  by_cases hlen : s.items.length = 0
  · rw [if_pos hlen]
    have : s.items = [] := List.length_eq_zero.mp hlen
    rw [this]; rfl
  · rw [if_neg hlen]
    simp only
    rw [cleanup_fold]
    apply List.filter_congr
    intro x hx
    congr 1
    rw [decide_eq_decide]
    constructor
    · intro hmem
      obtain ⟨y, hy, hyx⟩ := List.mem_map.mp hmem
      obtain ⟨hy1, hy2⟩ := List.mem_filter.mp hy
      have hxy : y = x := by
        have hinj := List.inj_on_of_nodup_map hnodup
        exact hinj hy1 hx hyx
      rw [← hxy]
      simpa using hy2
    · intro hexp
      exact List.mem_map.mpr ⟨x, List.mem_filter.mpr ⟨hx, by simpa using hexp⟩, rfl⟩

end proxy
namespace proxy

theorem lookup_delete_ne {α : Type} (m : List (String × α)) (k id : String) (h : id ≠ k) :
    (gomap.delete m k).lookup id = m.lookup id := by
  unfold gomap.delete
  induction m with
  | nil => rfl
  | cons e rest ih =>
    obtain ⟨k1, v1⟩ := e
    by_cases hk : k1 = k
    · rw [List.filter_cons_of_neg (by simp [hk])]
      have hb : (id == k1) = false := by
        rw [beq_eq_false_iff_ne, hk]; exact h
      simp only [List.lookup, hb]
      exact ih
    · rw [List.filter_cons_of_pos (by simp [hk])]
      simp only [List.lookup]
      rw [ih]

theorem lookup_set_self {α : Type} (m : List (String × α)) (k : String) (v : α) :
    (gomap.set m k v).lookup k = some v := by
  simp [gomap.set, List.lookup]

theorem lookup_set_ne {α : Type} (m : List (String × α)) (k id : String) (v : α)
    (h : id ≠ k) : (gomap.set m k v).lookup id = m.lookup id := by
  unfold gomap.set
  have hb : (id == k) = false := by
    rw [beq_eq_false_iff_ne]; exact h
  simp only [List.lookup, hb]
  exact lookup_delete_ne m k id h

theorem delete_of_not_key {α : Type} (m : List (String × α)) (k : String)
    (h : k ∉ m.map Prod.fst) : gomap.delete m k = m := by
  unfold gomap.delete
  rw [List.filter_eq_self]
  intro e he
  have : e.1 ≠ k := fun heq => h (List.mem_map.mpr ⟨e, he, heq⟩)
  simpa using this

theorem length_delete_key {α : Type} (m : List (String × α)) (k : String)
    (hnodup : (m.map Prod.fst).Nodup) (h : k ∈ m.map Prod.fst) :
    (gomap.delete m k).length + 1 = m.length := by
  induction m with
  | nil => simp at h
  | cons e rest ih =>
    simp only [List.map_cons, List.nodup_cons] at hnodup
    obtain ⟨hnot, hrest⟩ := hnodup
    by_cases hk : e.1 = k
    · have hd : gomap.delete (e :: rest) k = gomap.delete rest k := by
        unfold gomap.delete
        rw [List.filter_cons_of_neg (by simp [hk])]
      rw [hd, delete_of_not_key rest k (by rw [← hk]; exact hnot)]
      simp
    · have hd : gomap.delete (e :: rest) k = e :: gomap.delete rest k := by
        unfold gomap.delete
        rw [List.filter_cons_of_pos (by simp [hk])]
      have hin : k ∈ rest.map Prod.fst := by
        simp only [List.map_cons, List.mem_cons] at h
        rcases h with h | h
        · exact absurd h.symm hk
        · exact h
      rw [hd]
      simp only [List.length_cons]
      rw [ih hrest hin]

theorem lookup_some_key {α : Type} (m : List (String × α)) (k : String) (v : α)
    (h : m.lookup k = some v) : k ∈ m.map Prod.fst := by
  induction m with
  | nil => simp [List.lookup] at h
  | cons e rest ih =>
    obtain ⟨k1, v1⟩ := e
    by_cases hb : (k == k1) = true
    · have : k = k1 := by simpa using hb
      simp [this]
    · have hb2 : (k == k1) = false := by simpa using hb
      simp only [List.lookup, hb2] at h
      simp only [List.map_cons, List.mem_cons]
      exact Or.inr (ih h)

/-- C12, as amended: `store` returns the hex spelling of the random bytes.  On a store
with distinct keys, when that id is not the id of a live entry the new store is the
live entries, each unchanged, plus the id mapped to the request, one entry more than
were live; when it is the id of a live entry, that entry is replaced by the request
and the number of entries equals the number that were live. -/
theorem store_fresh_or_replace (s : approvalStore) (req : pendingRequest) (now : Int)
    (buf : List UInt8) (hnodup : (s.items.map Prod.fst).Nodup) :
    (store s req now buf).1 = newID buf
      ∧ (store s req now buf).2.items.lookup (newID buf) = some req
      ∧ (newID buf ∉ (live s now).map Prod.fst →
          (store s req now buf).2.items = (newID buf, req) :: live s now
            ∧ (∀ id p, (live s now).lookup id = some p →
                (store s req now buf).2.items.lookup id = some p)
            ∧ (store s req now buf).2.items.length = (live s now).length + 1)
      ∧ (newID buf ∈ (live s now).map Prod.fst →
          (store s req now buf).2.items.length = (live s now).length) := by
  have hitems : (store s req now buf).2.items = gomap.set (live s now) (newID buf) req := by
    unfold store
    simp only
    rw [cleanup_eq_live s now hnodup]
  refine ⟨rfl, ?_, ?_, ?_⟩
  · rw [hitems]; exact lookup_set_self _ _ _
  · intro hfresh
    have hset : gomap.set (live s now) (newID buf) req = (newID buf, req) :: live s now := by
      have := delete_of_not_key (live s now) (newID buf) hfresh
      unfold gomap.delete at this
      unfold gomap.set
      rw [this]
    rw [hitems, hset]
    refine ⟨rfl, ?_, by simp⟩
    intro id p hp
    have hne : id ≠ newID buf := by
      intro heq
      exact hfresh (heq ▸ lookup_some_key _ _ _ hp)
    have hb : (id == newID buf) = false := by
      rw [beq_eq_false_iff_ne]; exact hne
    simp only [List.lookup, hb]
    exact hp
  · intro hcoll
    rw [hitems]
    have hlive : ((live s now).map Prod.fst).Nodup := by
      unfold live
      exact (List.Nodup.sublist ((List.filter_sublist _).map Prod.fst) hnodup)
    have := length_delete_key (live s now) (newID buf) hlive hcoll
    unfold gomap.set
    unfold gomap.delete at this
    simp only [List.length_cons]
    exact this

/-- A fresh id on the one-entry store `demoStore` at instant 120: two entries after. -/
theorem store_fresh_or_replace_witness :
    (demoStore.items.map Prod.fst).Nodup
      ∧ newID [0, 1, 2, 3, 4, 5, 6, 7] ∉ (live demoStore 120).map Prod.fst
      ∧ (store demoStore otherPending 120 [0, 1, 2, 3, 4, 5, 6, 7]).2.items.length = 2 := by
  have hnodup : (demoStore.items.map Prod.fst).Nodup := by decide
  have hfresh : newID [0, 1, 2, 3, 4, 5, 6, 7] ∉ (live demoStore 120).map Prod.fst := by decide
  exact ⟨hnodup, hfresh,
    ((store_fresh_or_replace demoStore otherPending 120 [0, 1, 2, 3, 4, 5, 6, 7] hnodup).2.2.1
      hfresh).2.2⟩

/-- C12 fails as stated: when the random bytes spell the id of a live entry, `store`
returns that id, the entry stored under it is replaced, and the number of entries
does not grow. -/
theorem store_reuses_live_id :
    (store collideStore otherPending 120 [0, 1, 2, 3, 4, 5, 6, 7]).1 = "0001020304050607"
      ∧ (collideStore.items.lookup "0001020304050607").map (fun p => p.path) = some "/v1/chat"
      ∧ ¬ (time.Since 120 demoPending.created > collideStore.ttl)
      ∧ ((store collideStore otherPending 120 [0, 1, 2, 3, 4, 5, 6, 7]).2.items.lookup
          "0001020304050607").map (fun p => p.path) = some "/v2/other"
      ∧ (store collideStore otherPending 120 [0, 1, 2, 3, 4, 5, 6, 7]).2.items.length
          = collideStore.items.length := by
  refine ⟨by decide, by decide, by decide, by decide, by decide⟩

end proxy

namespace proxy

theorem approve_disabled (L : Stdlib) (s : Server) (r : http.Request) (d : Draws)
    (h : s.cfg.Approval.Enabled = false) :
    handleApprove L s r d
      = { pending := s.pending, reply := some (writeError L 404 "approval_disabled"),
          upstream := [], audit := [] } := by
  unfold handleApprove
  rw [if_pos h]

theorem approve_method (L : Stdlib) (s : Server) (r : http.Request) (d : Draws)
    (h : s.cfg.Approval.Enabled = true) (hm : r.Method ≠ "POST") :
    handleApprove L s r d
      = { pending := s.pending, reply := some (writeError L 405 "method_not_allowed"),
          upstream := [], audit := [] } := by
  unfold handleApprove
  rw [if_neg (by simp [h]), if_pos hm]

theorem approve_token (L : Stdlib) (s : Server) (r : http.Request) (d : Draws)
    (h : s.cfg.Approval.Enabled = true) (hm : r.Method = "POST")
    (ht : s.cfg.Approval.Token ≠ "")
    (hh : http.Header.Get L.CanonicalHeaderKey r.Header "X-Approval-Token"
      ≠ s.cfg.Approval.Token) :
    handleApprove L s r d
      = { pending := s.pending, reply := some (writeError L 401 "invalid_token"),
          upstream := [], audit := [] } := by
  unfold handleApprove
  rw [if_neg (by simp [h]), if_neg (by simp [hm]), if_pos ⟨ht, hh⟩]

theorem approve_body (L : Stdlib) (s : Server) (r : http.Request) (d : Draws)
    (h : s.cfg.Approval.Enabled = true) (hm : r.Method = "POST")
    (ht : s.cfg.Approval.Token = ""
      ∨ http.Header.Get L.CanonicalHeaderKey r.Header "X-Approval-Token" = s.cfg.Approval.Token)
    (data : List UInt8) (e : String)
    (hb : readBody r.Body (1024 * 16) = some (data, some e)) :
    handleApprove L s r d
      = { pending := s.pending, reply := some (writeError L 400 "invalid_body"),
          upstream := [], audit := [] } := by
  unfold handleApprove
  have ht2 : ¬ (s.cfg.Approval.Token ≠ ""
      ∧ http.Header.Get L.CanonicalHeaderKey r.Header "X-Approval-Token"
        ≠ s.cfg.Approval.Token) := by
    rintro ⟨h1, h2⟩
    rcases ht with h3 | h3
    · exact h1 h3
    · exact h2 h3
  rw [if_neg (by simp [h]), if_neg (by simp [hm]), if_neg ht2]
  simp only [hb]

theorem approve_bad_id (L : Stdlib) (s : Server) (r : http.Request) (d : Draws)
    (h : s.cfg.Approval.Enabled = true) (hm : r.Method = "POST")
    (ht : s.cfg.Approval.Token = ""
      ∨ http.Header.Get L.CanonicalHeaderKey r.Header "X-Approval-Token" = s.cfg.Approval.Token)
    (body : List UInt8)
    (hb : readBody r.Body (1024 * 16) = some (body, none))
    (hid : (∃ e, L.UnmarshalApprovalID body = Except.error e)
      ∨ L.UnmarshalApprovalID body = Except.ok "") :
    handleApprove L s r d
      = { pending := s.pending, reply := some (writeError L 400 "invalid_approval_id"),
          upstream := [], audit := [] } := by
  unfold handleApprove
  have ht2 : ¬ (s.cfg.Approval.Token ≠ ""
      ∧ http.Header.Get L.CanonicalHeaderKey r.Header "X-Approval-Token"
        ≠ s.cfg.Approval.Token) := by
    rintro ⟨h1, h2⟩
    rcases ht with h3 | h3
    · exact h1 h3
    · exact h2 h3
  rw [if_neg (by simp [h]), if_neg (by simp [hm]), if_neg ht2]
  simp only [hb]
  rcases hid with ⟨e, he⟩ | he
  · simp only [he]
  · simp only [he, if_true]

theorem approve_passes (L : Stdlib) (s : Server) (r : http.Request) (d : Draws) (id : String)
    (h : passesChecks L s r id) :
    handleApprove L s r d
      = match fetch s.pending id d.fetchAt with
        | (none, pending) =>
          { pending := pending, reply := some (writeError L 404 "approval_not_found"),
            upstream := [], audit := [] }
        | (some req, pending) =>
          match L.NewRequest req.method (s.cfg.Upstream ++ req.path) with
          | Except.error _ =>
            { pending := pending, reply := some (writeError L 502 "upstream_error"),
              upstream := [], audit := [] }
          | Except.ok _ =>
            match L.Do (replayRequest L s req) with
            | Except.error err =>
              { pending := pending, reply := some (writeError L 502 "upstream_error"),
                upstream := [replayRequest L s req],
                audit := logEvent s
                  { RequestID := "", RemoteAddr := "", Method := "", Path := "",
                    Decision := policy.DecisionApprove, RuleName := "approval_handler",
                    Reason := err, TextSample := [], ToolNames := [],
                    Upstream := s.cfg.Upstream, ApprovalID := id, StatusCode := 502,
                    BytesIn := 0, BytesOut := 0, ErrorString := err } }
            | Except.ok resp =>
              { pending := pending,
                reply := some
                  { code := resp.StatusCode,
                    header := copyHeaders L.CanonicalHeaderKey [] resp.Header,
                    body := Payload.bytes resp.Body },
                upstream := [replayRequest L s req],
                audit := logEvent s
                  { RequestID := "", RemoteAddr := "", Method := "", Path := "",
                    Decision := policy.DecisionApprove, RuleName := "approval_handler",
                    Reason := "approved_request", TextSample := [], ToolNames := [],
                    Upstream := s.cfg.Upstream, ApprovalID := id,
                    StatusCode := resp.StatusCode, BytesIn := 0, BytesOut := 0,
                    ErrorString := "" } } := by
  obtain ⟨hen, hm, ht, body, hb, hid, hne⟩ := h
  unfold handleApprove
  have ht2 : ¬ (s.cfg.Approval.Token ≠ ""
      ∧ http.Header.Get L.CanonicalHeaderKey r.Header "X-Approval-Token"
        ≠ s.cfg.Approval.Token) := by
    rintro ⟨h1, h2⟩
    rcases ht with h3 | h3
    · exact h1 h3
    · exact h2 h3
  rw [if_neg (by simp [hen]), if_neg (by simp [hm]), if_neg ht2]
  simp only [hb, hid, hne, if_false]
  rfl

end proxy
namespace proxy

theorem approve_rejected (L : Stdlib) (s : Server) (r : http.Request) (d : Draws)
    (h : ¬ ∃ id, passesChecks L s r id) :
    (handleApprove L s r d).pending = s.pending
      ∧ (handleApprove L s r d).upstream = []
      ∧ (handleApprove L s r d).audit = []
      ∧ ∃ c m, (handleApprove L s r d).reply = some (writeError L c m)
          ∧ (c, m) ∈ [(404, "approval_disabled"), (405, "method_not_allowed"),
              (401, "invalid_token"), (400, "invalid_body"), (400, "invalid_approval_id")] := by
  cases hen : s.cfg.Approval.Enabled with
  | false =>
    rw [approve_disabled L s r d hen]
    exact ⟨rfl, rfl, rfl, 404, "approval_disabled", rfl, by simp⟩
  | true =>
    by_cases hm : r.Method = "POST"
    · by_cases ht : s.cfg.Approval.Token = ""
          ∨ http.Header.Get L.CanonicalHeaderKey r.Header "X-Approval-Token"
            = s.cfg.Approval.Token
      · cases hb : readBody r.Body (1024 * 16) with
        | none => exact absurd hb (readBody_no_panic _ _ (by decide))
        | some res =>
          obtain ⟨body, err⟩ := res
          cases err with
          | some e =>
            rw [approve_body L s r d hen hm ht body e hb]
            exact ⟨rfl, rfl, rfl, 400, "invalid_body", rfl, by simp⟩
          | none =>
            have hbad : (∃ e, L.UnmarshalApprovalID body = Except.error e)
                ∨ L.UnmarshalApprovalID body = Except.ok "" := by
              cases hid : L.UnmarshalApprovalID body with
              | error e => exact Or.inl ⟨e, rfl⟩
              | ok id =>
                by_cases hempty : id = ""
                · right; rw [hempty]
                · exact absurd ⟨id, hen, hm, ht, body, hb, hid, hempty⟩ h
            rw [approve_bad_id L s r d hen hm ht body hb hbad]
            exact ⟨rfl, rfl, rfl, 400, "invalid_approval_id", rfl, by simp⟩
      · have ht1 : s.cfg.Approval.Token ≠ "" := fun h1 => ht (Or.inl h1)
        have ht2 : http.Header.Get L.CanonicalHeaderKey r.Header "X-Approval-Token"
            ≠ s.cfg.Approval.Token := fun h1 => ht (Or.inr h1)
        rw [approve_token L s r d hen hm ht1 ht2]
        exact ⟨rfl, rfl, rfl, 401, "invalid_token", rfl, by simp⟩
    · rw [approve_method L s r d hen hm]
      exact ⟨rfl, rfl, rfl, 405, "method_not_allowed", rfl, by simp⟩

theorem fetch_none_iff (s : approvalStore) (id : String) (now : Int) :
    (fetch s id now).1 = none
      ↔ (s.items.lookup id = none
        ∨ ∃ req, s.items.lookup id = some req ∧ time.Since now req.created > s.ttl) := by
  unfold fetch
  cases h : s.items.lookup id with
  | none => simp
  | some req =>
    simp only
    by_cases hexp : time.Since now req.created > s.ttl
    · rw [if_pos hexp]; simp [hexp]
    · rw [if_neg hexp]; simp [hexp]

theorem fetch_some_iff (s : approvalStore) (id : String) (now : Int) (req : pendingRequest) :
    (fetch s id now).1 = some req
      ↔ (s.items.lookup id = some req ∧ ¬ time.Since now req.created > s.ttl) := by
  unfold fetch
  cases h : s.items.lookup id with
  | none => simp
  | some p =>
    simp only
    by_cases hexp : time.Since now p.created > s.ttl
    · rw [if_pos hexp]
      constructor
      · intro hc; cases hc
      · rintro ⟨hp, hn⟩
        cases hp
        exact absurd hexp hn
    · rw [if_neg hexp]
      constructor
      · intro hc; cases hc; exact ⟨rfl, hexp⟩
      · rintro ⟨hp, _⟩; cases hp; rfl

theorem approve_not_found (L : Stdlib) (s : Server) (r : http.Request) (d : Draws) (id : String)
    (h : passesChecks L s r id) (hf : (fetch s.pending id d.fetchAt).1 = none) :
    handleApprove L s r d
      = { pending := (fetch s.pending id d.fetchAt).2,
          reply := some (writeError L 404 "approval_not_found"),
          upstream := [], audit := [] } := by
  rw [approve_passes L s r d id h]
  generalize fetch s.pending id d.fetchAt = f at hf ⊢
  obtain ⟨res, pending⟩ := f
  simp only at hf
  subst hf
  rfl

theorem approve_found (L : Stdlib) (s : Server) (r : http.Request) (d : Draws) (id : String)
    (req : pendingRequest)
    (h : passesChecks L s r id) (hf : (fetch s.pending id d.fetchAt).1 = some req) :
    (handleApprove L s r d).pending = (fetch s.pending id d.fetchAt).2
      ∧ (handleApprove L s r d).upstream
          = (match L.NewRequest req.method (s.cfg.Upstream ++ req.path) with
            | Except.error _ => []
            | Except.ok _ => [replayRequest L s req])
      ∧ (handleApprove L s r d).audit.length
          = (if s.logger = false then 0 else (handleApprove L s r d).upstream.length)
      ∧ (handleApprove L s r d).reply ≠ none := by
  rw [approve_passes L s r d id h]
  generalize fetch s.pending id d.fetchAt = f at hf ⊢
  obtain ⟨res, pending⟩ := f
  simp only at hf
  subst hf
  simp only
  cases L.NewRequest req.method (s.cfg.Upstream ++ req.path) with
  | error e =>
    simp only
    refine ⟨trivial, trivial, ?_, by simp⟩
    split <;> rfl
  | ok u =>
    simp only
    cases L.Do (replayRequest L s req) with
    | error e =>
      simp only
      refine ⟨trivial, trivial, ?_, by simp⟩
      unfold logEvent
      split <;> rfl
    | ok resp =>
      simp only
      refine ⟨trivial, trivial, ?_, by simp⟩
      unfold logEvent
      split <;> rfl

end proxy
namespace proxy

/-- C14, as amended: the response of `/approve` is decided by the first check that
fails, in this order: approval disabled gives 404 `approval_disabled`; a method other
than POST gives 405 `method_not_allowed`; a configured token that differs from the
`X-Approval-Token` header gives 401 `invalid_token`; a body that is longer than
16 KiB or whose read ends in an error gives 400 `invalid_body`; a payload that does
not decode or carries an empty `approval_id` gives 400 `invalid_approval_id`; a ticket
that is absent or expired gives 404 `approval_not_found`; and a request reaches the
upstream client only when all checks pass and the ticket is present and not expired,
the request sent being the replay of the stored one. -/
theorem handleApprove_checks_in_order (L : Stdlib) (s : Server) (r : http.Request)
    (d : Draws) :
    (s.cfg.Approval.Enabled = false →
        (handleApprove L s r d).reply = some (writeError L 404 "approval_disabled"))
      ∧ (s.cfg.Approval.Enabled = true → r.Method ≠ "POST" →
          (handleApprove L s r d).reply = some (writeError L 405 "method_not_allowed"))
      ∧ (s.cfg.Approval.Enabled = true → r.Method = "POST" →
          s.cfg.Approval.Token ≠ "" →
          http.Header.Get L.CanonicalHeaderKey r.Header "X-Approval-Token"
            ≠ s.cfg.Approval.Token →
          (handleApprove L s r d).reply = some (writeError L 401 "invalid_token"))
      ∧ (s.cfg.Approval.Enabled = true → r.Method = "POST" →
          (s.cfg.Approval.Token = ""
            ∨ http.Header.Get L.CanonicalHeaderKey r.Header "X-Approval-Token"
              = s.cfg.Approval.Token) →
          ∀ b, r.Body = some b → ((b.data.length : Int) > 1024 * 16 ∨ b.err ≠ none) →
          (handleApprove L s r d).reply = some (writeError L 400 "invalid_body"))
      ∧ (s.cfg.Approval.Enabled = true → r.Method = "POST" →
          (s.cfg.Approval.Token = ""
            ∨ http.Header.Get L.CanonicalHeaderKey r.Header "X-Approval-Token"
              = s.cfg.Approval.Token) →
          ∀ body, readBody r.Body (1024 * 16) = some (body, none) →
          ((∃ e, L.UnmarshalApprovalID body = Except.error e)
            ∨ L.UnmarshalApprovalID body = Except.ok "") →
          (handleApprove L s r d).reply = some (writeError L 400 "invalid_approval_id"))
      ∧ (∀ id, passesChecks L s r id →
          (s.pending.items.lookup id = none
            ∨ ∃ req, s.pending.items.lookup id = some req
                ∧ time.Since d.fetchAt req.created > s.pending.ttl) →
          (handleApprove L s r d).reply = some (writeError L 404 "approval_not_found")
            ∧ (handleApprove L s r d).upstream = [])
      ∧ ((handleApprove L s r d).upstream ≠ [] →
          ∃ id req, passesChecks L s r id
            ∧ s.pending.items.lookup id = some req
            ∧ ¬ time.Since d.fetchAt req.created > s.pending.ttl
            ∧ (handleApprove L s r d).upstream = [replayRequest L s req]) := by
  refine ⟨?_, ?_, ?_, ?_, ?_, ?_, ?_⟩
  · intro h
    rw [approve_disabled L s r d h]
  · intro h hm
    rw [approve_method L s r d h hm]
  · intro h hm ht hh
    rw [approve_token L s r d h hm ht hh]
  · intro h hm ht b hb hbad
    have heq := readBody_eq b (1024 * 16) (by decide) (by decide)
    have hsome : ∃ data e, readBody r.Body (1024 * 16) = some (data, some e) := by
      rw [hb, heq]
      by_cases hbig : (b.data.length : Int) > 1024 * 16
      · rw [if_pos hbig]; exact ⟨_, _, rfl⟩
      · rw [if_neg hbig]
        rcases hbad with h1 | h1
        · exact absurd h1 hbig
        · cases herr : b.err with
          | none => exact absurd herr h1
          | some e => exact ⟨_, _, rfl⟩
    obtain ⟨data, e, hrb⟩ := hsome
    rw [approve_body L s r d h hm ht data e hrb]
  · intro h hm ht body hb hbad
    rw [approve_bad_id L s r d h hm ht body hb hbad]
  · intro id hp hlook
    have hf := (fetch_none_iff s.pending id d.fetchAt).mpr hlook
    rw [approve_not_found L s r d id hp hf]
    exact ⟨rfl, rfl⟩
  · intro hup
    by_cases hex : ∃ id, passesChecks L s r id
    · obtain ⟨id, hp⟩ := hex
      cases hf : (fetch s.pending id d.fetchAt).1 with
      | none =>
        rw [approve_not_found L s r d id hp hf] at hup
        exact absurd rfl hup
      | some req =>
        have hfound := approve_found L s r d id req hp hf
        obtain ⟨hl, hn⟩ := (fetch_some_iff s.pending id d.fetchAt req).mp hf
        refine ⟨id, req, hp, hl, hn, ?_⟩
        rw [hfound.2.1] at hup ⊢
        cases hnr : L.NewRequest req.method (s.cfg.Upstream ++ req.path) with
        | error e => rw [hnr] at hup; exact absurd rfl hup
        | ok u => rfl
    · exact absurd (approve_rejected L s r d hex).2.1 hup

/-- The approver's call of `TestProxyApproveFlow` on a store holding the ticket: the
stored request is replayed upstream and one audit event is written. -/
theorem approve_flow_test_run :
    (handleApprove approveLib approveServer approveRequest approveDraws).upstream.map
        (fun o => (o.method, o.url, o.body)) = [("POST", "http://upstream/v1/chat", [])]
      ∧ (handleApprove approveLib approveServer approveRequest approveDraws).audit.length = 1
      ∧ (handleApprove approveLib approveServer approveRequest
          approveDraws).pending.items.length = 0 := by
  refine ⟨by decide, by decide, by decide⟩

/-- C14 fails as stated: approval is enabled, the method is POST, the token matches,
the body has 22 bytes, decodes to the ticket `00ff`, and that ticket is present and
not expired, yet the read of the body ends in an error and the answer is 400
`invalid_body`, with nothing replayed. -/
theorem approve_unreadable_body_rejected :
    approveServer.cfg.Approval.Enabled = true
      ∧ brokenApproveRequest.Method = "POST"
      ∧ http.Header.Get approveLib.CanonicalHeaderKey brokenApproveRequest.Header
          "X-Approval-Token" = approveServer.cfg.Approval.Token
      ∧ (approveBytes.length : Int) ≤ 1024 * 16
      ∧ approveLib.UnmarshalApprovalID approveBytes = Except.ok "00ff"
      ∧ (approveServer.pending.items.lookup "00ff").map (fun p => p.created) = some 100
      ∧ ¬ time.Since approveDraws.fetchAt 100 > approveServer.pending.ttl
      ∧ (handleApprove approveLib approveServer brokenApproveRequest approveDraws).reply
          = some (writeError approveLib 400 "invalid_body")
      ∧ (handleApprove approveLib approveServer brokenApproveRequest approveDraws).upstream
          = [] := by
  refine ⟨rfl, rfl, by decide, by decide, rfl, by decide, by decide, rfl, rfl⟩

end proxy

namespace proxy

theorem serve_outcome_error (L : Stdlib) (s : Server) (r : http.Request) (d : Draws)
    (hpath : r.Path ≠ "/approve") (body : List UInt8) (err : String)
    (h : readBody r.Body s.cfg.MaxBodyBytes = some (body, some err)) :
    ServeHTTP L s r d
      = { pending := s.pending, reply := some (writeError L 413 "body_too_large"),
          upstream := [],
          audit := logEvent s
            { RequestID := newID d.requestID, RemoteAddr := r.RemoteAddr, Method := r.Method,
              Path := r.Path, Decision := policy.DecisionDeny, RuleName := "",
              Reason := "body_too_large", TextSample := [], ToolNames := [],
              Upstream := s.cfg.Upstream, ApprovalID := "", StatusCode := 413,
              BytesIn := body.length, BytesOut := 0, ErrorString := "" } } := by
  unfold ServeHTTP
  rw [if_neg hpath]
  simp only [h]

theorem serve_outcome_deny (L : Stdlib) (s : Server) (r : http.Request) (d : Draws)
    (hpath : r.Path ≠ "/approve") (body : List UInt8)
    (h : readBody r.Body s.cfg.MaxBodyBytes = some (body, none))
    (hdec : (inspect L s body).2.2.1 = policy.DecisionDeny) :
    ServeHTTP L s r d
      = { pending := s.pending, reply := some (writeError L 403 "blocked"), upstream := [],
          audit := logEvent s
            { RequestID := newID d.requestID, RemoteAddr := r.RemoteAddr, Method := r.Method,
              Path := r.Path, Decision := policy.DecisionDeny,
              RuleName := (inspect L s body).2.2.2.1, Reason := (inspect L s body).2.2.2.2,
              TextSample := sample (inspect L s body).1, ToolNames := (inspect L s body).2.1,
              Upstream := s.cfg.Upstream, ApprovalID := "", StatusCode := 403,
              BytesIn := body.length, BytesOut := 0, ErrorString := "" } } := by
  unfold ServeHTTP
  rw [if_neg hpath]
  simp only [h]
  generalize inspect L s body = I at hdec ⊢
  obtain ⟨text, tools, dec, rn, reason⟩ := I
  simp only at hdec
  subst hdec
  simp only [if_true]

theorem serve_outcome_approve_disabled (L : Stdlib) (s : Server) (r : http.Request)
    (d : Draws) (hpath : r.Path ≠ "/approve") (body : List UInt8)
    (h : readBody r.Body s.cfg.MaxBodyBytes = some (body, none))
    (hdec : (inspect L s body).2.2.1 = policy.DecisionApprove)
    (hoff : s.cfg.Approval.Enabled = false) :
    ServeHTTP L s r d
      = { pending := s.pending, reply := some (writeError L 403 "approval_disabled"),
          upstream := [],
          audit := logEvent s
            { RequestID := newID d.requestID, RemoteAddr := r.RemoteAddr, Method := r.Method,
              Path := r.Path, Decision := policy.DecisionDeny,
              RuleName := (inspect L s body).2.2.2.1, Reason := "approval_disabled",
              TextSample := sample (inspect L s body).1, ToolNames := (inspect L s body).2.1,
              Upstream := s.cfg.Upstream, ApprovalID := "", StatusCode := 403,
              BytesIn := body.length, BytesOut := 0, ErrorString := "" } } := by
  unfold ServeHTTP
  rw [if_neg hpath]
  simp only [h]
  generalize inspect L s body = I at hdec ⊢
  obtain ⟨text, tools, dec, rn, reason⟩ := I
  simp only at hdec
  subst hdec
  have hne : policy.DecisionApprove ≠ policy.DecisionDeny := by decide
  simp only [hne, hoff, if_true, if_false]

theorem serve_outcome_approve_enabled (L : Stdlib) (s : Server) (r : http.Request)
    (d : Draws) (hpath : r.Path ≠ "/approve") (body : List UInt8)
    (h : readBody r.Body s.cfg.MaxBodyBytes = some (body, none))
    (hdec : (inspect L s body).2.2.1 = policy.DecisionApprove)
    (hon : s.cfg.Approval.Enabled = true) :
    ServeHTTP L s r d
      = { pending := (store s.pending
            { method := r.Method, path := r.RequestURI, header := cloneHeader r.Header,
              body := body, created := d.created } d.storeAt d.approvalID).2,
          reply := some (writeJSON L 202
            [("approval_id", newID d.approvalID), ("status", "approval_required")]),
          upstream := [],
          audit := logEvent s
            { RequestID := newID d.requestID, RemoteAddr := r.RemoteAddr, Method := r.Method,
              Path := r.Path, Decision := policy.DecisionApprove,
              RuleName := (inspect L s body).2.2.2.1, Reason := (inspect L s body).2.2.2.2,
              TextSample := sample (inspect L s body).1, ToolNames := (inspect L s body).2.1,
              Upstream := s.cfg.Upstream, ApprovalID := newID d.approvalID, StatusCode := 202,
              BytesIn := body.length, BytesOut := 0, ErrorString := "" } } := by
  unfold ServeHTTP
  rw [if_neg hpath]
  simp only [h]
  generalize inspect L s body = I at hdec ⊢
  obtain ⟨text, tools, dec, rn, reason⟩ := I
  simp only at hdec
  subst hdec
  have hne : policy.DecisionApprove ≠ policy.DecisionDeny := by decide
  simp only [hne, hon, if_true, if_false]
  rfl

theorem serve_outcome_forward (L : Stdlib) (s : Server) (r : http.Request) (d : Draws)
    (hpath : r.Path ≠ "/approve") (body : List UInt8)
    (h : readBody r.Body s.cfg.MaxBodyBytes = some (body, none))
    (hdeny : (inspect L s body).2.2.1 ≠ policy.DecisionDeny)
    (happr : (inspect L s body).2.2.1 ≠ policy.DecisionApprove) :
    (ServeHTTP L s r d).upstream = (forward L s r body (newID d.requestID)).2
      ∧ (ServeHTTP L s r d).reply ≠ none
      ∧ (ServeHTTP L s r d).audit.length = (if s.logger = false then 0 else 1) := by
  unfold ServeHTTP
  rw [if_neg hpath]
  simp only [h]
  generalize inspect L s body = I at hdeny happr ⊢
  obtain ⟨text, tools, dec, rn, reason⟩ := I
  simp only at hdeny happr
  simp only [hdeny, happr, if_false]
  generalize forward L s r body (newID d.requestID) = F
  obtain ⟨res, calls⟩ := F
  cases res with
  | error e =>
    refine ⟨rfl, by simp, ?_⟩
    simp only [logEvent]
    split <;> rfl
  | ok resp =>
    refine ⟨rfl, by simp, ?_⟩
    simp only [logEvent]
    split <;> rfl

theorem logEvent_length (s : Server) (ev : audit.Event) :
    (logEvent s ev).length = (if s.logger = false then 0 else 1) := by
  unfold logEvent
  split <;> rfl

end proxy
namespace proxy

/-- C17, as amended: for a request whose path is not `/approve` and a limit with
`0 ≤ max_body_bytes < 2 ^ 63 - 1`, the reply is 413 `body_too_large` when the body is
longer than the limit or its read ends in an error; a body within the limit read
without error is captured whole, and on the captured body the reply is 403 `blocked`
when extraction fails (audited as deny, empty rule name, `invalid_json`, whatever
the rules) or the evaluator returns `Deny`, 403 `approval_disabled` when it returns
`Approve` with approval disabled (audited as deny, `approval_disabled`), and 202 with
the approval id and status `approval_required` when it returns `Approve` with
approval enabled. -/
theorem ServeHTTP_reply_by_case (L : Stdlib) (s : Server) (r : http.Request) (d : Draws)
    (hpath : r.Path ≠ "/approve")
    (h0 : 0 ≤ s.cfg.MaxBodyBytes) (hmax : s.cfg.MaxBodyBytes < 2 ^ 63 - 1) :
    (∀ b, r.Body = some b →
        ((b.data.length : Int) > s.cfg.MaxBodyBytes ∨ b.err ≠ none) →
        (ServeHTTP L s r d).reply = some (writeError L 413 "body_too_large")
          ∧ ∀ ev ∈ (ServeHTTP L s r d).audit,
              ev.Decision = policy.DecisionDeny ∧ ev.Reason = "body_too_large"
                ∧ ev.StatusCode = 413)
      ∧ (∀ b, r.Body = some b → (b.data.length : Int) ≤ s.cfg.MaxBodyBytes → b.err = none →
          readBody r.Body s.cfg.MaxBodyBytes = some (b.data, none))
      ∧ (r.Body = none → readBody r.Body s.cfg.MaxBodyBytes = some ([], none))
      ∧ (∀ body, readBody r.Body s.cfg.MaxBodyBytes = some (body, none) →
          (∀ e, extract.FromJSON L.Unmarshal body = Except.error e →
              (ServeHTTP L s r d).reply = some (writeError L 403 "blocked")
                ∧ ∀ ev ∈ (ServeHTTP L s r d).audit,
                    ev.Decision = policy.DecisionDeny ∧ ev.RuleName = ""
                      ∧ ev.Reason = "invalid_json" ∧ ev.StatusCode = 403)
            ∧ (∀ res, extract.FromJSON L.Unmarshal body = Except.ok res →
                (policy.Evaluate L.ToLower s.evaluator "request" res.Text
                  res.ToolNames).Decision = policy.DecisionDeny →
                (ServeHTTP L s r d).reply = some (writeError L 403 "blocked"))
            ∧ (∀ res, extract.FromJSON L.Unmarshal body = Except.ok res →
                (policy.Evaluate L.ToLower s.evaluator "request" res.Text
                  res.ToolNames).Decision = policy.DecisionApprove →
                s.cfg.Approval.Enabled = false →
                (ServeHTTP L s r d).reply = some (writeError L 403 "approval_disabled")
                  ∧ ∀ ev ∈ (ServeHTTP L s r d).audit,
                      ev.Decision = policy.DecisionDeny ∧ ev.Reason = "approval_disabled"
                        ∧ ev.StatusCode = 403)
            ∧ (∀ res, extract.FromJSON L.Unmarshal body = Except.ok res →
                (policy.Evaluate L.ToLower s.evaluator "request" res.Text
                  res.ToolNames).Decision = policy.DecisionApprove →
                s.cfg.Approval.Enabled = true →
                (ServeHTTP L s r d).reply
                  = some (writeJSON L 202
                      [("approval_id", newID d.approvalID),
                        ("status", "approval_required")]))) := by
  have hmem : ∀ (ev0 ev : audit.Event), ev ∈ logEvent s ev0 → ev = ev0 := by
    intro ev0 ev hev
    unfold logEvent at hev
    split at hev
    · simp at hev
    · simpa using hev
  refine ⟨?_, ?_, ?_, ?_⟩
  · intro b hb hbad
    have heq := readBody_eq b s.cfg.MaxBodyBytes h0 hmax
    have hsome : ∃ data e, readBody r.Body s.cfg.MaxBodyBytes = some (data, some e) := by
      rw [hb, heq]
      by_cases hbig : (b.data.length : Int) > s.cfg.MaxBodyBytes
      · rw [if_pos hbig]; exact ⟨_, _, rfl⟩
      · rw [if_neg hbig]
        rcases hbad with h1 | h1
        · exact absurd h1 hbig
        · cases herr : b.err with
          | none => exact absurd herr h1
          | some e => exact ⟨_, _, rfl⟩
    obtain ⟨data, e, hrb⟩ := hsome
    rw [serve_outcome_error L s r d hpath data e hrb]
    refine ⟨rfl, ?_⟩
    intro ev hev
    rw [hmem _ ev hev]
    exact ⟨rfl, rfl, rfl⟩
  · intro b hb hle herr
    rw [hb, readBody_eq b s.cfg.MaxBodyBytes h0 hmax, if_neg (by omega), herr]
  · intro hb
    rw [hb]
    rfl
  · intro body hrb
    refine ⟨?_, ?_, ?_, ?_⟩
    · intro e hx
      have hdec : (inspect L s body).2.2.1 = policy.DecisionDeny := by
        rw [inspect_decision, hx]
      have hrn : (inspect L s body).2.2.2.1 = "" ∧ (inspect L s body).2.2.2.2 = "invalid_json" := by
        unfold inspect
        rw [hx]
        exact ⟨rfl, rfl⟩
      rw [serve_outcome_deny L s r d hpath body hrb hdec]
      refine ⟨rfl, ?_⟩
      intro ev hev
      rw [hmem _ ev hev]
      exact ⟨rfl, hrn.1, hrn.2, rfl⟩
    · intro res hx hd
      have hdec : (inspect L s body).2.2.1 = policy.DecisionDeny := by
        rw [inspect_decision, hx]; exact hd
      rw [serve_outcome_deny L s r d hpath body hrb hdec]
    · intro res hx hd hoff
      have hdec : (inspect L s body).2.2.1 = policy.DecisionApprove := by
        rw [inspect_decision, hx]; exact hd
      rw [serve_outcome_approve_disabled L s r d hpath body hrb hdec hoff]
      refine ⟨rfl, ?_⟩
      intro ev hev
      rw [hmem _ ev hev]
      exact ⟨rfl, rfl, rfl⟩
    · intro res hx hd hon
      have hdec : (inspect L s body).2.2.1 = policy.DecisionApprove := by
        rw [inspect_decision, hx]; exact hd
      rw [serve_outcome_approve_enabled L s r d hpath body hrb hdec hon]

/-- Scenario 6 of the specification: the body `not` with an allow-all rule is answered
403 `blocked`. -/
theorem ServeHTTP_reply_by_case_witness :
    plainRequest.Path ≠ "/approve"
      ∧ (0 : Int) ≤ testServer.cfg.MaxBodyBytes
      ∧ testServer.cfg.MaxBodyBytes < 2 ^ 63 - 1
      ∧ (ServeHTTP testLib testServer plainRequest testDraws).reply
          = some (writeError testLib 403 "blocked") :=
  ⟨by decide, by decide, by decide,
    (((ServeHTTP_reply_by_case testLib testServer plainRequest testDraws (by decide)
      (by decide) (by decide)).2.2.2 [110, 111, 116] rfl).1 "invalid character" rfl).1⟩

/-- C17 fails as stated: a 3-byte body that is within the limit and does not decode is
answered 413 `body_too_large`, not 403 `blocked`, when its read ends in an error; and
under `max_body_bytes: -1` a 3-byte body, which exceeds the limit, gets no reply at
all, the handler panics. -/
theorem ServeHTTP_reply_claim_fails :
    ((3 : Int) ≤ testServer.cfg.MaxBodyBytes
        ∧ extract.FromJSON testLib.Unmarshal [110, 111, 116]
            = Except.error "invalid character"
        ∧ (ServeHTTP testLib testServer brokenRequest testDraws).reply
            = some (writeError testLib 413 "body_too_large"))
      ∧ ((3 : Int) > negativeLimitServer.cfg.MaxBodyBytes
        ∧ (ServeHTTP testLib negativeLimitServer plainRequest testDraws).reply.isNone
            = true) := by
  refine ⟨⟨by decide, rfl, rfl⟩, ⟨by decide, by decide⟩⟩

end proxy
namespace proxy

theorem serve_pipeline_audit (L : Stdlib) (s : Server) (r : http.Request) (d : Draws)
    (hpath : r.Path ≠ "/approve") (hreply : (ServeHTTP L s r d).reply ≠ none) :
    (ServeHTTP L s r d).audit.length = (if s.logger = false then 0 else 1) := by
  cases hrb : readBody r.Body s.cfg.MaxBodyBytes with
  | none =>
    exfalso
    apply hreply
    unfold ServeHTTP
    rw [if_neg hpath]
    simp only [hrb]
  | some res =>
    obtain ⟨body, err⟩ := res
    cases err with
    | some e =>
      rw [serve_outcome_error L s r d hpath body e hrb]
      exact logEvent_length s _
    | none =>
      by_cases hdeny : (inspect L s body).2.2.1 = policy.DecisionDeny
      · rw [serve_outcome_deny L s r d hpath body hrb hdeny]
        exact logEvent_length s _
      · by_cases happr : (inspect L s body).2.2.1 = policy.DecisionApprove
        · cases hen : s.cfg.Approval.Enabled with
          | false =>
            rw [serve_outcome_approve_disabled L s r d hpath body hrb happr hen]
            exact logEvent_length s _
          | true =>
            rw [serve_outcome_approve_enabled L s r d hpath body hrb happr hen]
            exact logEvent_length s _
        · exact (serve_outcome_forward L s r d hpath body hrb hdeny happr).2.2

theorem serve_approve_path (L : Stdlib) (s : Server) (r : http.Request) (d : Draws)
    (hpath : r.Path = "/approve") : ServeHTTP L s r d = handleApprove L s r d := by
  unfold ServeHTTP
  rw [if_pos hpath]

/-- C18, as amended: with a logger configured, a request whose path is not `/approve`
and that gets a reply has exactly one audit event written for it; a request to
`/approve` has exactly one event written when the stored request is handed to the
upstream client, and none when it is rejected by one of the checks that precede the
ticket lookup or when the ticket is absent or expired. -/
theorem audit_events_per_request (L : Stdlib) (s : Server) (r : http.Request) (d : Draws)
    (hlog : s.logger = true) :
    (r.Path ≠ "/approve" → (ServeHTTP L s r d).reply ≠ none →
        (ServeHTTP L s r d).audit.length = 1)
      ∧ (r.Path = "/approve" → (ServeHTTP L s r d).upstream ≠ [] →
          (ServeHTTP L s r d).audit.length = 1)
      ∧ (r.Path = "/approve" → (¬ ∃ id, passesChecks L s r id) →
          (ServeHTTP L s r d).reply ≠ none ∧ (ServeHTTP L s r d).audit = [])
      ∧ (r.Path = "/approve" → ∀ id, passesChecks L s r id →
          (fetch s.pending id d.fetchAt).1 = none →
          (ServeHTTP L s r d).reply ≠ none ∧ (ServeHTTP L s r d).audit = []) := by
  refine ⟨?_, ?_, ?_, ?_⟩
  · intro hpath hreply
    rw [serve_pipeline_audit L s r d hpath hreply, hlog]
    rfl
  · intro hpath hup
    rw [serve_approve_path L s r d hpath] at hup ⊢
    by_cases hex : ∃ id, passesChecks L s r id
    · obtain ⟨id, hp⟩ := hex
      cases hf : (fetch s.pending id d.fetchAt).1 with
      | none =>
        rw [approve_not_found L s r d id hp hf] at hup
        exact absurd rfl hup
      | some req =>
        have hfound := approve_found L s r d id req hp hf
        rw [hfound.2.2.1, hlog]
        simp only [Bool.true_eq_false, if_false]
        rw [hfound.2.1] at hup ⊢
        cases hnr : L.NewRequest req.method (s.cfg.Upstream ++ req.path) with
        | error e => rw [hnr] at hup; exact absurd rfl hup
        | ok u => rfl
    · exact absurd (approve_rejected L s r d hex).2.1 hup
  · intro hpath hrej
    rw [serve_approve_path L s r d hpath]
    obtain ⟨_, _, haud, c, m, hrep, _⟩ := approve_rejected L s r d hrej
    refine ⟨?_, haud⟩
    rw [hrep]
    simp
  · intro hpath id hp hf
    rw [serve_approve_path L s r d hpath, approve_not_found L s r d id hp hf]
    exact ⟨by simp, rfl⟩

/-- The run of `TestProxyAllowForwardsToUpstream` writes one audit event. -/
theorem audit_events_per_request_witness :
    testServer.logger = true
      ∧ testRequest.Path ≠ "/approve"
      ∧ (ServeHTTP testLib testServer testRequest testDraws).reply.isSome = true
      ∧ (ServeHTTP testLib testServer testRequest testDraws).audit.length = 1 := by
  have hreply : (ServeHTTP testLib testServer testRequest testDraws).reply.isSome = true := by
    decide
  have hne : (ServeHTTP testLib testServer testRequest testDraws).reply ≠ none := by
    intro h
    rw [h] at hreply
    exact absurd hreply (by decide)
  exact ⟨rfl, by decide, hreply,
    (audit_events_per_request testLib testServer testRequest testDraws rfl).1 (by decide) hne⟩

/-- C18 fails as stated: with a logger configured and approval disabled, a request to
`/approve` is answered 404 `approval_disabled` and no audit event is written. -/
theorem approve_rejection_not_audited :
    testServer.logger = true
      ∧ approveRequest.Path = "/approve"
      ∧ (ServeHTTP testLib testServer approveRequest testDraws).reply
          = some (writeError testLib 404 "approval_disabled")
      ∧ (ServeHTTP testLib testServer approveRequest testDraws).audit.length = 0 := by
  refine ⟨rfl, rfl, rfl, by decide⟩

end proxy

namespace proxy

theorem lookup_add (canon : String → String) (h : http.Header) (key value k : String) :
    (http.Header.Add canon h key value).lookup k
      = if k = canon key then some (valuesAt h (canon key) ++ [value]) else h.lookup k := by
  unfold http.Header.Add
  by_cases hk : k = canon key
  · rw [if_pos hk, hk, lookup_set_self]
    rfl
  · rw [if_neg hk, lookup_set_ne _ _ _ _ hk]

theorem valuesAt_add (canon : String → String) (h : http.Header) (key value k : String) :
    valuesAt (http.Header.Add canon h key value) k
      = if k = canon key then valuesAt h k ++ [value] else valuesAt h k := by
  unfold valuesAt
  rw [lookup_add]
  by_cases hk : k = canon key
  · simp only [if_pos hk, Option.getD_some]
    rw [hk]
    rfl
  · simp only [if_neg hk]

theorem valuesAt_add_all (canon : String → String) (key : String) (vals : List String)
    (dst : http.Header) (k : String) :
    valuesAt (vals.foldl (fun (dst : http.Header) (value : String) =>
        http.Header.Add canon dst key value) dst) k
      = if k = canon key then valuesAt dst k ++ vals else valuesAt dst k := by
  induction vals generalizing dst with
  | nil => simp
  | cons v vs ih =>
    rw [List.foldl_cons, ih, valuesAt_add]
    by_cases hk : k = canon key
    · simp [hk]
    · simp [hk]

theorem lookup_add_all_other (canon : String → String) (key : String) (vals : List String)
    (dst : http.Header) (k : String) (hk : k ≠ canon key) :
    (vals.foldl (fun (dst : http.Header) (value : String) =>
        http.Header.Add canon dst key value) dst).lookup k = dst.lookup k := by
  induction vals generalizing dst with
  | nil => rfl
  | cons v vs ih =>
    rw [List.foldl_cons, ih, lookup_add, if_neg hk]

theorem valuesAt_copyHeaders (canon : String → String) (dst src : http.Header) (k : String) :
    valuesAt (copyHeaders canon dst src) k
      = valuesAt dst k
          ++ (src.filter (fun e => decide (canon e.1 = k))).flatMap (fun e => e.2) := by
  unfold copyHeaders
  induction src generalizing dst with
  | nil => simp
  | cons e rest ih =>
    rw [List.foldl_cons, ih, valuesAt_add_all]
    by_cases hk : k = canon e.1
    · rw [if_pos hk, List.filter_cons_of_pos (by simp [hk])]
      simp [List.flatMap_cons, List.append_assoc]
    · rw [if_neg hk, List.filter_cons_of_neg (by simpa using (Ne.symm hk))]

theorem lookup_copyHeaders_none (canon : String → String) (dst src : http.Header) (k : String)
    (hdst : dst.lookup k = none) (hsrc : ∀ e ∈ src, canon e.1 ≠ k) :
    (copyHeaders canon dst src).lookup k = none := by
  unfold copyHeaders
  induction src generalizing dst with
  | nil => exact hdst
  | cons e rest ih =>
    rw [List.foldl_cons]
    apply ih
    · rw [lookup_add_all_other canon e.1 e.2 dst k (Ne.symm (hsrc e (by simp)))]
      exact hdst
    · intro e2 he2
      exact hsrc e2 (by simp [he2])

theorem lookup_none_of_not_key {α : Type} (m : List (String × α)) (k : String)
    (h : k ∉ m.map Prod.fst) : m.lookup k = none := by
  cases hl : m.lookup k with
  | none => rfl
  | some v => exact absurd (lookup_some_key m k v hl) h

theorem values_of_unique_key (src : http.Header) (k : String)
    (hnd : (src.map Prod.fst).Nodup) :
    (src.filter (fun e => decide (e.1 = k))).flatMap (fun e => e.2) = valuesAt src k := by
  unfold valuesAt
  induction src with
  | nil => rfl
  | cons e rest ih =>
    obtain ⟨k1, v1⟩ := e
    simp only [List.map_cons, List.nodup_cons] at hnd
    obtain ⟨hnot, hrest⟩ := hnd
    by_cases hk : k1 = k
    · rw [List.filter_cons_of_pos (by simp [hk])]
      have hb : (k == k1) = true := by simp [hk]
      simp only [List.lookup, hb, List.flatMap_cons, Option.getD_some]
      have hnone : rest.filter (fun e => decide (e.1 = k)) = [] := by
        rw [List.filter_eq_nil_iff]
        intro e he
        have : e.1 ≠ k := by
          intro heq
          apply hnot
          rw [hk, ← heq]
          exact List.mem_map.mpr ⟨e, he, rfl⟩
        simpa using this
      rw [hnone]
      simp
    · rw [List.filter_cons_of_neg (by simp [hk])]
      have hb : (k == k1) = false := by
        rw [beq_eq_false_iff_ne]; exact Ne.symm hk
      simp only [List.lookup, hb]
      exact ih hrest

theorem valuesAt_copy_canonical (canon : String → String) (src : http.Header) (k : String)
    (hcanon : ∀ e ∈ src, canon e.1 = e.1) (hnd : (src.map Prod.fst).Nodup) :
    valuesAt (copyHeaders canon [] src) k = valuesAt src k := by
  rw [valuesAt_copyHeaders]
  have hf : src.filter (fun e => decide (canon e.1 = k))
      = src.filter (fun e => decide (e.1 = k)) := by
    apply List.filter_congr
    intro e he
    rw [hcanon e he]
  rw [hf, values_of_unique_key src k hnd]
  rfl

theorem lookup_del_all (canon : String → String) (keys : List String) (h : http.Header)
    (k : String) :
    (keys.foldl (fun (h : http.Header) (key : String) => http.Header.Del canon h key) h).lookup k
      = if k ∈ keys.map canon then none else h.lookup k := by
  induction keys generalizing h with
  | nil => simp
  | cons key rest ih =>
    rw [List.foldl_cons, ih]
    unfold http.Header.Del
    by_cases hk : k = canon key
    · have hmem : k ∈ (key :: rest).map canon := by simp [hk]
      rw [if_pos hmem]
      by_cases hr : k ∈ rest.map canon
      · rw [if_pos hr]
      · rw [if_neg hr, hk, lookup_delete_self]
    · by_cases hr : k ∈ rest.map canon
      · rw [if_pos hr, if_pos (by simp [hr])]
      · have hnm : k ∉ (key :: rest).map canon := by
          simp only [List.map_cons, List.mem_cons, not_or]
          exact ⟨hk, hr⟩
        rw [if_neg hr, if_neg hnm, lookup_delete_ne _ _ _ hk]

theorem lookup_removeHop (canon : String → String) (h : http.Header) (k : String)
    (hfix : ∀ x ∈ hopByHop, canon x = x) :
    (removeHopHeaders canon h).lookup k = if k ∈ hopByHop then none else h.lookup k := by
  have hmap : hopByHop.map canon = hopByHop := by
    conv_rhs => rw [← List.map_id hopByHop]
    apply List.map_congr_left
    intro x hx
    exact hfix x hx
  have := lookup_del_all canon hopByHop h k
  rw [hmap] at this
  exact this

end proxy

namespace proxy

theorem forward_calls (L : Stdlib) (s : Server) (r : http.Request) (body : List UInt8)
    (requestID : String) :
    ∀ o ∈ (forward L s r body requestID).2,
      o.method = r.Method ∧ o.body = body ∧ o.header = forwardHeader L s r requestID
        ∧ ∃ base, L.urlParse s.cfg.Upstream = Except.ok base
            ∧ o.url = L.urlString base.2 (joinPaths base.1 r.Path) r.RawQuery := by
  intro o ho
  unfold forward at ho
  cases hp : L.urlParse s.cfg.Upstream with
  | error e => rw [hp] at ho; simp at ho
  | ok base =>
    rw [hp] at ho
    simp only at ho
    cases hn : L.NewRequest r.Method
        (L.urlString base.2 (joinPaths base.1 r.Path) r.RawQuery) with
    | error e => rw [hn] at ho; simp at ho
    | ok u =>
      rw [hn] at ho
      simp only [List.mem_singleton] at ho
      subst ho
      exact ⟨rfl, rfl, rfl, base, rfl, rfl⟩

theorem lookup_addForwardedFor_other (L : Stdlib) (h : http.Header) (remoteAddr k : String)
    (hk : k ≠ L.CanonicalHeaderKey "X-Forwarded-For") :
    (addForwardedFor L h remoteAddr).lookup k = h.lookup k := by
  unfold addForwardedFor
  simp only
  split
  · unfold http.Header.Set
    rw [lookup_set_ne _ _ _ _ hk]
  · unfold http.Header.Set
    rw [lookup_set_ne _ _ _ _ hk]

theorem lookup_forwardHeader_other (L : Stdlib) (s : Server) (r : http.Request)
    (requestID k : String)
    (hxff : k ≠ L.CanonicalHeaderKey "X-Forwarded-For")
    (hxrid : k ≠ L.CanonicalHeaderKey "X-Request-ID") :
    (forwardHeader L s r requestID).lookup k
      = (removeHopHeaders L.CanonicalHeaderKey
          (copyHeaders L.CanonicalHeaderKey [] r.Header)).lookup k := by
  unfold forwardHeader
  rw [lookup_addForwardedFor_other L _ _ k hxff]
  split
  · unfold http.Header.Set
    rw [lookup_set_ne _ _ _ _ hxrid]
  · rfl

theorem forwardHeader_scrubbed (L : Stdlib) (s : Server) (r : http.Request)
    (requestID : String) (hc : canonFacts L.CanonicalHeaderKey) :
    (∀ x ∈ hopByHop, (forwardHeader L s r requestID).lookup x = none)
      ∧ (canonicalHeader L.CanonicalHeaderKey r.Header →
          ∀ k, k ∉ hopByHop → k ≠ "X-Forwarded-For" → k ≠ "X-Request-Id" →
            valuesAt (forwardHeader L s r requestID) k = valuesAt r.Header k) := by
  obtain ⟨hfix, hxff, hxrid⟩ := hc
  constructor
  · intro x hx
    have h1 : x ≠ L.CanonicalHeaderKey "X-Forwarded-For" := by
      rw [hxff]
      intro heq
      rw [heq] at hx
      exact absurd hx (by decide)
    have h2 : x ≠ L.CanonicalHeaderKey "X-Request-ID" := by
      rw [hxrid]
      intro heq
      rw [heq] at hx
      exact absurd hx (by decide)
    rw [lookup_forwardHeader_other L s r requestID x h1 h2, lookup_removeHop _ _ _ hfix,
      if_pos hx]
  · intro hin k hk h1 h2
    unfold valuesAt
    rw [lookup_forwardHeader_other L s r requestID k (by rw [hxff]; exact h1)
      (by rw [hxrid]; exact h2), lookup_removeHop _ _ _ hfix, if_neg hk]
    exact valuesAt_copy_canonical L.CanonicalHeaderKey r.Header k hin.1 hin.2

theorem replayHeader_scrubbed (L : Stdlib) (s : Server) (req : pendingRequest)
    (hc : canonFacts L.CanonicalHeaderKey) :
    (∀ x ∈ hopByHop, (replayRequest L s req).header.lookup x = none)
      ∧ (canonicalHeader L.CanonicalHeaderKey req.header →
          ∀ k, k ∉ hopByHop →
            valuesAt (replayRequest L s req).header k = valuesAt req.header k) := by
  obtain ⟨hfix, _, _⟩ := hc
  constructor
  · intro x hx
    unfold replayRequest
    simp only
    rw [lookup_removeHop _ _ _ hfix, if_pos hx]
  · intro hin k hk
    unfold replayRequest valuesAt
    simp only
    rw [lookup_removeHop _ _ _ hfix, if_neg hk]
    exact valuesAt_copy_canonical L.CanonicalHeaderKey req.header k hin.1 hin.2

end proxy
namespace proxy

theorem approve_upstream (L : Stdlib) (s : Server) (r : http.Request) (d : Draws)
    (hup : (handleApprove L s r d).upstream ≠ []) :
    ∃ id req, passesChecks L s r id
      ∧ (fetch s.pending id d.fetchAt).1 = some req
      ∧ (handleApprove L s r d).upstream = [replayRequest L s req] := by
  by_cases hex : ∃ id, passesChecks L s r id
  · obtain ⟨id, hp⟩ := hex
    cases hf : (fetch s.pending id d.fetchAt).1 with
    | none =>
      rw [approve_not_found L s r d id hp hf] at hup
      exact absurd rfl hup
    | some req =>
      have hfound := approve_found L s r d id req hp hf
      refine ⟨id, req, hp, hf, ?_⟩
      rw [hfound.2.1] at hup ⊢
      cases hnr : L.NewRequest req.method (s.cfg.Upstream ++ req.path) with
      | error e => rw [hnr] at hup; exact absurd rfl hup
      | ok u => rfl
  · exact absurd (approve_rejected L s r d hex).2.1 hup

/-- C13: when the header keys the proxy uses are canonical as Go writes them, the
request handed to the upstream client, by `forward` and by the approval replay alike,
has none of the hop-by-hop names as a key; and when the inbound (or captured) header
set is a map with canonical keys, every key other than the hop-by-hop names (and, for
`forward`, other than `X-Forwarded-For` and `X-Request-Id`) holds the same values in
the same order as inbound. -/
theorem hop_by_hop_scrubbed (L : Stdlib) (s : Server) (r : http.Request)
    (body : List UInt8) (requestID : String) (r2 : http.Request) (d2 : Draws)
    (hc : canonFacts L.CanonicalHeaderKey) :
    (∀ o ∈ (forward L s r body requestID).2,
        (∀ x ∈ hopByHop, o.header.lookup x = none)
          ∧ (canonicalHeader L.CanonicalHeaderKey r.Header →
              ∀ k, k ∉ hopByHop → k ≠ "X-Forwarded-For" → k ≠ "X-Request-Id" →
                valuesAt o.header k = valuesAt r.Header k))
      ∧ (∀ o ∈ (handleApprove L s r2 d2).upstream,
          (∀ x ∈ hopByHop, o.header.lookup x = none)
            ∧ ∃ id req, (fetch s.pending id d2.fetchAt).1 = some req
                ∧ (canonicalHeader L.CanonicalHeaderKey req.header →
                    ∀ k, k ∉ hopByHop → valuesAt o.header k = valuesAt req.header k)) := by
  constructor
  · intro o ho
    obtain ⟨_, _, hh, _⟩ := forward_calls L s r body requestID o ho
    rw [hh]
    exact forwardHeader_scrubbed L s r requestID hc
  · intro o ho
    have hne : (handleApprove L s r2 d2).upstream ≠ [] := by
      intro h; rw [h] at ho; simp at ho
    obtain ⟨id, req, _, hf, hup⟩ := approve_upstream L s r2 d2 hne
    rw [hup, List.mem_singleton] at ho
    subst ho
    have hs := replayHeader_scrubbed L s req hc
    exact ⟨hs.1, id, req, hf, hs.2⟩

/-- An inbound header set with `Connection`, `Upgrade` and a repeated `Accept`: the
forwarded request keeps `Accept` with both values in order and has neither
`Connection` nor `Upgrade`. -/
theorem hop_by_hop_scrubbed_witness :
    canonFacts headerLib.CanonicalHeaderKey
      ∧ canonicalHeader headerLib.CanonicalHeaderKey headerRequest.Header
      ∧ (forward headerLib testServer headerRequest testPayloadBytes "00").2.length = 1
      ∧ ∀ o ∈ (forward headerLib testServer headerRequest testPayloadBytes "00").2,
          o.header.lookup "Connection" = none ∧ o.header.lookup "Upgrade" = none
            ∧ valuesAt o.header "Accept" = ["text/plain", "application/json"] := by
  have hc : canonFacts headerLib.CanonicalHeaderKey := by
    unfold canonFacts
    decide
  have hin : canonicalHeader headerLib.CanonicalHeaderKey headerRequest.Header := by
    unfold canonicalHeader
    decide
  refine ⟨hc, hin, by decide, ?_⟩
  intro o ho
  have h := (hop_by_hop_scrubbed headerLib testServer headerRequest testPayloadBytes "00"
    approveRequest approveDraws hc).1 o ho
  refine ⟨h.1 "Connection" (by decide), h.1 "Upgrade" (by decide), ?_⟩
  rw [h.2 hin "Accept" (by decide) (by decide) (by decide)]
  rfl

/-- C15 fails on the code: with the upstream `http://upstream/` and the captured
request `POST /v1/chat`, `forward` sends to `http://upstream/v1/chat`, the path being
`joinPaths "/" "/v1/chat"`, while the approval replay of the same request sends to
`http://upstream//v1/chat`, the upstream string with the request-URI appended. -/
theorem replay_url_differs_from_forward :
    demoPending.path = testRequest.RequestURI
      ∧ joinPaths "/" testRequest.Path = "/v1/chat"
      ∧ (forward slashLib slashServer testRequest testPayloadBytes "00").2.map (fun o => o.url)
          = ["http://upstream/v1/chat"]
      ∧ (handleApprove slashLib slashServer approveRequest approveDraws).upstream.map
          (fun o => o.url) = ["http://upstream//v1/chat"] := by
  refine ⟨rfl, by decide, by decide, by decide⟩

end proxy

namespace proxy

theorem lookup_clone_fold (l acc : http.Header) (k : String)
    (hnd : (l.map Prod.fst).Nodup) :
    (l.foldl (fun (copy : http.Header) (e : String × List String) => gomap.set copy e.1 e.2)
        acc).lookup k
      = match l.lookup k with
        | some v => some v
        | none => acc.lookup k := by
  induction l generalizing acc with
  | nil => rfl
  | cons e rest ih =>
    obtain ⟨k1, v1⟩ := e
    simp only [List.map_cons, List.nodup_cons] at hnd
    obtain ⟨hnot, hrest⟩ := hnd
    rw [List.foldl_cons, ih _ hrest]
    by_cases hk : k = k1
    · subst hk
      rw [lookup_none_of_not_key rest k hnot]
      simp only [lookup_set_self]
      simp [List.lookup]
    · have hb : (k == k1) = false := by
        rw [beq_eq_false_iff_ne]; exact hk
      have hdel : List.lookup k (List.filter (fun e => decide (e.1 ≠ k1)) acc)
          = List.lookup k acc := lookup_delete_ne acc k1 k hk
      simp only [List.lookup, hb]
      rw [hdel]

theorem lookup_cloneHeader (h : http.Header) (k : String) (hnd : (h.map Prod.fst).Nodup) :
    (cloneHeader h).lookup k = h.lookup k := by
  unfold cloneHeader
  rw [lookup_clone_fold h [] k hnd]
  cases h.lookup k <;> rfl

theorem readBody_ok_data (b : http.Body) (limit : Int) (body : List UInt8)
    (hint : limit < 2 ^ 63)
    (h : readBody (some b) limit = some (body, none)) :
    body = b.data ∨ body = [] := by
  unfold readBody at h
  simp only at h
  by_cases hn : wrap64 (limit + 1) ≤ 0
  · simp only [hn, if_true] at h
    right
    split at h
    · split at h <;> simp at h
    · simp at h
      exact h
  · simp only [hn, if_false] at h
    by_cases hshort : b.data.length < (wrap64 (limit + 1)).toNat
    · rw [if_pos hshort] at h
      cases herr : b.err with
      | some e => rw [herr] at h; simp at h
      | none =>
        rw [herr] at h
        simp only at h
        rw [List.take_of_length_le (by omega)] at h
        left
        split at h
        · split at h <;> simp at h
        · simp at h
          exact h.symm
    · rw [if_neg hshort] at h
      simp only at h
      have htake : (b.data.take (wrap64 (limit + 1)).toNat).length
          = (wrap64 (limit + 1)).toNat := by
        rw [List.length_take]; omega
      rw [htake] at h
      by_cases hl : (((wrap64 (limit + 1)).toNat : Nat) : Int) > limit
      · rw [if_pos hl] at h
        split at h <;> simp at h
      · unfold wrap64 at hn hl
        omega

theorem store_ttl (s : approvalStore) (req : pendingRequest) (now : Int) (buf : List UInt8) :
    (store s req now buf).2.ttl = s.ttl := by
  unfold store cleanupLocked
  simp only
  split <;> rfl

theorem store_lookup_new (s : approvalStore) (req : pendingRequest) (now : Int)
    (buf : List UInt8) :
    (store s req now buf).2.items.lookup (newID buf) = some req := by
  unfold store
  simp only
  exact lookup_set_self _ _ _

end proxy
namespace proxy

/-- C11: a request dispatched as `Approve` with approval enabled is answered 202 with
the approval id; the body captured is the body of the request; fetching that id
while the entry is not expired yields a pending request with the method, request-URI,
header values under every key and body bytes of the original request; and whatever
the approval replay hands to the upstream client for that id carries that method and,
byte for byte, that body.  The header set is a map, the limit an `int64`, and
`json.Unmarshal` rejects the empty input. -/
theorem approve_replay_fidelity (L : Stdlib) (s : Server) (r : http.Request) (d : Draws)
    (body : List UInt8) (res : extract.Result)
    (hpath : r.Path ≠ "/approve")
    (hread : readBody r.Body s.cfg.MaxBodyBytes = some (body, none))
    (hx : extract.FromJSON L.Unmarshal body = Except.ok res)
    (hd : (policy.Evaluate L.ToLower s.evaluator "request" res.Text res.ToolNames).Decision
      = policy.DecisionApprove)
    (hon : s.cfg.Approval.Enabled = true)
    (hmap : (r.Header.map Prod.fst).Nodup)
    (hint : s.cfg.MaxBodyBytes < 2 ^ 63)
    (hjson : ∀ v, L.Unmarshal [] ≠ Except.ok v) :
    (ServeHTTP L s r d).reply
        = some (writeJSON L 202
            [("approval_id", newID d.approvalID), ("status", "approval_required")])
      ∧ (∀ b, r.Body = some b → body = b.data)
      ∧ (∀ now, ¬ time.Since now d.created > s.pending.ttl →
          ∃ req, (fetch (ServeHTTP L s r d).pending (newID d.approvalID) now).1 = some req
            ∧ req.method = r.Method
            ∧ req.path = r.RequestURI
            ∧ (∀ k, req.header.lookup k = r.Header.lookup k)
            ∧ req.body = body)
      ∧ (∀ (r2 : http.Request) (d2 : Draws),
          passesChecks L { s with pending := (ServeHTTP L s r d).pending } r2
            (newID d.approvalID) →
          ∀ out ∈ (handleApprove L { s with pending := (ServeHTTP L s r d).pending } r2
              d2).upstream,
            out.method = r.Method ∧ out.body = body) := by
  have hdec : (inspect L s body).2.2.1 = policy.DecisionApprove := by
    rw [inspect_decision, hx]; exact hd
  have hout := serve_outcome_approve_enabled L s r d hpath body hread hdec hon
  have hpending : (ServeHTTP L s r d).pending
      = (store s.pending
          { method := r.Method, path := r.RequestURI, header := cloneHeader r.Header,
            body := body, created := d.created } d.storeAt d.approvalID).2 := by
    rw [hout]
  have hlook : (ServeHTTP L s r d).pending.items.lookup (newID d.approvalID)
      = some { method := r.Method, path := r.RequestURI, header := cloneHeader r.Header,
               body := body, created := d.created } := by
    rw [hpending]
    exact store_lookup_new _ _ _ _
  have httl : (ServeHTTP L s r d).pending.ttl = s.pending.ttl := by
    rw [hpending]
    exact store_ttl _ _ _ _
  refine ⟨by rw [hout], ?_, ?_, ?_⟩
  · intro b hb
    rw [hb] at hread
    rcases readBody_ok_data b _ body hint hread with h | h
    · exact h
    · exfalso
      rw [h] at hx
      unfold extract.FromJSON at hx
      cases hu : L.Unmarshal [] with
      | error e => rw [hu] at hx; cases hx
      | ok v => exact hjson v hu
  · intro now hlive
    refine ⟨{ method := r.Method, path := r.RequestURI, header := cloneHeader r.Header,
              body := body, created := d.created }, ?_, rfl, rfl, ?_, rfl⟩
    · rw [fetch_some_iff]
      refine ⟨hlook, ?_⟩
      rw [httl]
      exact hlive
    · intro k
      exact lookup_cloneHeader r.Header k hmap
  · intro r2 d2 hp out hout2
    have hne : (handleApprove L { s with pending := (ServeHTTP L s r d).pending } r2
        d2).upstream ≠ [] := by
      intro h; rw [h] at hout2; simp at hout2
    cases hf : (fetch (ServeHTTP L s r d).pending (newID d.approvalID) d2.fetchAt).1 with
    | none =>
      have := approve_not_found L { s with pending := (ServeHTTP L s r d).pending } r2 d2
        (newID d.approvalID) hp hf
      rw [this] at hne
      exact absurd rfl hne
    | some req =>
      have hfound := approve_found L { s with pending := (ServeHTTP L s r d).pending } r2 d2
        (newID d.approvalID) req hp hf
      have hreq := ((fetch_some_iff _ _ _ _).mp hf).1
      rw [hlook] at hreq
      cases hreq
      rw [hfound.2.1] at hout2
      cases hnr : L.NewRequest r.Method (s.cfg.Upstream ++ r.RequestURI) with
      | error e =>
        simp only [hnr] at hout2
        simp at hout2
      | ok u =>
        simp only [hnr, List.mem_singleton] at hout2
        subst hout2
        exact ⟨rfl, rfl⟩

/-- The first request of `TestProxyApproveFlow` on an empty store: fetching the
returned id ten nanoseconds later gives back the request with its exact body. -/
theorem approve_replay_fidelity_witness :
    flowRequest.Path ≠ "/approve"
      ∧ readBody flowRequest.Body approveServer.cfg.MaxBodyBytes = some (flowBytes, none)
      ∧ (ServeHTTP flowLib approveServer flowRequest approveDraws).reply
          = some (writeJSON flowLib 202
              [("approval_id", "08090a0b0c0d0e0f"), ("status", "approval_required")])
      ∧ ∃ req, (fetch (ServeHTTP flowLib approveServer flowRequest approveDraws).pending
            (newID approveDraws.approvalID) 130).1 = some req
          ∧ req.method = "POST" ∧ req.path = "/v1/chat" ∧ req.body = flowBytes := by
  have hjson : ∀ v, flowLib.Unmarshal [] ≠ Except.ok v := by
    intro v h
    have he : flowLib.Unmarshal [] = Except.error "invalid character" := rfl
    rw [he] at h
    cases h
  have hres : extract.FromJSON flowLib.Unmarshal flowBytes
      = Except.ok { Text := "hello", ToolNames := ["file_write"] } := rfl
  have h := approve_replay_fidelity flowLib approveServer flowRequest approveDraws flowBytes
    { Text := "hello", ToolNames := ["file_write"] } (by decide) rfl hres (by decide) rfl
    (by decide) (by decide) hjson
  obtain ⟨req, hf, hm, hp, _, hb⟩ := h.2.2.1 130 (by decide)
  exact ⟨by decide, rfl, h.1, req, hf, hm, hp, hb⟩

end proxy

namespace policy

theorem parseOrder_fold (ToLower : String → String) (order : List String)
    (init : List Decision) :
    order.foldl
        (fun (out : List Decision) (item : String) =>
          if ToLower item = DecisionDeny then out ++ [DecisionDeny]
          else if ToLower item = DecisionApprove then out ++ [DecisionApprove]
          else if ToLower item = DecisionAllow then out ++ [DecisionAllow]
          else out)
        init
      = init ++ (order.map ToLower).filter
          (fun d => decide (d = DecisionDeny ∨ d = DecisionApprove ∨ d = DecisionAllow)) := by
  induction order generalizing init with
  | nil => simp
  | cons x xs ih =>
    rw [List.foldl_cons, ih, List.map_cons]
    by_cases h1 : ToLower x = DecisionDeny
    · rw [if_pos h1, List.filter_cons_of_pos (by simp [h1]), h1]
      simp
    · by_cases h2 : ToLower x = DecisionApprove
      · rw [if_neg h1, if_pos h2, List.filter_cons_of_pos (by simp [h2]), h2]
        simp
      · by_cases h3 : ToLower x = DecisionAllow
        · rw [if_neg h1, if_neg h2, if_pos h3, List.filter_cons_of_pos (by simp [h3]), h3]
          simp
        · rw [if_neg h1, if_neg h2, if_neg h3, List.filter_cons_of_neg (by simp [h1, h2, h3])]

theorem parseOrder_eq_normalize (ToLower : String → String) (order : List String) :
    parseOrder ToLower order = normalizeOrder ToLower order := by
  unfold parseOrder normalizeOrder
  simp only
  rw [parseOrder_fold, List.nil_append]
  by_cases h : (order.map ToLower).filter
      (fun d => decide (d = DecisionDeny ∨ d = DecisionApprove ∨ d = DecisionAllow)) = []
  · rw [h]
    rfl
  · rw [if_neg h, if_neg (by rw [List.length_eq_zero]; exact h)]

/-- C21: the order `parseOrder` returns is the input lower-cased, with the entries
other than deny, approve, allow dropped and the relative order kept, when that list
is not empty, and `[deny, approve, allow]` otherwise; it is never empty and holds
only the three known actions. -/
theorem parseOrder_normalizes (ToLower : String → String) (order : List String) :
    parseOrder ToLower order = normalizeOrder ToLower order
      ∧ parseOrder ToLower order ≠ []
      ∧ ∀ d ∈ parseOrder ToLower order,
          d = DecisionDeny ∨ d = DecisionApprove ∨ d = DecisionAllow := by
  refine ⟨parseOrder_eq_normalize ToLower order, ?_, parseOrder_known ToLower order⟩
  rw [parseOrder_eq_normalize]
  unfold normalizeOrder
  simp only
  split
  · simp
  · assumption

/-- A run of `parseOrder` on mixed case, an unknown entry and a repeat. -/
theorem parseOrder_test_run :
    parseOrder asciiLower ["Allow", "block", "DENY", "allow"] = ["allow", "deny", "allow"]
      ∧ parseOrder asciiLower ["block"] = ["deny", "approve", "allow"] := by
  decide

theorem find_filter_of_imp {α : Type} (p q : α → Bool) (l : List α)
    (h : ∀ x ∈ l, p x = true → q x = true) : (l.filter q).find? p = l.find? p := by
  induction l with
  | nil => rfl
  | cons x xs ih =>
    have hxs : ∀ y ∈ xs, p y = true → q y = true := fun y hy => h y (by simp [hy])
    cases hq : q x
    · rw [List.filter_cons_of_neg (by simp [hq])]
      have hp : p x = false := by
        cases hpx : p x
        · rfl
        · have := h x (by simp) hpx
          rw [hq] at this
          cases this
      rw [List.find?_cons, hp]
      exact ih hxs
    · rw [List.filter_cons_of_pos (by simp [hq])]
      rw [List.find?_cons, List.find?_cons]
      cases p x
      · exact ih hxs
      · rfl

theorem any_filter_of_imp {α : Type} (p q : α → Bool) (l : List α)
    (h : ∀ x ∈ l, p x = true → q x = true) : (l.filter q).any p = l.any p := by
  rw [Bool.eq_iff_iff]
  simp only [List.any_eq_true, List.mem_filter]
  constructor
  · rintro ⟨x, ⟨hx, _⟩, hp⟩; exact ⟨x, hx, hp⟩
  · rintro ⟨x, hx, hp⟩; exact ⟨x, ⟨hx, h x hx hp⟩, hp⟩

theorem find_congr_mem {α : Type} (p q : α → Bool) (l : List α)
    (h : ∀ x ∈ l, p x = q x) : l.find? p = l.find? q := by
  induction l with
  | nil => rfl
  | cons x xs ih =>
    rw [List.find?_cons, List.find?_cons, h x (by simp)]
    rw [ih (fun y hy => h y (by simp [hy]))]

theorem evaluate_rules_in_order (ToLower : String → String) (e : Evaluator)
    (stage text : String) (toolNames : List String) :
    Evaluate ToLower e stage text toolNames
      = Evaluate ToLower { rules := rulesInOrder ToLower e, order := e.order }
          stage text toolNames := by
  rw [evaluate_ref_eq, evaluate_ref_eq]
  unfold EvaluateRef rulesInOrder
  simp only
  have himp : ∀ d ∈ e.order, ∀ r ∈ e.rules,
      ruleApplies ToLower stage text toolNames d r = true →
      decide (ToLower r.Rule.Action ∈ e.order) = true := by
    intro d hd r _ happ
    unfold ruleApplies at happ
    simp only [Bool.and_eq_true, decide_eq_true_eq] at happ
    rw [decide_eq_true_eq, happ.1.2]
    exact hd
  have hfind : e.order.find? (fun d => (e.rules.filter
        (fun r => decide (ToLower r.Rule.Action ∈ e.order))).any
          (ruleApplies ToLower stage text toolNames d))
      = e.order.find? (fun d => e.rules.any (ruleApplies ToLower stage text toolNames d)) := by
    apply find_congr_mem
    intro d hd
    exact any_filter_of_imp _ _ _ (himp d hd)
  rw [hfind]
  cases hf : e.order.find? (fun d => e.rules.any (ruleApplies ToLower stage text toolNames d)) with
  | none => rfl
  | some d =>
    simp only
    have hd : d ∈ e.order := List.mem_of_find?_eq_some hf
    rw [find_filter_of_imp _ _ _ (himp d hd)]

end policy
namespace policy

/-- C24: `Evaluate` returns the same result once every rule whose lower-cased action
does not occur in the decision order is removed; and with the order `[allow]` the
result is `Allow`, with the name of the first allow rule that applies and reason
`matched_rule`, or with no rule name and reason `no_matching_rule` when none
applies, whatever deny or approve rules match. -/
theorem rules_outside_order_ignored (ToLower : String → String) (e : Evaluator)
    (stage text : String) (toolNames : List String) :
    Evaluate ToLower e stage text toolNames
        = Evaluate ToLower { rules := rulesInOrder ToLower e, order := e.order }
            stage text toolNames
      ∧ (e.order = [DecisionAllow] →
          Evaluate ToLower e stage text toolNames
            = match e.rules.find? (ruleApplies ToLower stage text toolNames DecisionAllow) with
              | some r =>
                { Decision := DecisionAllow, RuleName := r.Rule.Name, Reason := "matched_rule" }
              | none =>
                { Decision := DecisionAllow, RuleName := "", Reason := "no_matching_rule" }) := by
  refine ⟨evaluate_rules_in_order ToLower e stage text toolNames, ?_⟩
  intro horder
  rw [evaluate_ref_eq]
  unfold EvaluateRef
  rw [horder]
  cases hf : e.rules.find? (ruleApplies ToLower stage text toolNames DecisionAllow) with
  | none =>
    have hany : e.rules.any (ruleApplies ToLower stage text toolNames DecisionAllow) = false := by
      rw [← matchStage_isSome, matchStage_eq_find, hf]; rfl
    simp [List.find?, hany]
  | some r =>
    have hany : e.rules.any (ruleApplies ToLower stage text toolNames DecisionAllow) = true := by
      rw [← matchStage_isSome, matchStage_eq_find, hf]; rfl
    simp [List.find?, hany, hf]

/-- The rules of `TestEvaluatorOrder` under the order `[allow]`: the deny rule, which
matches, is ignored. -/
theorem allow_only_test_run :
    Evaluate asciiLower
        { rules := [ruleDenySecret, ruleAllowAll], order := parseOrder asciiLower ["allow"] }
        "request" "contains secret" []
      = { Decision := DecisionAllow, RuleName := "allow_all", Reason := "matched_rule" } := by
  decide

end policy

namespace proxy

/-- C23: a request to `/approve` that fails one of the checks preceding the ticket
lookup (approval disabled, method not POST, token configured and header mismatching,
body over 16 KiB, payload not decoding or `approval_id` empty) leaves the approval
store exactly as it was, hands nothing to the upstream client, and is answered with
the error of a precondition check. -/
theorem rejected_approve_leaves_store (L : Stdlib) (s : Server) (r : http.Request) (d : Draws)
    (hpath : r.Path = "/approve")
    (hrej : s.cfg.Approval.Enabled = false
      ∨ r.Method ≠ "POST"
      ∨ (s.cfg.Approval.Token ≠ ""
          ∧ http.Header.Get L.CanonicalHeaderKey r.Header "X-Approval-Token"
            ≠ s.cfg.Approval.Token)
      ∨ (∃ b, r.Body = some b ∧ (b.data.length : Int) > 1024 * 16)
      ∨ (∃ body, readBody r.Body (1024 * 16) = some (body, none)
          ∧ ((∃ e, L.UnmarshalApprovalID body = Except.error e)
            ∨ L.UnmarshalApprovalID body = Except.ok ""))) :
    (ServeHTTP L s r d).pending = s.pending
      ∧ (ServeHTTP L s r d).upstream = []
      ∧ ∃ c m, (ServeHTTP L s r d).reply = some (writeError L c m)
          ∧ (c, m) ∈ [(404, "approval_disabled"), (405, "method_not_allowed"),
              (401, "invalid_token"), (400, "invalid_body"), (400, "invalid_approval_id")] := by
  have hno : ¬ ∃ id, passesChecks L s r id := by
    rintro ⟨id, hen, hm, ht, body, hb, hid, hne⟩
    rcases hrej with h | h | h | h | h
    · rw [hen] at h; cases h
    · exact h hm
    · rcases ht with ht | ht
      · exact h.1 ht
      · exact h.2 ht
    · obtain ⟨b, hb2, hbig⟩ := h
      rw [hb2, readBody_eq b (1024 * 16) (by decide) (by decide), if_pos hbig] at hb
      cases hb
    · obtain ⟨body2, hb2, hbad⟩ := h
      rw [hb] at hb2
      cases hb2
      rcases hbad with ⟨e, he⟩ | he
      · rw [hid] at he; cases he
      · rw [hid] at he
        cases he
        exact hne rfl
  rw [serve_approve_path L s r d hpath]
  obtain ⟨h1, h2, _, h4⟩ := approve_rejected L s r d hno
  exact ⟨h1, h2, h4⟩

/-- A caller without the token, asking for the live ticket `00ff`: 401, and the
ticket is still in the store. -/
theorem rejected_approve_leaves_store_witness :
    tokenlessRequest.Path = "/approve"
      ∧ (approveServer.cfg.Approval.Token ≠ ""
          ∧ http.Header.Get approveLib.CanonicalHeaderKey tokenlessRequest.Header
              "X-Approval-Token" ≠ approveServer.cfg.Approval.Token)
      ∧ (ServeHTTP approveLib approveServer tokenlessRequest approveDraws).pending
          = approveServer.pending
      ∧ (ServeHTTP approveLib approveServer tokenlessRequest approveDraws).upstream = []
      ∧ (ServeHTTP approveLib approveServer tokenlessRequest approveDraws).reply
          = some (writeError approveLib 401 "invalid_token") := by
  have htok : approveServer.cfg.Approval.Token ≠ ""
      ∧ http.Header.Get approveLib.CanonicalHeaderKey tokenlessRequest.Header
          "X-Approval-Token" ≠ approveServer.cfg.Approval.Token := by
    decide
  have h := rejected_approve_leaves_store approveLib approveServer tokenlessRequest
    approveDraws rfl (Or.inr (Or.inr (Or.inl htok)))
  exact ⟨rfl, htok, h.1, h.2.1, rfl⟩

end proxy
namespace proxy

theorem lookup_some_mem {α : Type} (m : List (String × α)) (k : String) (v : α)
    (h : m.lookup k = some v) : (k, v) ∈ m := by
  induction m with
  | nil => simp [List.lookup] at h
  | cons e rest ih =>
    obtain ⟨k1, v1⟩ := e
    by_cases hb : (k == k1) = true
    · have hk : k = k1 := by simpa using hb
      simp only [List.lookup, hb, Option.some.injEq] at h
      rw [hk, h]
      simp
    · have hb2 : (k == k1) = false := by simpa using hb
      simp only [List.lookup, hb2] at h
      exact List.mem_cons_of_mem _ (ih h)

theorem lookup_filter_nodup {α : Type} (m : List (String × α)) (q : String × α → Bool)
    (k : String) (v : α) (hnd : (m.map Prod.fst).Nodup) :
    (m.filter q).lookup k = some v ↔ (m.lookup k = some v ∧ q (k, v) = true) := by
  induction m with
  | nil => simp [List.lookup]
  | cons e rest ih =>
    obtain ⟨k1, v1⟩ := e
    simp only [List.map_cons, List.nodup_cons] at hnd
    obtain ⟨hnot, hrest⟩ := hnd
    by_cases hk : k = k1
    · subst hk
      have hnone : rest.lookup k = none := lookup_none_of_not_key rest k hnot
      have hfnone : (rest.filter q).lookup k = none := by
        apply lookup_none_of_not_key
        intro hmem
        apply hnot
        obtain ⟨e, he, hek⟩ := List.mem_map.mp hmem
        exact List.mem_map.mpr ⟨e, (List.mem_filter.mp he).1, hek⟩
      cases hq : q (k, v1)
      · rw [List.filter_cons_of_neg (by simp [hq])]
        rw [hfnone]
        simp only [List.lookup, beq_self_eq_true, Option.some.injEq]
        constructor
        · intro h; cases h
        · rintro ⟨h1, h2⟩
          rw [← h1, hq] at h2
          cases h2
      · rw [List.filter_cons_of_pos (by simp [hq])]
        simp only [List.lookup, beq_self_eq_true, Option.some.injEq]
        constructor
        · intro h; subst h; simp [hq]
        · rintro ⟨h1, _⟩; exact h1
    · have hb : (k == k1) = false := by
        rw [beq_eq_false_iff_ne]; exact hk
      cases hq : q (k1, v1)
      · rw [List.filter_cons_of_neg (by simp [hq])]
        simp only [List.lookup, hb]
        exact ih hrest
      · rw [List.filter_cons_of_pos (by simp [hq])]
        simp only [List.lookup, hb]
        exact ih hrest

theorem store_items_fresh (s : approvalStore) (req : pendingRequest) (now : Int)
    (buf : List UInt8) (hnodup : (s.items.map Prod.fst).Nodup)
    (hfresh : newID buf ∉ (live s now).map Prod.fst) :
    (store s req now buf).2.items = (newID buf, req) :: live s now := by
  unfold store
  simp only
  rw [cleanup_eq_live s now hnodup]
  have := delete_of_not_key (live s now) (newID buf) hfresh
  unfold gomap.delete at this
  unfold gomap.set
  rw [this]

/-- C25: on a store that is a map, with every age `now − created` representable as a
`Duration`, once `store(req)` returns an id that no live entry carries, the store
holds exactly the id mapped to `req` and every prior entry with
`now − created ≤ ttl`, each with the request it had; every prior entry with
`now − created > ttl` is gone. -/
theorem store_evicts_expired (s : approvalStore) (req : pendingRequest) (now : Int)
    (buf : List UInt8)
    (hnodup : (s.items.map Prod.fst).Nodup)
    (hrep : ∀ e ∈ s.items,
      time.minDuration ≤ now - e.2.created ∧ now - e.2.created ≤ time.maxDuration)
    (hfresh : newID buf ∉ (live s now).map Prod.fst) :
    (store s req now buf).1 = newID buf
      ∧ (∀ k p, (store s req now buf).2.items.lookup k = some p
          ↔ ((k = newID buf ∧ p = req)
            ∨ (s.items.lookup k = some p ∧ now - p.created ≤ s.ttl)))
      ∧ (∀ k p, s.items.lookup k = some p → now - p.created > s.ttl → k ≠ newID buf →
          (store s req now buf).2.items.lookup k = none)
      ∧ (store s req now buf).2.ttl = s.ttl := by
  have hitems := store_items_fresh s req now buf hnodup hfresh
  have hlive : ∀ k p, (live s now).lookup k = some p
      ↔ (s.items.lookup k = some p ∧ now - p.created ≤ s.ttl) := by
    intro k p
    unfold live
    rw [lookup_filter_nodup _ _ k p hnodup]
    constructor
    · rintro ⟨hl, hq⟩
      refine ⟨hl, ?_⟩
      have hr := hrep (k, p) (lookup_some_mem _ _ _ hl)
      simp only [Bool.not_eq_true', decide_eq_false_iff_not] at hq
      rw [Since_exact now p.created hr] at hq
      omega
    · rintro ⟨hl, hle⟩
      refine ⟨hl, ?_⟩
      have hr := hrep (k, p) (lookup_some_mem _ _ _ hl)
      simp only [Bool.not_eq_true', decide_eq_false_iff_not]
      rw [Since_exact now p.created hr]
      omega
  refine ⟨rfl, ?_, ?_, store_ttl s req now buf⟩
  · intro k p
    rw [hitems]
    by_cases hk : k = newID buf
    · subst hk
      simp only [List.lookup, beq_self_eq_true, Option.some.injEq]
      constructor
      · intro h; exact Or.inl ⟨by simp, h.symm⟩
      · rintro (⟨_, h⟩ | h)
        · exact h.symm
        · exfalso
          apply hfresh
          exact lookup_some_key _ _ _ ((hlive _ p).mpr h)
    · have hb : (k == newID buf) = false := by
        rw [beq_eq_false_iff_ne]; exact hk
      simp only [List.lookup, hb]
      rw [hlive]
      constructor
      · intro h; exact Or.inr h
      · rintro (⟨h, _⟩ | h)
        · exact absurd h hk
        · exact h
  · intro k p hl hexp hk
    rw [hitems]
    have hb : (k == newID buf) = false := by
      rw [beq_eq_false_iff_ne]; exact hk
    simp only [List.lookup, hb]
    cases hlk : (live s now).lookup k with
    | none => rfl
    | some p2 =>
      exfalso
      obtain ⟨hl2, hle⟩ := (hlive k p2).mp hlk
      rw [hl] at hl2
      cases hl2
      omega

/-- The store `twoStore` at instant 120: the entry created at 10 is swept, the one
created at 100 stays, the new id is added. -/
theorem store_evicts_expired_witness :
    (twoStore.items.map Prod.fst).Nodup
      ∧ newID [0, 1, 2, 3, 4, 5, 6, 7] ∉ (live twoStore 120).map Prod.fst
      ∧ (store twoStore otherPending 120 [0, 1, 2, 3, 4, 5, 6, 7]).2.items.lookup "0a0a" = none
      ∧ (store twoStore otherPending 120 [0, 1, 2, 3, 4, 5, 6, 7]).2.items.lookup "00ff"
          = some demoPending := by
  have hnodup : (twoStore.items.map Prod.fst).Nodup := by decide
  have hfresh : newID [0, 1, 2, 3, 4, 5, 6, 7] ∉ (live twoStore 120).map Prod.fst := by decide
  have hrep : ∀ e ∈ twoStore.items,
      time.minDuration ≤ 120 - e.2.created ∧ 120 - e.2.created ≤ time.maxDuration := by
    intro e he
    simp only [twoStore, List.mem_cons, List.mem_singleton, List.not_mem_nil, or_false] at he
    rcases he with he | he <;> subst he <;>
      simp only [demoPending, oldPending, time.minDuration, time.maxDuration] <;> omega
  have h := store_evicts_expired twoStore otherPending 120 [0, 1, 2, 3, 4, 5, 6, 7]
    hnodup hrep hfresh
  exact ⟨hnodup, hfresh, h.2.2.1 "0a0a" oldPending rfl (by decide) (by decide),
    (h.2.1 "00ff" demoPending).mpr (Or.inr ⟨rfl, by decide⟩)⟩

end proxy

namespace proxy

theorem addForwardedFor_value (L : Stdlib) (h : http.Header) (remoteAddr : String) :
    (addForwardedFor L h remoteAddr).lookup (L.CanonicalHeaderKey "X-Forwarded-For")
        = some
            [if http.Header.Get L.CanonicalHeaderKey h "X-Forwarded-For" = "" then
                (match L.SplitHostPort remoteAddr with
                  | Except.ok hp => hp.1
                  | Except.error _ => remoteAddr)
              else
                http.Header.Get L.CanonicalHeaderKey h "X-Forwarded-For" ++ ", "
                  ++ (match L.SplitHostPort remoteAddr with
                    | Except.ok hp => hp.1
                    | Except.error _ => remoteAddr)]
      ∧ ∀ k, k ≠ L.CanonicalHeaderKey "X-Forwarded-For" →
          (addForwardedFor L h remoteAddr).lookup k = h.lookup k := by
  refine ⟨?_, fun k hk => lookup_addForwardedFor_other L h remoteAddr k hk⟩
  unfold addForwardedFor
  simp only
  split
  · unfold http.Header.Set
    rw [lookup_set_self]
  · unfold http.Header.Set
    rw [lookup_set_self]

/-- C26 fails on the code: an outbound header set with the two `X-Forwarded-For`
values `1.1.1.1` and `2.2.2.2`, and the remote address `3.3.3.3:5000`:
`addForwardedFor` leaves the single value `1.1.1.1, 3.3.3.3`, in which `2.2.2.2` does
not occur; and `forward` sends exactly that for an inbound request with the two
lines. -/
theorem forwarded_for_drops_values :
    valuesAt
        (addForwardedFor xffLib [("X-Forwarded-For", ["1.1.1.1", "2.2.2.2"])] "3.3.3.3:5000")
        "X-Forwarded-For" = ["1.1.1.1, 3.3.3.3"]
      ∧ ¬ ("2.2.2.2".data <:+: "1.1.1.1, 3.3.3.3".data)
      ∧ (forward xffLib testServer xffRequest testPayloadBytes "00").2.map
          (fun o => valuesAt o.header "X-Forwarded-For") = [["1.1.1.1, 3.3.3.3"]] := by
  refine ⟨by decide, by decide, by decide⟩

end proxy

namespace extract

theorem lookup_of_mem_nodup {α : Type} (m : List (String × α)) (k : String) (v : α)
    (hnd : (m.map Prod.fst).Nodup) (h : (k, v) ∈ m) : m.lookup k = some v := by
  induction m with
  | nil => simp at h
  | cons e rest ih =>
    obtain ⟨k1, v1⟩ := e
    simp only [List.map_cons, List.nodup_cons] at hnd
    obtain ⟨hnot, hrest⟩ := hnd
    simp only [List.mem_cons, Prod.mk.injEq] at h
    rcases h with ⟨hk, hv⟩ | h
    · subst hk; subst hv
      simp [List.lookup]
    · have hk : k ≠ k1 := by
        intro heq
        apply hnot
        rw [← heq]
        exact List.mem_map.mpr ⟨(k, v), h, rfl⟩
      have hb : (k == k1) = false := by
        rw [beq_eq_false_iff_ne]; exact hk
      simp only [List.lookup, hb]
      exact ih hrest h

theorem mem_of_lookup {α : Type} (m : List (String × α)) (k : String) (v : α)
    (h : m.lookup k = some v) : (k, v) ∈ m := by
  induction m with
  | nil => simp [List.lookup] at h
  | cons e rest ih =>
    obtain ⟨k1, v1⟩ := e
    by_cases hb : (k == k1) = true
    · have hk : k = k1 := by simpa using hb
      simp only [List.lookup, hb, Option.some.injEq] at h
      rw [hk, h]
      simp
    · have hb2 : (k == k1) = false := by simpa using hb
      simp only [List.lookup, hb2] at h
      exact List.mem_cons_of_mem _ (ih h)

theorem lookup_perm {α : Type} (m m' : List (String × α)) (k : String)
    (hperm : m.Perm m') (hnd : (m.map Prod.fst).Nodup) : m'.lookup k = m.lookup k := by
  have hnd' : (m'.map Prod.fst).Nodup := (hperm.map Prod.fst).nodup_iff.mp hnd
  cases h : m.lookup k with
  | some v =>
    exact lookup_of_mem_nodup m' k v hnd' (hperm.mem_iff.mp (mem_of_lookup m k v h))
  | none =>
    cases h' : m'.lookup k with
    | none => rfl
    | some v =>
      have := lookup_of_mem_nodup m k v hnd (hperm.mem_iff.mpr (mem_of_lookup m' k v h'))
      rw [h] at this
      cases this

theorem collectText_perm (root root' : List (String × json.Value))
    (hperm : root.Perm root') (hnd : (root.map Prod.fst).Nodup) :
    collectText root' = collectText root := by
  unfold collectText
  rw [lookup_perm root root' "input" hperm hnd, lookup_perm root root' "messages" hperm hnd,
    lookup_perm root root' "prompt" hperm hnd]

theorem readContent_perm (obj obj' : List (String × json.Value))
    (hperm : obj.Perm obj') (hnd : (obj.map Prod.fst).Nodup) :
    readContent obj' = readContent obj := by
  unfold readContent
  rw [lookup_perm obj obj' "content" hperm hnd, lookup_perm obj obj' "text" hperm hnd]

/-- C22, as amended: for a body without repeated keys the extracted text does not
depend on the order in which the keys of the root, or `content` and `text` inside one
object, are written; it is the newline-join of the contributions of `input`, then
`messages`, then `prompt`, and inside one object of `content`, then `text`. -/
theorem collectText_fixed_order (root root' : List (String × json.Value))
    (hperm : root.Perm root') (hnd : (root.map Prod.fst).Nodup) :
    collectText root' = collectText root
      ∧ collectText root
          = String.intercalate "\n"
              (inputContributions root ++ messagesContributions root
                ++ promptContributions root)
      ∧ (∀ obj obj' : List (String × json.Value), obj.Perm obj' →
          (obj.map Prod.fst).Nodup →
          readContent obj' = readContent obj ∧ readContent obj = contentRule obj) :=
  ⟨collectText_perm root root' hperm hnd, collectText_eq root,
    fun obj obj' hp hn => ⟨readContent_perm obj obj' hp hn, readContent_eq obj⟩⟩

/-- The bodies `{"prompt":"a","messages":["b"]}` and `{"messages":["b"],"prompt":"a"}`
give the same text, `b` first. -/
theorem collectText_fixed_order_witness :
    promptFirstBody.Perm messagesFirstBody
      ∧ (promptFirstBody.map Prod.fst).Nodup
      ∧ collectText messagesFirstBody = collectText promptFirstBody
      ∧ collectText promptFirstBody = "b\na" :=
  ⟨List.Perm.swap _ _ _, by decide,
    (collectText_fixed_order promptFirstBody messagesFirstBody (List.Perm.swap _ _ _)
      (by decide)).1,
    by rfl⟩

/-- C22 fails as stated: in `{"prompt":"a","messages":["b"]}` the string `a` is
written before `b`, and in `{"input":{"text":"t","content":"c"}}` the string `t`
before `c`, yet the texts are `b`, newline, `a` and `c`, newline, `t`. -/
theorem text_not_in_document_order :
    (documentOrder promptFirstBody = ["a", "b"]
        ∧ collectText promptFirstBody = "b\na"
        ∧ collectText promptFirstBody ≠ String.intercalate "\n" (documentOrder promptFirstBody))
      ∧ (documentOrder textFirstBody = ["t", "c"]
        ∧ collectText textFirstBody = "c\nt"
        ∧ collectText textFirstBody ≠ String.intercalate "\n" (documentOrder textFirstBody)) := by
  refine ⟨⟨by rfl, by rfl, by decide⟩, ⟨by rfl, by rfl, by decide⟩⟩

end extract

namespace extract

/-- The number grammar admits `1e400`, `0`, `-0.5E+3` and `12.25e-7`, and rejects the
empty literal, `-`, `01`, `.5`, `1.`, `1e`, `1e+` and `+1`. -/
theorem validNumber_examples :
    json.validNumber "1e400" = true ∧ json.validNumber "0" = true
      ∧ json.validNumber "-0.5E+3" = true ∧ json.validNumber "12.25e-7" = true
      ∧ json.validNumber "" = false ∧ json.validNumber "-" = false
      ∧ json.validNumber "01" = false ∧ json.validNumber ".5" = false
      ∧ json.validNumber "1." = false ∧ json.validNumber "1e" = false
      ∧ json.validNumber "1e+" = false ∧ json.validNumber "+1" = false := by
  decide

/-- C5 fails as stated: the body `{"messages":["hi"],"n":1e400}` is a JSON text whose
root is an object, with the number `1e400` under the unknown key `n`. The decoder
rejects the literal as out of the range of a `float64`, and `FromJSON` returns that
error, although the body parses and its root is an object. With `1` in place of
`1e400` the same body yields the text `hi`. -/
theorem object_body_rejected_by_decoder :
    json.objectText rangeFields = "\x7b\"messages\":[\"hi\"],\"n\":1e400\x7d"
      ∧ json.wellFormed rangeFields = true
      ∧ rangeBody = json.asciiBytes (json.objectText rangeFields)
      ∧ rangeFields.map Prod.fst = ["messages", "n"]
      ∧ "n" ∉ ["input", "messages", "prompt", "tools", "functions"]
      ∧ FromJSON rangeUnmarshal rangeBody
          = Except.error "json: cannot unmarshal number 1e400 into Go value of type float64"
      ∧ smallBody = json.asciiBytes (json.objectText smallFields)
      ∧ FromJSON rangeUnmarshal smallBody = Except.ok { Text := "hi", ToolNames := [] } := by
  refine ⟨by decide, by decide, by decide, by decide, by decide, by rfl, by decide, by rfl⟩

end extract
